import Mathlib

/-!
# hashdeep: the chunked read-hash loop of `hash.cpp`

A shallow embedding of `src/hashdeep/hash.cpp` (`update_display`,
`file_fatal_error`, `compute_hash`, `md5deep_hash_triage`, `hash`, `hash_file`,
`hash_stdin`) together with a small model of the C stream library it drives.

Conventions of the embedding

* A byte is a `Nat`; the content of a stream is a `List Nat`.
* `uint64_t` counters that only ever grow by the number of bytes read
  (`actual_bytes`, `read_end`, `bytes_read`) are unbounded `Nat`: no stream of
  fewer than `2^64` bytes can wrap them.  Every subtraction the code performs on
  `uint64_t` is written with `sub64`, which wraps modulo `2^64`.
* Everything the code sends to a collaborator (digest accumulator, result
  display, `stderr`, `stdout`) is appended to `World.log`, oldest event first.
* Both loops (`while (TRUE)` in `compute_hash`, `while (!done)` in `hash`) take
  fuel; `Run.nofuel` is the answer of a loop that has not finished yet.
* An integer division by zero (undefined behaviour in C) is `Run.divzero`.
-/

namespace Hashdeep

/-! ## Constants of `<errno.h>` and `<stdio.h>` (Linux values) -/

def EIO : Nat := 5
def EBADF : Nat := 9
def EACCES : Nat := 13
def ENODEV : Nat := 19
def EINVAL : Nat := 22
def ETXTBSY : Nat := 26
def EFBIG : Nat := 27

def SEEK_SET : Int := 0
def SEEK_CUR : Int := 1
def SEEK_END : Int := 2

def TRUE : Int := 1
def FALSE : Int := 0

/-- Modelled from the spec: `STATUS_OK` of `main.h`, the per-file success value. -/
def STATUS_OK : Int := 0

/-- Modelled from the spec: `ONE_MEGABYTE` of `main.h` ("one MB"). -/
def ONE_MEGABYTE : Nat := 1048576

/-- Modelled from the spec: the mode flags of `main.h` ("mode bitmasks mutated
in place"): distinct single bits of `s->mode`. -/
def mode_estimate : Nat := 2 ^ 1
def mode_not_matched : Nat := 2 ^ 13
def mode_piecewise : Nat := 2 ^ 15
def mode_size : Nat := 2 ^ 19
def mode_size_all : Nat := 2 ^ 20
def mode_triage : Nat := 2 ^ 26

/-- The C test `(m & f)` used as a condition. -/
def flag (m f : Nat) : Bool := (m &&& f) != 0

/-- Subtraction of two `uint64_t` values. -/
def sub64 (a b : Nat) : Nat := (a + (2 ^ 64 - b % 2 ^ 64)) % 2 ^ 64

/-- Conversion of a `uint64_t` to `int` (the low 32 bits, two's complement). -/
def toInt32 (n : Nat) : Int :=
  if n % 2 ^ 32 < 2 ^ 31 then ((n % 2 ^ 32 : Nat) : Int) else ((n % 2 ^ 32 : Nat) : Int) - 2 ^ 32

/-- Conversion of a `time_t` to `uint64_t`. -/
def toUInt64 (t : Int) : Nat := (t % 2 ^ 64).toNat

/-! ## The stream library -/

/-- What the device does at one `fread` call: `ok` serves the request from the
content; `fault n e` delivers at most `n` bytes and then fails with `errno = e`. -/
inductive ReadOutcome where
  | ok
  | fault (n : Nat) (e : Nat)
deriving DecidableEq, Repr

/-- A C stream: content, position indicator, end-of-file and error indicators,
and the outcomes of the coming `fread` calls (once the list is used up every
read is served normally). -/
structure FILE where
  data : List Nat
  pos : Nat
  eof : Bool
  err : Bool
  script : List ReadOutcome
deriving DecidableEq, Repr

/-- Result of `fread(buffer, 1, n, h)`: the bytes stored at the start of the
buffer, the stream afterwards and `errno` afterwards. -/
structure ReadResult where
  bytes : List Nat
  h : FILE
  errno : Nat
deriving DecidableEq, Repr

/-- The call `fread(buffer, 1, n, h)`.  A request of zero bytes does nothing.  A
normal read delivers the next `n` bytes, or all that is left together with the
end-of-file indicator.  A faulting read delivers a prefix, sets the error
indicator and `errno`; the position is left after the delivered bytes. -/
def fread (h : FILE) (errno : Nat) (n : Nat) : ReadResult :=
  if n = 0 then ⟨[], h, errno⟩
  else
    match h.script with
    | ReadOutcome.fault k e :: rest =>
      let bytes := (h.data.drop h.pos).take (min k n)
      ⟨bytes, { h with pos := h.pos + bytes.length, err := true, script := rest }, e⟩
    | rest =>
      let bytes := (h.data.drop h.pos).take n
      ⟨bytes, { h with pos := h.pos + bytes.length, eof := h.eof || decide (bytes.length < n),
                       script := rest.tail }, errno⟩

def ferror (h : FILE) : Bool := h.err

def feof (h : FILE) : Bool := h.eof

def ftello (h : FILE) : Nat := h.pos

def clearerr (h : FILE) : FILE := { h with eof := false, err := false }

/-- The call `fseeko(h, offset, whence)`: returns the stream and `errno`.  An
unknown `whence` or a negative target fails with `EINVAL` and moves nothing; a
successful seek clears the end-of-file indicator. -/
def fseeko (h : FILE) (errno : Nat) (offset : Int) (whence : Int) : FILE × Nat :=
  let target : Option Int :=
    if whence = SEEK_SET then some offset
    else if whence = SEEK_CUR then some ((h.pos : Int) + offset)
    else if whence = SEEK_END then some ((h.data.length : Int) + offset)
    else none
  match target with
  | some t => if 0 ≤ t then ({ h with pos := t.toNat, eof := false }, errno) else (h, EINVAL)
  | none => (h, EINVAL)

/-! ## Data model -/

/-- The fields of a `file_data_hasher_t` a display collaborator is handed. -/
structure Result where
  read_start : Nat
  read_end : Nat
  file_name_annotation : String
  hash_hex : List String
deriving DecidableEq, Repr

/-- The three collaborators a finished digest is handed to. -/
inductive Collaborator where
  | display_hash
  | md5deep_display_hash
  | md5deep_is_known_hash
deriving DecidableEq, Repr

/-- One observable action. -/
inductive Event where
  /-- entry of `compute_hash` -/
  | compute_hash
  /-- `multihash_initialize` -/
  | init
  /-- `multihash_update(s, fdht, buffer, n)` with the `n` bytes it is given -/
  | update (bytes : List Nat)
  /-- `multihash_finalize` -/
  | finalize
  /-- a result handed to a collaborator, with the task as it is at the call -/
  | dispatch (c : Collaborator) (r : Result)
  /-- the triage line on `stdout` -/
  | printf (line : String)
  /-- `print_error_unicode(file_name, "error at offset ...", offset, strerror(errno))` -/
  | print_error (file_name : String) (offset : Nat) (errno : Nat)
  /-- raw text on `stderr` -/
  | stderr (text : String)
  /-- `display_filename(stderr, fdht, shorten)` -/
  | display_filename (text : String) (shorten : Bool)
  /-- the `fileobject` record of the DFXML writer -/
  | dfxml (file_name : String)
  /-- `fdht->close()` -/
  | close
deriving DecidableEq, Repr

structure file_data_hasher_t where
  handle : FILE
  is_stdin : Bool
  file_name : String
  stat_bytes : Nat
  stat_megs : Nat
  block_size : Nat
  read_start : Nat
  read_end : Nat
  bytes_read : Nat
  actual_bytes : Nat
  file_name_annotation : String
  hash_hex : List String
  /-- the running hash contexts: the bytes absorbed since `multihash_initialize` -/
  hash_context : List Nat
deriving DecidableEq, Repr

structure state where
  mode : Nat
  piecewise_size : Nat
  size_threshold : Nat
  start_time : Int
  last_time : Int
  md5deep_mode : Bool
  md5deep_mode_algorithm : Nat
  opt_silent : Bool
  dfxml : Bool
deriving DecidableEq, Repr

/-- The program state: run configuration, the file task, `errno`, the wall clock
(`clock` lists the values the coming `time` calls return, then `now` repeats) and
the log of observable actions. -/
structure World where
  s : state
  fdht : file_data_hasher_t
  errno : Nat
  clock : List Int
  now : Int
  log : List Event
deriving DecidableEq, Repr

/-- One entry of the table `hashes[]`. -/
structure algorithm_t where
  inuse : Bool
  bit_length : Nat
  /-- the hexadecimal digest of a byte sequence -/
  digest : List Nat → String

/-- What `hash.cpp` takes from the rest of the program. -/
structure Env where
  /-- `file_data_hasher_t::MD5DEEP_IDEAL_BLOCK_SIZE`, the capacity of `buffer` -/
  MD5DEEP_IDEAL_BLOCK_SIZE : Nat
  /-- the macro `BLANK_LINE` -/
  BLANK_LINE : String
  /-- the macro `UNKNOWN_FILE_SIZE` -/
  UNKNOWN_FILE_SIZE : Nat
  /-- the table `hashes[NUM_ALGORITHMS]` -/
  hashes : List algorithm_t
  /-- the value `md5deep_display_hash` returns for a result -/
  md5deep_display_hash : Result → Int
  /-- the size `find_file_size` finds for a stream -/
  find_file_size : FILE → Nat

/-- Outcome of a run of a loop. -/
inductive Run (α : Type) where
  | done (a : α)
  | divzero
  | nofuel
deriving DecidableEq, Repr

def World.emit (w : World) (e : Event) : World := { w with log := w.log ++ [e] }

def World.result (w : World) : Result :=
  ⟨w.fdht.read_start, w.fdht.read_end, w.fdht.file_name_annotation, w.fdht.hash_hex⟩

/-- The call `time(&t)`: the value read and the world afterwards. -/
def time (w : World) : Int × World :=
  match w.clock with
  | [] => (w.now, w)
  | t :: ts => (t, { w with now := t, clock := ts })

def itos (n : Nat) : String := toString n

/-- The conversion `%02llu`. -/
def fmt02 (n : Nat) : String := if n < 10 then "0" ++ toString n else toString n

/-- What `snprintf(msg, size, ...)` stores of the formatted text: at most
`size - 1` characters. -/
def snprintf (size : Nat) (text : String) : String := String.mk (text.data.take (size - 1))

/-! ## The digest accumulator -/

/-- Modelled from the spec: `multihash_initialize` (not in `hash.cpp`), "reset all
active algorithm contexts for a new pass". -/
def multihash_initialize (w : World) : World :=
  { w with fdht := { w.fdht with hash_context := [] }, log := w.log ++ [Event.init] }

/-- Modelled from the spec: `multihash_update` (not in `hash.cpp`), "feed the same
byte range to every active context": the first `n` bytes of `buffer`. -/
def multihash_update (w : World) (buffer : List Nat) (n : Nat) : World :=
  { w with fdht := { w.fdht with hash_context := w.fdht.hash_context ++ buffer.take n },
           log := w.log ++ [Event.update (buffer.take n)] }

/-- Modelled from the spec: `multihash_finalize` (not in `hash.cpp`), "compute and
store the hexadecimal digest for every active algorithm". -/
def multihash_finalize (env : Env) (w : World) : World :=
  { w with fdht := { w.fdht with hash_hex :=
                       (List.range env.hashes.length).map (fun i =>
                         match env.hashes.get? i with
                         | some a => if a.inuse then a.digest w.fdht.hash_context
                                     else w.fdht.hash_hex.getD i ""
                         | none => "") },
           log := w.log ++ [Event.finalize] }

/-! ## `update_display` -/

/-- The function `update_display(fdht, elapsed)`: `none` when the estimate divides
by zero, otherwise the world after the status line is rendered. -/
def update_display (env : Env) (w : World) (elapsed : Int) : Option World :=
  let mb_read : Nat :=
    if w.fdht.bytes_read < ONE_MEGABYTE then 1 else w.fdht.actual_bytes / ONE_MEGABYTE
  if w.fdht.stat_megs = 0 then
    let msg := snprintf 63
      (toString mb_read ++ "MB done. Unable to estimate remaining time." ++ env.BLANK_LINE)
    let w1 : World := { w with fdht := { w.fdht with file_name_annotation := msg } }
    some ((w1.emit (Event.stderr "\r")).emit (Event.display_filename msg true))
  else
    if toUInt64 elapsed = 0 then none
    else if w.fdht.actual_bytes / toUInt64 elapsed = 0 then none
    else
      let seconds0 : Nat :=
        sub64 (w.fdht.stat_bytes / (w.fdht.actual_bytes / toUInt64 elapsed)) (toUInt64 elapsed)
      let hour : Nat := seconds0 / 3600
      let seconds1 : Nat := sub64 seconds0 (hour * 3600)
      let min : Nat := seconds1 / 60
      let seconds : Nat := sub64 seconds1 (min * 60)
      let msg := snprintf 63
        (toString mb_read ++ "MB of " ++ toString w.fdht.stat_megs ++ "MB done, "
          ++ fmt02 hour ++ ":" ++ fmt02 min ++ ":" ++ fmt02 seconds ++ " left" ++ env.BLANK_LINE)
      let w1 : World := { w with fdht := { w.fdht with file_name_annotation := msg } }
      some ((w1.emit (Event.stderr "\r")).emit (Event.display_filename msg true))

/-! ## `file_fatal_error` -/

/-- The function `file_fatal_error()`, reading `errno`. -/
def file_fatal_error (errno : Nat) : Bool :=
  if errno = EINVAL then true
  else if errno = EACCES then true
  else if errno = ENODEV then true
  else if errno = EBADF then true
  else if errno = EFBIG then true
  else if errno = ETXTBSY then true
  else if errno = EIO then true
  else false

/-! ## `compute_hash` -/

/-- Where one turn of the `while (TRUE)` loop of `compute_hash` leaves the
function: it returns, it goes round again with new `mysize` and `remaining`, or
the estimate divides by zero. -/
inductive Step where
  | ret (b : Bool) (w : World)
  | next (mysize remaining : Nat) (w : World)
  | divzero
deriving DecidableEq, Repr

/-- Lines 143-149: `this_start` is taken before the call; the read fills the
start of the zeroed buffer and the three counters grow by `current_read`. -/
def compute_hash_read (mysize : Nat) (w : World) : World :=
  let r := fread w.fdht.handle w.errno mysize
  { w with errno := r.errno,
           fdht := { w.fdht with handle := r.h,
                                 actual_bytes := w.fdht.actual_bytes + r.bytes.length,
                                 read_end := w.fdht.read_end + r.bytes.length,
                                 bytes_read := w.fdht.bytes_read + r.bytes.length } }

/-- The buffer after `memset(buffer, 0, mysize)` and the read: the bytes read
followed by zeros up to `mysize`. -/
def compute_hash_buffer (mysize : Nat) (w : World) : List Nat :=
  let r := fread w.fdht.handle w.errno mysize
  r.bytes ++ List.replicate (mysize - r.bytes.length) 0

/-- Lines 190-192: `remaining` after the turn. -/
def next_remaining (w : World) (remaining current_read : Nat) : Nat :=
  if flag w.s.mode mode_piecewise then sub64 remaining current_read else remaining

/-- Lines 196-197: `mysize` for the next turn. -/
def next_mysize (env : Env) (w : World) (mysize remaining current_read : Nat) : Nat :=
  if flag w.s.mode mode_piecewise
      && decide (next_remaining w remaining current_read < env.MD5DEEP_IDEAL_BLOCK_SIZE)
  then next_remaining w remaining current_read else mysize

/-- Lines 200-210: the progress display at the end of a turn; `none` when the
estimate divides by zero. -/
def compute_hash_estimate (env : Env) (w : World) : Option World :=
  if flag w.s.mode mode_estimate then
    if (time w).2.s.last_time != (time w).1 then
      update_display env { (time w).2 with s := { (time w).2.s with last_time := (time w).1 } }
        ((time w).1 - (time w).2.s.start_time)
    else some (time w).2
  else some w

/-- Lines 179-210: the end-of-file test, the piecewise bookkeeping and the
progress display. -/
def compute_hash_tail (env : Env) (mysize remaining current_read : Nat) (w : World) : Step :=
  if feof w.fdht.handle then
    Step.ret true
      (if flag w.s.mode mode_estimate then w.emit (Event.stderr ("\r" ++ env.BLANK_LINE ++ "\r"))
       else w)
  else if flag w.s.mode mode_piecewise && next_remaining w remaining current_read == 0 then
    Step.ret true w
  else
    match compute_hash_estimate env w with
    | some w1 =>
      Step.next (next_mysize env w mysize remaining current_read)
        (next_remaining w remaining current_read) w1
    | none => Step.divzero

/-- Lines 154-159: the diagnostic of a failed read, unless silenced. -/
def compute_hash_report (w : World) : World :=
  if w.s.opt_silent then w
  else w.emit (Event.print_error w.fdht.file_name (ftello w.fdht.handle) w.errno)

/-- Lines 164-170: a recoverable error.  The buffer is fed with length
`current_read`, the indicators are cleared, and `fseeko` is called with
`SEEK_SET` as its second argument (the offset) and `this_start + mysize` as its
third (`whence`, an `int`). -/
def compute_hash_recover (mysize this_start : Nat) (buffer : List Nat) (current_read : Nat)
    (w : World) : World :=
  let w3 := multihash_update w buffer current_read
  let w4 : World := { w3 with fdht := { w3.fdht with handle := clearerr w3.fdht.handle } }
  let sk := fseeko w4.fdht.handle w4.errno SEEK_SET (toInt32 (this_start + mysize))
  { w4 with errno := sk.2, fdht := { w4.fdht with handle := sk.1 } }

/-- One turn of the `while (TRUE)` loop of `compute_hash` (lines 139-211). -/
def compute_hash_iter (env : Env) (mysize remaining : Nat) (w : World) : Step :=
  let this_start : Nat := w.fdht.read_end
  let buffer := compute_hash_buffer mysize w
  let current_read : Nat := (fread w.fdht.handle w.errno mysize).bytes.length
  let w1 := compute_hash_read mysize w
  if ferror w1.fdht.handle then
    if file_fatal_error (compute_hash_report w1).errno then
      Step.ret false (compute_hash_report w1)
    else
      compute_hash_tail env mysize remaining current_read
        (compute_hash_recover mysize this_start buffer current_read (compute_hash_report w1))
  else
    compute_hash_tail env mysize remaining current_read (multihash_update w1 buffer current_read)

/-- The world in which the end of a turn (lines 179-210) runs when the turn does
not return `FALSE`: after the read and the feeding of the sub-chunk, on either
branch of `if (ferror(fdht->handle))`. -/
def compute_hash_fed (mysize : Nat) (w : World) : World :=
  if ferror (compute_hash_read mysize w).fdht.handle then
    compute_hash_recover mysize w.fdht.read_end (compute_hash_buffer mysize w)
      (fread w.fdht.handle w.errno mysize).bytes.length
      (compute_hash_report (compute_hash_read mysize w))
  else
    multihash_update (compute_hash_read mysize w) (compute_hash_buffer mysize w)
      (fread w.fdht.handle w.errno mysize).bytes.length

/-- The `while (TRUE)` loop of `compute_hash`. -/
def compute_hash_loop (env : Env) : Nat → Nat → Nat → World → Run (Bool × World)
  | 0, _, _, _ => Run.nofuel
  | fuel + 1, mysize, remaining, w =>
    match compute_hash_iter env mysize remaining w with
    | Step.ret b w1 => Run.done (b, w1)
    | Step.next mysize1 remaining1 w1 => compute_hash_loop env fuel mysize1 remaining1 w1
    | Step.divzero => Run.divzero

/-- Lines 126-137: the first sub-chunk size and the counters of the pass. -/
def compute_hash_enter (w : World) : World :=
  let read_start : Nat := if w.fdht.is_stdin then w.fdht.read_start else ftello w.fdht.handle
  { w with fdht := { w.fdht with read_start := read_start, read_end := read_start,
                                 bytes_read := 0 },
           log := w.log ++ [Event.compute_hash] }

/-- The first value of `mysize` (lines 126-129). -/
def compute_hash_mysize (env : Env) (w : World) : Nat :=
  if w.fdht.block_size < env.MD5DEEP_IDEAL_BLOCK_SIZE then w.fdht.block_size
  else env.MD5DEEP_IDEAL_BLOCK_SIZE

/-- The function `compute_hash(s, fdht)`: `true` for `TRUE`, `false` for `FALSE`. -/
def compute_hash (env : Env) (fuel : Nat) (w : World) : Run (Bool × World) :=
  compute_hash_loop env fuel (compute_hash_mysize env w) w.fdht.block_size (compute_hash_enter w)

/-! ## `md5deep_hash_triage` -/

/-- Lines 223-224: the triage pass is a piecewise pass over 512 bytes. -/
def triage_setup (w : World) : World :=
  { w with fdht := { w.fdht with block_size := 512 },
           s := { w.s with mode := w.s.mode ||| mode_piecewise } }

/-- Line 235: the text the `printf` of the triage pass writes: `stat_bytes` in
decimal, a tab, and `hash_hex[md5deep_mode_algorithm]`. -/
def triage_line (w : World) : String :=
  toString w.fdht.stat_bytes ++ "\t" ++ w.fdht.hash_hex.getD w.s.md5deep_mode_algorithm ""

/-- Lines 234-235 on a task whose mode flags have become `mode`: the digests
are finalized and the triage line is printed. -/
def triage_report (env : Env) (mode : Nat) (w : World) : World :=
  let w4 : World := { w with s := { w.s with mode := mode } }
  let w5 := multihash_finalize env w4
  w5.emit (Event.printf (triage_line w5))

/-- Lines 232-235: after a successful triage pass `s->mode -= mode_piecewise`,
then the digests are finalized and the triage line is printed. -/
def triage_finish (env : Env) (w : World) : World :=
  triage_report env (sub64 w.s.mode mode_piecewise) w

/-- The function `md5deep_hash_triage(s, fdht)`; the value is `TRUE` when the
pass was aborted. -/
def md5deep_hash_triage (env : Env) (fuel : Nat) (w : World) : Run (Int × World) :=
  match compute_hash env fuel ( multihash_initialize (triage_setup w)) with
  | Run.done (false, w3) => Run.done (TRUE, w3)
  | Run.done (true, w3) => Run.done (FALSE, triage_finish env w3)
  | Run.divzero => Run.divzero
  | Run.nofuel => Run.nofuel

/-! ## `hash` -/

/-- Lines 289-300: in piecewise mode the result is annotated with its byte
range. -/
def hash_annotate (w : World) : World :=
  if flag w.s.mode mode_piecewise then
    let tmp_end : Nat := if w.fdht.read_end != 0 then sub64 w.fdht.read_end 1 else 0
    { w with fdht := { w.fdht with file_name_annotation :=
                         " offset " ++ itos w.fdht.read_start ++ "-" ++ itos tmp_end } }
  else w

/-- Lines 287-315: what `hash` does with a pass that succeeded. -/
def hash_dispatch (env : Env) (status : Int) (w : World) : Int × World :=
  if w.fdht.bytes_read != 0 || w.fdht.stat_bytes == 0 then
    let w2 := multihash_finalize env (hash_annotate w)
    if w2.s.md5deep_mode then
      if flag w2.s.mode mode_not_matched then
        (status, w2.emit (Event.dispatch Collaborator.md5deep_is_known_hash w2.result))
      else
        (env.md5deep_display_hash w2.result,
         w2.emit (Event.dispatch Collaborator.md5deep_display_hash w2.result))
    else (status, w2.emit (Event.dispatch Collaborator.display_hash w2.result))
  else (status, w)

/-- Lines 271-273: the start of one turn of the `while (!done)` loop. -/
def hash_pass_enter (w : World) : World :=
  let w1 := multihash_initialize w
  { w1 with fdht := { w1.fdht with read_start := w1.fdht.actual_bytes } }

/-- The `while (!done)` loop of `hash` (lines 270-322).  The value is `none` when
a pass was aborted (`return TRUE` at line 280) and the final `status` otherwise.
Every pass gets `fuel` turns of the inner loop. -/
def hash_loop (env : Env) (fuel : Nat) : Nat → Int → World → Run (Option Int × World)
  | 0, _, _ => Run.nofuel
  | n + 1, status, w =>
    match compute_hash env fuel (hash_pass_enter w) with
    | Run.done (false, w1) => Run.done (none, w1)
    | Run.done (true, w1) =>
      let r := hash_dispatch env status w1
      let done : Bool := if flag r.2.s.mode mode_piecewise then feof r.2.fdht.handle else true
      if done then Run.done (some r.1, r.2) else hash_loop env fuel n r.1 r.2
    | Run.divzero => Run.divzero
    | Run.nofuel => Run.nofuel

/-- Lines 249-254: the reset of `actual_bytes` and the start of the clock. -/
def hash_begin (w : World) : World :=
  let w1 : World := { w with fdht := { w.fdht with actual_bytes := 0 } }
  if flag w1.s.mode mode_estimate then
    let t := (time w1).1
    let w2 := (time w1).2
    { w2 with s := { w2.s with start_time := t, last_time := t } }
  else w1

/-- Lines 262-263: after the triage pass, `actual_bytes = 0` and
`fseeko(fdht->handle, 0, SEEK_SET)`. -/
def hash_rewind (w : World) : World :=
  let sk := fseeko w.fdht.handle w.errno 0 SEEK_SET
  { w with errno := sk.2, fdht := { w.fdht with actual_bytes := 0, handle := sk.1 } }

/-- Lines 266-268: in piecewise mode the block size is the piece size. -/
def hash_block_size (w : World) : World :=
  if flag w.s.mode mode_piecewise then
    { w with fdht := { w.fdht with block_size := w.s.piecewise_size } }
  else w

/-- Lines 266-335: the piece size, the loop and the DFXML record. -/
def hash_main (env : Env) (fuel : Nat) (w : World) : Run (Int × World) :=
  match hash_loop env fuel fuel FALSE (hash_block_size w) with
  | Run.done (none, w2) => Run.done (TRUE, w2)
  | Run.done (some status, w2) =>
    Run.done (status, if w2.s.dfxml then w2.emit (Event.dfxml w2.fdht.file_name) else w2)
  | Run.divzero => Run.divzero
  | Run.nofuel => Run.nofuel

/-- The function `hash(s, fdht)`. -/
def hash (env : Env) (fuel : Nat) (w : World) : Run (Int × World) :=
  let w1 := hash_begin w
  if flag w1.s.mode mode_triage then
    match md5deep_hash_triage env fuel w1 with
    | Run.done (_, w2) => hash_main env fuel (hash_rewind w2)
    | Run.divzero => Run.divzero
    | Run.nofuel => Run.nofuel
  else hash_main env fuel w1

/-! ## `hash_file` and `hash_stdin` -/

/-- The placeholder digests of a skipped file (lines 390-397): for every
algorithm in use, `'*'` pushed `bit_length / 4` times. -/
def skipped_hash_hex (env : Env) (old : List String) : List String :=
  (List.range env.hashes.length).map (fun i =>
    match env.hashes.get? i with
    | some a => if a.inuse then String.mk (List.replicate (a.bit_length / 4) '*')
                else old.getD i ""
    | none => "")

/-- The function `hash_file(s, fdht, fn)`.  `opened` is what `_tfopen(fn, "rb")`
returns: `none` for `NULL`, which leaves only the error message and `errno`. -/
def hash_file (env : Env) (fuel : Nat) (fn : String) (opened : Option FILE) (w : World) :
    Run (Int × World) :=
  let w1 : World := { w with fdht := { w.fdht with is_stdin := false, file_name := fn } }
  match opened with
  | some h =>
    let w2 : World := { w1 with fdht := { w1.fdht with handle := h } }
    let w3 : World :=
      if env.UNKNOWN_FILE_SIZE = w2.fdht.stat_bytes then
        { w2 with fdht := { w2.fdht with stat_bytes := env.find_file_size w2.fdht.handle } }
      else w2
    if flag w3.s.mode mode_size && decide (w3.fdht.stat_bytes > w3.s.size_threshold) then
      let w4 : World :=
        if flag w3.s.mode mode_size_all then
          let w5 : World :=
            { w3 with fdht := { w3.fdht with hash_hex := skipped_hash_hex env w3.fdht.hash_hex } }
          w5.emit (Event.dispatch Collaborator.display_hash w5.result)
        else w3
      Run.done (STATUS_OK, w4.emit Event.close)
    else
      let w4 : World :=
        if flag w3.s.mode mode_estimate then
          { w3 with fdht := { w3.fdht with stat_megs := w3.fdht.stat_bytes / ONE_MEGABYTE } }
        else w3
      match hash env fuel w4 with
      | Run.done (status, w5) => Run.done (status, w5.emit Event.close)
      | Run.divzero => Run.divzero
      | Run.nofuel => Run.nofuel
  | none => Run.done (STATUS_OK, w1.emit (Event.print_error fn 0 w1.errno))

/-- The function `hash_stdin(s)`.  The task of `w` stands for the freshly
constructed `file_data_hasher_t`, whose constructor is not in `hash.cpp`. -/
def hash_stdin (env : Env) (fuel : Nat) (stdin : FILE) (w : World) : Run (Int × World) :=
  hash env fuel
    { w with fdht := { w.fdht with file_name := "stdin", is_stdin := true, handle := stdin } }

/-! ## Reading the log -/

/-- The calls of the digest accumulator in a log, in order. -/
def accLog (l : List Event) : List Event :=
  l.filter (fun e => match e with
    | Event.init => true
    | Event.update _ => true
    | Event.finalize => true
    | _ => false)

/-- The results handed to a collaborator in a log, in order. -/
def dispatches (l : List Event) : List Result :=
  l.filterMap (fun e => match e with
    | Event.dispatch _ r => some r
    | _ => none)

/-- The sum of the lengths passed to `multihash_update` in a log. -/
def fedLength : List Event → Nat
  | [] => 0
  | Event.update bs :: l => bs.length + fedLength l
  | _ :: l => fedLength l

/-- The number of `compute_hash` passes started in a log. -/
def passes : List Event → Nat
  | [] => 0
  | Event.compute_hash :: l => passes l + 1
  | _ :: l => passes l

/-- For every `multihash_finalize` of a log, the bytes fed since the last
`multihash_initialize`, given the bytes `cur` fed before the log starts. -/
def digestInputsFrom : List Nat → List Event → List (List Nat)
  | _, [] => []
  | _, Event.init :: l => digestInputsFrom [] l
  | cur, Event.update bs :: l => digestInputsFrom (cur ++ bs) l
  | cur, Event.finalize :: l => cur :: digestInputsFrom cur l
  | cur, _ :: l => digestInputsFrom cur l

/-- For every `multihash_finalize` of a log, the bytes its digests are taken of. -/
def digestInputs (l : List Event) : List (List Nat) := digestInputsFrom [] l

/-- The events written to `stderr`. -/
def Event.isStderr : Event → Bool
  | Event.stderr _ => true
  | Event.display_filename _ _ => true
  | Event.print_error _ _ _ => true
  | _ => false

/-- A world without its display state: the last second rendered, the progress
text, the clock and what went to `stderr`. -/
def World.core (w : World) : World :=
  { w with s := { w.s with last_time := 0 },
           fdht := { w.fdht with file_name_annotation := "" },
           clock := [], now := 0,
           log := w.log.filter (fun e => !e.isStderr) }

/-- The world a step of `compute_hash` leaves, if any. -/
def Step.world : Step → Option World
  | Step.ret _ w => some w
  | Step.next _ _ w => some w
  | Step.divzero => none

/-- The estimate can divide by zero only when it is computed at all. -/
def World.mayTrap (w : World) : Prop :=
  flag w.s.mode mode_estimate = true ∧ w.fdht.stat_megs ≠ 0

/-- A stream whose reads never report an error. -/
def FILE.clean (h : FILE) : Prop :=
  h.err = false ∧ ∀ o ∈ h.script, o = ReadOutcome.ok

/-- The world after the sub-chunks `cs` were read from the stream without error
and fed to the accumulator, with end-of-file indicator `eof`. -/
def World.afterChunks (w : World) (cs : List (List Nat)) (eof : Bool) : World :=
  { w with
    fdht := { w.fdht with
      handle := { w.fdht.handle with pos := w.fdht.handle.pos + cs.flatten.length,
                                     eof := eof,
                                     script := w.fdht.handle.script.drop cs.length },
      actual_bytes := w.fdht.actual_bytes + cs.flatten.length,
      read_end := w.fdht.read_end + cs.flatten.length,
      bytes_read := w.fdht.bytes_read + cs.flatten.length,
      hash_context := w.fdht.hash_context ++ cs.flatten },
    log := w.log ++ cs.map Event.update }

/-- The byte range and the annotation of a dispatched result. -/
def Result.key (r : Result) : Nat × Nat × String :=
  (r.read_start, r.read_end, r.file_name_annotation)

/-- The number of pieces of a file of `S` bytes cut into pieces of `P` bytes:
`S / P` rounded up. -/
def pieceCount (P S : Nat) : Nat := (S + P - 1) / P

/-- The range and annotation of piece `k` of a file of `S` bytes cut into pieces
of `P` bytes: it starts at `k * P` and ends before `min ((k + 1) * P) S`. -/
def pieceKey (P S k : Nat) : Nat × Nat × String :=
  (k * P, min ((k + 1) * P) S,
   " offset " ++ itos (k * P) ++ "-" ++ itos (min ((k + 1) * P) S - 1))

/-- The bytes of piece `k` of `data` cut into pieces of `P` bytes. -/
def pieceBytes (P : Nat) (data : List Nat) (k : Nat) : List Nat := (data.drop (k * P)).take P

/-- The configuration of a task, which no pass changes. -/
structure Frame (w w' : World) : Prop where
  mode : w'.s.mode = w.s.mode
  piecewise_size : w'.s.piecewise_size = w.s.piecewise_size
  stat_bytes : w'.fdht.stat_bytes = w.fdht.stat_bytes
  stat_megs : w'.fdht.stat_megs = w.fdht.stat_megs
  block_size : w'.fdht.block_size = w.fdht.block_size
  is_stdin : w'.fdht.is_stdin = w.fdht.is_stdin
  data : w'.fdht.handle.data = w.fdht.handle.data

/-- What a turn of the loop of `hash` has done once its pass has read the
sub-chunks `cs` without error and left the end-of-file indicator at `eof`. -/
structure PassFacts (w w' : World) (cs : List (List Nat)) (eof : Bool) : Prop where
  frame : Frame w w'
  handle : w'.fdht.handle =
    { w.fdht.handle with pos := w.fdht.handle.pos + cs.flatten.length, eof := eof,
                         script := w.fdht.handle.script.drop cs.length }
  actual_bytes : w'.fdht.actual_bytes = w.fdht.actual_bytes + cs.flatten.length
  bytes_read : w'.fdht.bytes_read = cs.flatten.length
  read_start : w'.fdht.read_start =
    if w.fdht.is_stdin then w.fdht.actual_bytes else w.fdht.handle.pos
  read_end : w'.fdht.read_end = w'.fdht.read_start + cs.flatten.length
  hash_context : w'.fdht.hash_context = cs.flatten
  accLog : accLog w'.log = accLog w.log ++ (Event.init :: cs.map Event.update)
  dispatches : dispatches w'.log = dispatches w.log
  passes : passes w'.log = passes w.log + 1

/-! ## Sample inputs -/

/-- A configuration with a four-byte buffer and one 128-bit algorithm whose
"digest" spells out its input. -/
def sampleEnv : Env :=
  { MD5DEEP_IDEAL_BLOCK_SIZE := 4
    BLANK_LINE := "    "
    UNKNOWN_FILE_SIZE := 2 ^ 64 - 1
    hashes := [{ inuse := true, bit_length := 128, digest := fun bs => toString bs }]
    md5deep_display_hash := fun _ => 0
    find_file_size := fun h => h.data.length }

/-- A stream at offset 0 with the given content and read outcomes. -/
def sampleFile (data : List Nat) (script : List ReadOutcome) : FILE :=
  { data := data, pos := 0, eof := false, err := false, script := script }

/-- A task on `sampleFile data script` with `stat_bytes = size`, under the given
mode flags and piece size; `block_size` is 4. -/
def sampleWorld (data : List Nat) (script : List ReadOutcome) (mode piece size : Nat) : World :=
  { s := { mode := mode, piecewise_size := piece, size_threshold := 0, start_time := 0,
           last_time := 0, md5deep_mode := false, md5deep_mode_algorithm := 0,
           opt_silent := false, dfxml := false }
    fdht := { handle := sampleFile data script, is_stdin := false, file_name := "f",
              stat_bytes := size, stat_megs := 0, block_size := 4, read_start := 0,
              read_end := 0, bytes_read := 0, actual_bytes := 0,
              file_name_annotation := "", hash_hex := [""], hash_context := [] }
    errno := 0, clock := [], now := 0, log := [] }

/-- The error code `EINTR`, which `file_fatal_error` does not list. -/
def EINTR : Nat := 4

/-- The three bytes `"abc"` hashed whole-file. -/
def abcWorld : World := sampleWorld [97, 98, 99] [] 0 0 3

/-- An empty stream whose task has `stat_bytes = 5`, whole-file mode. -/
def staleSizeWorld : World := sampleWorld [] [] 0 0 5

/-- An empty stream of size 0 in piecewise mode, piece size 2. -/
def emptyPiecewiseWorld : World := sampleWorld [] [] mode_piecewise 2 0

/-- Ten bytes in piecewise mode, piece size 4, whose second read fails with
`EIO`. -/
def pieceFatalWorld : World :=
  sampleWorld [1, 2, 3, 4, 5, 6, 7, 8, 9, 10] [ReadOutcome.ok, ReadOutcome.fault 2 EIO]
    mode_piecewise 4 10

/-- Five bytes in piecewise mode, piece size 2. -/
def fivePiecewiseWorld : World := sampleWorld [1, 2, 3, 4, 5] [] mode_piecewise 2 5

/-- Ten bytes hashed whole-file with a triage pass first. -/
def triageWorld : World := sampleWorld [1, 2, 3, 4, 5, 6, 7, 8, 9, 10] [] mode_triage 0 10

/-- The world a finished run leaves (`w` itself when the run has none). -/
def Run.worldOr {α : Type} (r : Run (α × World)) (w : World) : World :=
  match r with
  | Run.done (_, w1) => w1
  | _ => w

/-- The configuration of `sampleEnv` with the 8192-byte buffer the comment at
line 123 speaks of. -/
def sampleEnv8192 : Env := { sampleEnv with MD5DEEP_IDEAL_BLOCK_SIZE := 8192 }

/-- Ten bytes whose first read fails with `EINTR` after two bytes; whole-file
mode. -/
def faultWorld : World := sampleWorld [1, 2, 3, 4, 5, 6, 7, 8, 9, 10] [ReadOutcome.fault 2 EINTR] 0 0 10

/-- Ten bytes whose first read fails with `EIO` after two bytes; whole-file
mode. -/
def fatalWorld : World := sampleWorld [1, 2, 3, 4, 5, 6, 7, 8, 9, 10] [ReadOutcome.fault 2 EIO] 0 0 10

/-- Lines 368-384 of `hash_file` once the file is open: the task with its name,
its handle `h`, and its size looked up when it was unknown. -/
def hash_file_opened (env : Env) (fn : String) (h : FILE) (w : World) : World :=
  let w2 : World :=
    { w with fdht := { w.fdht with is_stdin := false, file_name := fn, handle := h } }
  if env.UNKNOWN_FILE_SIZE = w2.fdht.stat_bytes then
    { w2 with fdht := { w2.fdht with stat_bytes := env.find_file_size w2.fdht.handle } }
  else w2

/-- Lines 405-407 of `hash_file`: with the estimate, `stat_megs` is computed. -/
def hash_file_megs (w : World) : World :=
  if flag w.s.mode mode_estimate then
    { w with fdht := { w.fdht with stat_megs := w.fdht.stat_bytes / ONE_MEGABYTE } }
  else w

/-- A task of 2000 bytes under a size threshold of 1000 with the skipped files
reported. -/
def skippedWorld : World :=
  { sampleWorld [1, 2, 3] [] (mode_size ||| mode_size_all) 0 2000 with
    s := { (sampleWorld [1, 2, 3] [] (mode_size ||| mode_size_all) 0 2000).s with
           size_threshold := 1000 } }

/-- Lines 249-268 of `hash`: the world at the first test of `while (!done)`, after
the reset, the optional triage pass with its rewind, and the choice of the block
size. -/
def hash_entry (env : Env) (fuel : Nat) (w : World) : Run World :=
  if flag (hash_begin w).s.mode mode_triage then
    match md5deep_hash_triage env fuel (hash_begin w) with
    | Run.done (_, w2) => Run.done (hash_block_size (hash_rewind w2))
    | Run.divzero => Run.divzero
    | Run.nofuel => Run.nofuel
  else Run.done (hash_block_size (hash_begin w))

/-- A task of 10 bytes before `hash_file` has set its name and its handle. -/
def unopenedWorld : World := sampleWorld [] [] 0 0 10

/-- Ten bytes with a triage pass whose first read fails with `EIO`. -/
def triageFatalWorld : World :=
  sampleWorld [1, 2, 3, 4, 5, 6, 7, 8, 9, 10] [ReadOutcome.fault 2 EIO] mode_triage 0 10

/-- Five bytes with a triage pass in piecewise mode, piece size 2. -/
def triagePiecewiseWorld : World :=
  sampleWorld [1, 2, 3, 4, 5] [] (mode_triage ||| mode_piecewise) 2 5

/-- Lines 35-38 of `update_display`: the megabyte counter. -/
def update_display_mb_read (fdht : file_data_hasher_t) : Nat :=
  if fdht.bytes_read < ONE_MEGABYTE then 1 else fdht.actual_bytes / ONE_MEGABYTE

/-- Line 55 of `update_display`: the estimate of the seconds that remain, in
`uint64_t` arithmetic. -/
def update_display_seconds (fdht : file_data_hasher_t) (elapsed : Int) : Nat :=
  sub64 (fdht.stat_bytes / (fdht.actual_bytes / toUInt64 elapsed)) (toUInt64 elapsed)

/-- Lines 61-65 of `update_display`: the hours, minutes and seconds of `seconds0`. -/
def update_display_hms (seconds0 : Nat) : Nat × Nat × Nat :=
  (seconds0 / 3600,
   sub64 seconds0 (seconds0 / 3600 * 3600) / 60,
   sub64 (sub64 seconds0 (seconds0 / 3600 * 3600))
     (sub64 seconds0 (seconds0 / 3600 * 3600) / 60 * 60))

/-- The format of lines 69-70 up to its last conversion `%s`. -/
def progress_text (mb_read stat_megs hour min seconds : Nat) : String :=
  toString mb_read ++ "MB of " ++ toString stat_megs ++ "MB done, "
    ++ fmt02 hour ++ ":" ++ fmt02 min ++ ":" ++ fmt02 seconds ++ " left"

/-- The format of line 43 up to its last conversion `%s`. -/
def unable_text (mb_read : Nat) : String :=
  toString mb_read ++ "MB done. Unable to estimate remaining time."

/-- Lines 45/77 and 80-81 of `update_display`: the message becomes the annotation
and is shown on `stderr`. -/
def update_display_show (w : World) (msg : String) : World :=
  (({ w with fdht := { w.fdht with file_name_annotation := msg } } : World).emit
    (Event.stderr "\r")).emit (Event.display_filename msg true)

/-- A task in piecewise mode with pieces of 8 bytes, 4 bytes into the piece that
starts at offset 5 MB of a file of 10 MB. -/
def mbWorld : World :=
  { sampleWorld [] [] (mode_piecewise ||| mode_estimate) 8 10485760 with
    fdht := { (sampleWorld [] [] (mode_piecewise ||| mode_estimate) 8 10485760).fdht with
              stat_megs := 10, block_size := 8, read_start := 5242880, read_end := 5242884,
              bytes_read := 4, actual_bytes := 5242884 } }

/-- A whole-file task whose stream has grown to 4 MB since its size was recorded
as 1 MB. -/
def grownWorld : World :=
  { sampleWorld [] [] mode_estimate 0 1048576 with
    fdht := { (sampleWorld [] [] mode_estimate 0 1048576).fdht with
              stat_megs := 1, read_end := 4194304, bytes_read := 4194304,
              actual_bytes := 4194304 } }

/-- A whole-file task of 100 MB of which 5621000 bytes are read. -/
def progressWorld : World :=
  { sampleWorld [] [] mode_estimate 0 104857600 with
    fdht := { (sampleWorld [] [] mode_estimate 0 104857600).fdht with
              stat_megs := 100, read_end := 5621000, bytes_read := 5621000,
              actual_bytes := 5621000 } }

/-- The worlds a pass goes through in its first `fuel` turns, in order: for every
turn the world at its start (line 139) and the world right after the read and the
update of the counters (line 149), and at the end the world the pass returns. -/
def compute_hash_points (env : Env) : Nat → Nat → Nat → World → List World
  | 0, _, _, w => [w]
  | fuel + 1, mysize, remaining, w =>
    w :: compute_hash_read mysize w ::
      match compute_hash_iter env mysize remaining w with
      | Step.ret _ w1 => [w1]
      | Step.next mysize1 remaining1 w1 => compute_hash_points env fuel mysize1 remaining1 w1
      | Step.divzero => []

/-- The points of the pass `compute_hash(s, fdht)` started in `w`, counters
initialised (lines 126-137). -/
def compute_hash_trace (env : Env) (fuel : Nat) (w : World) : List World :=
  compute_hash_points env fuel (compute_hash_mysize env w) w.fdht.block_size
    (compute_hash_enter w)

/-- The values of `mysize` and `remaining` and the world at the start of each of the
first `fuel` turns of the loop of `compute_hash` (line 139). -/
def compute_hash_heads (env : Env) : Nat → Nat → Nat → World → List (Nat × Nat × World)
  | 0, _, _, _ => []
  | fuel + 1, mysize, remaining, w =>
    (mysize, remaining, w) ::
      match compute_hash_iter env mysize remaining w with
      | Step.next mysize1 remaining1 w1 => compute_hash_heads env fuel mysize1 remaining1 w1
      | _ => []

/-- The turns of the pass `compute_hash(s, fdht)` started in `w`. -/
def compute_hash_turns (env : Env) (fuel : Nat) (w : World) : List (Nat × Nat × World) :=
  compute_hash_heads env fuel (compute_hash_mysize env w) w.fdht.block_size
    (compute_hash_enter w)

/-- Twelve bytes read in piecewise mode with a block of 10 bytes through the
four-byte buffer. -/
def chunkWorld : World :=
  { sampleWorld [1, 2, 3, 4, 5, 6, 7, 8, 9, 10, 11, 12] [] mode_piecewise 10 12 with
    fdht := { (sampleWorld [1, 2, 3, 4, 5, 6, 7, 8, 9, 10, 11, 12] [] mode_piecewise 10 12).fdht
              with block_size := 10 } }

/-- A task of 1 MB with the progress estimate, whose first read fails with the
recoverable `EINTR` without delivering a byte, while the clock goes from 100 to
101. -/
def stalledWorld : World :=
  { sampleWorld [1, 2, 3, 4, 5, 6, 7, 8, 9, 10] [ReadOutcome.fault 0 EINTR] mode_estimate 0
      1048576 with
    fdht := { (sampleWorld [1, 2, 3, 4, 5, 6, 7, 8, 9, 10] [ReadOutcome.fault 0 EINTR]
                mode_estimate 0 1048576).fdht with stat_megs := 1 }
    clock := [100, 101] }

/-- A task of 1 MB with the progress estimate, whose first read delivers its four
bytes without error, while the clock goes from 100 to 105. -/
def slowWorld : World :=
  { sampleWorld [1, 2, 3, 4, 5, 6, 7, 8, 9, 10] [] mode_estimate 0 1048576 with
    fdht := { (sampleWorld [1, 2, 3, 4, 5, 6, 7, 8, 9, 10] [] mode_estimate 0 1048576).fdht
              with stat_megs := 1 }
    clock := [100, 105] }

/-- An error-free task of 600 bytes with a triage pass. -/
def triageLongWorld : World := sampleWorld (List.replicate 600 1) [] mode_triage 0 600

/-- An empty stream of size 0 hashed with a triage pass first. -/
def emptyTriageWorld : World := sampleWorld [] [] mode_triage 0 0

/-! ## Logs -/

theorem accLog_append (a b : List Event) : accLog (a ++ b) = accLog a ++ accLog b := by
  simp [accLog]

theorem dispatches_append (a b : List Event) :
    dispatches (a ++ b) = dispatches a ++ dispatches b := by
  simp [dispatches]

theorem fedLength_append (a b : List Event) : fedLength (a ++ b) = fedLength a + fedLength b := by
  induction a with
  | nil => simp [fedLength]
  | cons e a ih => cases e <;> simp [fedLength, ih, Nat.add_assoc]

theorem passes_append (a b : List Event) : passes (a ++ b) = passes a + passes b := by
  induction a with
  | nil => simp [passes]
  | cons e a ih => cases e <;> simp [passes, ih]; omega

/-! ## The display state -/

theorem core_emit_stderr (w : World) (e : Event) (he : e.isStderr = true) :
    (w.emit e).core = w.core := by
  simp [World.core, World.emit, he]

theorem core_time (w : World) : (time w).2.core = w.core := by
  unfold time
  cases h : w.clock <;> simp [World.core]

theorem update_display_core (env : Env) (w w' : World) (e : Int)
    (h : update_display env w e = some w') : w'.core = w.core := by
  unfold update_display at h
  simp only [] at h
  split at h
  · simp only [Option.some.injEq] at h
    subst h
    simp [World.core, World.emit, Event.isStderr]
  · split at h
    · simp at h
    · split at h
      · simp at h
      · simp only [Option.some.injEq] at h
        subst h
        simp [World.core, World.emit, Event.isStderr]

theorem compute_hash_estimate_core (env : Env) (w w' : World)
    (h : compute_hash_estimate env w = some w') : w'.core = w.core := by
  unfold compute_hash_estimate at h
  by_cases he : flag w.s.mode mode_estimate = true
  · rw [if_pos he] at h
    by_cases ht : ((time w).2.s.last_time != (time w).1) = true
    · rw [if_pos ht] at h
      rw [update_display_core env _ _ _ h, ← core_time w]
      simp [World.core]
    · rw [if_neg ht] at h
      simp only [Option.some.injEq] at h
      subst h
      exact core_time w
  · rw [if_neg he] at h
    simp only [Option.some.injEq] at h
    subst h; rfl

/-- Without the estimate, or with an unknown size, the display never divides. -/
theorem compute_hash_estimate_none (env : Env) (w : World)
    (h : compute_hash_estimate env w = none) : w.mayTrap := by
  unfold compute_hash_estimate at h
  by_cases he : flag w.s.mode mode_estimate = true
  · refine ⟨he, ?_⟩
    intro hz
    rw [if_pos he] at h
    by_cases ht : ((time w).2.s.last_time != (time w).1) = true
    · rw [if_pos ht] at h
      have hz2 : (time w).2.fdht.stat_megs = 0 := by
        have := congrArg (fun x => x.fdht.stat_megs) (core_time w)
        simpa [World.core] using this.trans hz
      unfold update_display at h
      simp [hz2] at h
    · rw [if_neg ht] at h
      simp at h
  · rw [if_neg he] at h
    simp at h

/-- The three ways a turn can end after the sub-chunk is fed. -/
theorem compute_hash_tail_cases (env : Env) (m r n : Nat) (w : World) :
    (feof w.fdht.handle = true ∧ ∃ w', compute_hash_tail env m r n w = Step.ret true w'
        ∧ w'.core = w.core) ∨
    (feof w.fdht.handle = false ∧ flag w.s.mode mode_piecewise = true ∧ next_remaining w r n = 0
        ∧ compute_hash_tail env m r n w = Step.ret true w) ∨
    (feof w.fdht.handle = false
        ∧ ¬ (flag w.s.mode mode_piecewise = true ∧ next_remaining w r n = 0)
        ∧ ((compute_hash_tail env m r n w = Step.divzero ∧ w.mayTrap) ∨
           ∃ w', compute_hash_tail env m r n w
                  = Step.next (next_mysize env w m r n) (next_remaining w r n) w'
                ∧ w'.core = w.core)) := by
  unfold compute_hash_tail
  by_cases hf : feof w.fdht.handle = true
  · left
    refine ⟨hf, _, by rw [if_pos hf], ?_⟩
    by_cases he : flag w.s.mode mode_estimate = true
    · rw [if_pos he]; exact core_emit_stderr _ _ rfl
    · rw [if_neg he]
  · right
    rw [if_neg hf]
    have hf' : feof w.fdht.handle = false := by simpa using hf
    by_cases hp : (flag w.s.mode mode_piecewise && next_remaining w r n == 0) = true
    · left
      rw [if_pos hp]
      simp only [Bool.and_eq_true, beq_iff_eq] at hp
      exact ⟨hf', hp.1, hp.2, rfl⟩
    · right
      rw [if_neg hp]
      simp only [Bool.and_eq_true, beq_iff_eq] at hp
      refine ⟨hf', hp, ?_⟩
      cases hes : compute_hash_estimate env w with
      | none => left; exact ⟨rfl, compute_hash_estimate_none env w hes⟩
      | some w1 => right; exact ⟨w1, rfl, compute_hash_estimate_core env w w1 hes⟩

theorem fedLength_core (w : World) : fedLength w.core.log = fedLength w.log := by
  show fedLength (w.log.filter (fun e => !e.isStderr)) = fedLength w.log
  induction w.log with
  | nil => rfl
  | cons e l ih => cases e <;> first | exact ih | exact congrArg (_ + ·) ih

theorem accLog_core (w : World) : accLog w.core.log = accLog w.log := by
  show accLog (w.log.filter (fun e => !e.isStderr)) = accLog w.log
  induction w.log with
  | nil => rfl
  | cons e l ih => cases e <;> first | exact ih | exact congrArg (List.cons _) ih

theorem dispatches_core (w : World) : dispatches w.core.log = dispatches w.log := by
  show dispatches (w.log.filter (fun e => !e.isStderr)) = dispatches w.log
  induction w.log with
  | nil => rfl
  | cons e l ih => cases e <;> first | exact ih | exact congrArg (List.cons _) ih

theorem passes_core (w : World) : passes w.core.log = passes w.log := by
  show passes (w.log.filter (fun e => !e.isStderr)) = passes w.log
  induction w.log with
  | nil => rfl
  | cons e l ih => cases e <;> first | exact ih | exact congrArg (· + 1) ih

/-! ## `fread` -/

theorem fread_length_le (h : FILE) (e n : Nat) : (fread h e n).bytes.length ≤ n := by
  unfold fread
  by_cases hn : n = 0
  · simp [hn]
  · rw [if_neg hn]
    split
    · simp only [List.length_take]; omega
    · simp only [List.length_take]; omega

theorem buffer_take (m : Nat) (w : World) :
    (compute_hash_buffer m w).take (fread w.fdht.handle w.errno m).bytes.length
      = (fread w.fdht.handle w.errno m).bytes := by
  simp [compute_hash_buffer]

theorem fread_clean (h : FILE) (e n : Nat) (hc : h.clean) (hn : 1 ≤ n) :
    fread h e n =
      ⟨(h.data.drop h.pos).take n,
       { h with pos := h.pos + ((h.data.drop h.pos).take n).length,
                eof := h.eof || decide (((h.data.drop h.pos).take n).length < n),
                script := h.script.tail }, e⟩ := by
  unfold fread
  have hn0 : n ≠ 0 := by omega
  rw [if_neg hn0]
  split
  · rename_i k e' rest hs
    have := hc.2 (ReadOutcome.fault k e') (by rw [hs]; simp)
    cases this
  · rfl

theorem clean_tail (h : FILE) (hc : h.clean) (p : Nat) (b : Bool) :
    ({ h with pos := p, eof := b, script := h.script.tail } : FILE).clean := by
  refine ⟨hc.1, ?_⟩
  intro o ho
  exact hc.2 o (List.mem_of_mem_tail ho)

/-! ## One turn of the loop -/

theorem compute_hash_tail_world (env : Env) (m r n : Nat) (w w' : World)
    (h : (compute_hash_tail env m r n w).world = some w') : w'.core = w.core := by
  rcases compute_hash_tail_cases env m r n w with ⟨_, w1, h1, hc⟩ | ⟨_, _, _, h1⟩ | ⟨_, _, h1⟩
  · rw [h1] at h; simp only [Step.world, Option.some.injEq] at h; subst h; exact hc
  · rw [h1] at h; simp only [Step.world, Option.some.injEq] at h; subst h; rfl
  · rcases h1 with ⟨h1, _⟩ | ⟨w1, h1, hc⟩
    · rw [h1] at h; simp [Step.world] at h
    · rw [h1] at h; simp only [Step.world, Option.some.injEq] at h; subst h; exact hc

theorem compute_hash_tail_ne_false (env : Env) (m r n : Nat) (w w' : World) :
    compute_hash_tail env m r n w ≠ Step.ret false w' := by
  intro h
  rcases compute_hash_tail_cases env m r n w with ⟨_, w1, h1, _⟩ | ⟨_, _, _, h1⟩ | ⟨_, _, h1⟩
  · rw [h1] at h; simp at h
  · rw [h1] at h; simp at h
  · rcases h1 with ⟨h1, _⟩ | ⟨w1, h1, _⟩ <;> rw [h1] at h <;> simp at h

theorem fedLength_report (w : World) :
    fedLength (compute_hash_report w).log = fedLength w.log := by
  unfold compute_hash_report
  split
  · rfl
  · simp [World.emit, fedLength_append, fedLength]

theorem report_fdht (w : World) : (compute_hash_report w).fdht = w.fdht := by
  unfold compute_hash_report
  split <;> rfl

theorem report_errno (w : World) : (compute_hash_report w).errno = w.errno := by
  unfold compute_hash_report
  split <;> rfl

/-- A turn returns `FALSE` exactly when the read reported an error that
`file_fatal_error` lists; the world is then the one after the diagnostic. -/
theorem compute_hash_iter_false_iff (env : Env) (m r : Nat) (w w' : World) :
    compute_hash_iter env m r w = Step.ret false w' ↔
      (ferror (compute_hash_read m w).fdht.handle = true
        ∧ file_fatal_error (compute_hash_read m w).errno = true
        ∧ w' = compute_hash_report (compute_hash_read m w)) := by
  unfold compute_hash_iter
  simp only []
  by_cases he : ferror (compute_hash_read m w).fdht.handle = true
  · rw [if_pos he]
    by_cases hf : file_fatal_error (compute_hash_report (compute_hash_read m w)).errno = true
    · rw [if_pos hf]
      rw [report_errno] at hf
      constructor
      · intro h
        simp only [Step.ret.injEq, true_and] at h
        exact ⟨he, hf, h.symm⟩
      · rintro ⟨_, _, h⟩
        rw [h]
    · rw [if_neg hf]
      rw [report_errno] at hf
      constructor
      · intro h
        exact absurd h (compute_hash_tail_ne_false _ _ _ _ _ _)
      · rintro ⟨_, h, _⟩
        exact absurd h hf
  · rw [if_neg he]
    constructor
    · intro h
      exact absurd h (compute_hash_tail_ne_false _ _ _ _ _ _)
    · rintro ⟨h, _⟩
      exact absurd h he

/-- A turn that does not return `FALSE` ends as `compute_hash_tail` does on
`compute_hash_fed`. -/
theorem compute_hash_iter_eq_tail (env : Env) (m r : Nat) (w : World)
    (h : ¬ (ferror (compute_hash_read m w).fdht.handle = true
            ∧ file_fatal_error (compute_hash_read m w).errno = true)) :
    compute_hash_iter env m r w
      = compute_hash_tail env m r (fread w.fdht.handle w.errno m).bytes.length
          (compute_hash_fed m w) := by
  unfold compute_hash_iter compute_hash_fed
  simp only []
  by_cases he : ferror (compute_hash_read m w).fdht.handle = true
  · rw [if_pos he, if_pos he]
    have hf : ¬ file_fatal_error (compute_hash_report (compute_hash_read m w)).errno = true := by
      rw [report_errno]; exact fun hf => h ⟨he, hf⟩
    rw [if_neg hf]
  · rw [if_neg he, if_neg he]

theorem compute_hash_iter_world (env : Env) (m r : Nat) (w w' : World)
    (h : (compute_hash_iter env m r w).world = some w')
    (hne : compute_hash_iter env m r w ≠ Step.ret false w') :
    w'.core = (compute_hash_fed m w).core := by
  by_cases hc : ferror (compute_hash_read m w).fdht.handle = true
            ∧ file_fatal_error (compute_hash_read m w).errno = true
  · have := (compute_hash_iter_false_iff env m r w _).2 ⟨hc.1, hc.2, rfl⟩
    rw [this] at h hne
    simp only [Step.world, Option.some.injEq] at h
    subst h
    exact absurd rfl hne
  · rw [compute_hash_iter_eq_tail env m r w hc] at h
    exact compute_hash_tail_world _ _ _ _ _ _ h

theorem fed_log (m : Nat) (w : World) :
    ∃ pre, (compute_hash_fed m w).log
        = w.log ++ pre ++ [Event.update (fread w.fdht.handle w.errno m).bytes]
      ∧ ∀ e ∈ pre, e.isStderr = true := by
  unfold compute_hash_fed
  split
  · unfold compute_hash_recover compute_hash_report
    split
    · refine ⟨[], ?_, by simp⟩
      simp [multihash_update, compute_hash_read, buffer_take]
    · refine ⟨[Event.print_error (compute_hash_read m w).fdht.file_name
                (ftello (compute_hash_read m w).fdht.handle) (compute_hash_read m w).errno],
              ?_, by simp [Event.isStderr]⟩
      simp [multihash_update, compute_hash_read, buffer_take, World.emit]
  · refine ⟨[], ?_, by simp⟩
    simp [multihash_update, compute_hash_read, buffer_take]

theorem fed_counters (m : Nat) (w : World) :
    (compute_hash_fed m w).fdht.actual_bytes
        = w.fdht.actual_bytes + (fread w.fdht.handle w.errno m).bytes.length
    ∧ (compute_hash_fed m w).fdht.bytes_read
        = w.fdht.bytes_read + (fread w.fdht.handle w.errno m).bytes.length
    ∧ (compute_hash_fed m w).fdht.read_end
        = w.fdht.read_end + (fread w.fdht.handle w.errno m).bytes.length
    ∧ (compute_hash_fed m w).fdht.read_start = w.fdht.read_start := by
  unfold compute_hash_fed
  split
  · simp [compute_hash_recover, multihash_update, report_fdht, compute_hash_read]
  · simp [multihash_update, compute_hash_read]

/-! ## Byte accounting of a pass -/

theorem fedLength_fed (m : Nat) (w : World) :
    fedLength (compute_hash_fed m w).log
      = fedLength w.log + (fread w.fdht.handle w.errno m).bytes.length := by
  obtain ⟨pre, hlog, hpre⟩ := fed_log m w
  have hz : fedLength pre = 0 := by
    clear hlog
    induction pre with
    | nil => rfl
    | cons e l ih =>
      have he := hpre e (by simp)
      have hl := ih (fun x hx => hpre x (by simp [hx]))
      cases e <;> first | exact hl | simp [Event.isStderr] at he
  rw [hlog, fedLength_append, fedLength_append, hz]
  simp [fedLength]

theorem core_fedLength {w w' : World} (h : w'.core = w.core) :
    fedLength w'.log = fedLength w.log := by
  rw [← fedLength_core w', ← fedLength_core w, h]

theorem core_accLog {w w' : World} (h : w'.core = w.core) : accLog w'.log = accLog w.log := by
  rw [← accLog_core w', ← accLog_core w, h]

theorem core_fdht {w w' : World} (h : w'.core = w.core) :
    w'.fdht.actual_bytes = w.fdht.actual_bytes ∧ w'.fdht.bytes_read = w.fdht.bytes_read
      ∧ w'.fdht.read_end = w.fdht.read_end ∧ w'.fdht.read_start = w.fdht.read_start := by
  have h1 := congrArg (fun x => x.fdht.actual_bytes) h
  have h2 := congrArg (fun x => x.fdht.bytes_read) h
  have h3 := congrArg (fun x => x.fdht.read_end) h
  have h4 := congrArg (fun x => x.fdht.read_start) h
  exact ⟨h1, h2, h3, h4⟩

/-- Over the loop of a pass that returns `TRUE`, the three byte counts grow
by the same amount. -/
theorem compute_hash_loop_account (env : Env) :
    ∀ (fuel m r : Nat) (w w' : World),
      compute_hash_loop env fuel m r w = Run.done (true, w') →
      ∃ k, fedLength w'.log = fedLength w.log + k
         ∧ w'.fdht.bytes_read = w.fdht.bytes_read + k
         ∧ w'.fdht.actual_bytes = w.fdht.actual_bytes + k := by
  intro fuel
  induction fuel with
  | zero => intro m r w w' h; simp [compute_hash_loop] at h
  | succ fuel ih =>
    intro m r w w' h
    unfold compute_hash_loop at h
    have step : ∀ w1, (compute_hash_iter env m r w).world = some w1 →
        compute_hash_iter env m r w ≠ Step.ret false w1 →
        fedLength w1.log = fedLength w.log + (fread w.fdht.handle w.errno m).bytes.length
        ∧ w1.fdht.bytes_read = w.fdht.bytes_read + (fread w.fdht.handle w.errno m).bytes.length
        ∧ w1.fdht.actual_bytes
            = w.fdht.actual_bytes + (fread w.fdht.handle w.errno m).bytes.length := by
      intro w1 hw hne
      have hc := compute_hash_iter_world env m r w w1 hw hne
      have hf := core_fdht hc
      have hn := fed_counters m w
      exact ⟨by rw [core_fedLength hc, fedLength_fed], by rw [hf.2.1, hn.2.1],
             by rw [hf.1, hn.1]⟩
    cases hs : compute_hash_iter env m r w with
    | ret b w1 =>
      rw [hs] at h
      simp only [Run.done.injEq, Prod.mk.injEq] at h
      obtain ⟨hb, hw⟩ := h
      subst hb; subst hw
      have := step w1 (by rw [hs]; rfl) (by rw [hs]; simp)
      exact ⟨_, this⟩
    | next m1 r1 w1 =>
      rw [hs] at h
      simp only [] at h
      obtain ⟨k, hk⟩ := ih m1 r1 w1 w' h
      have := step w1 (by rw [hs]; rfl) (by rw [hs]; simp)
      refine ⟨(fread w.fdht.handle w.errno m).bytes.length + k, ?_, ?_, ?_⟩
      · rw [hk.1, this.1]; omega
      · rw [hk.2.1, this.2.1]; omega
      · rw [hk.2.2, this.2.2]; omega
    | divzero =>
      rw [hs] at h
      simp at h

/-- C7 (byte accounting): for every call of `compute_hash` that returns `TRUE`,
whatever the reads deliver (short reads, end of stream, recoverable errors), the
sum of the lengths passed to `multihash_update` during the call equals
`bytes_read` on return, and `actual_bytes` has grown by that same amount. -/
theorem C7_byte_accounting (env : Env) (fuel : Nat) (w w' : World)
    (h : compute_hash env fuel w = Run.done (true, w')) :
    fedLength w'.log = fedLength w.log + w'.fdht.bytes_read
      ∧ w'.fdht.actual_bytes = w.fdht.actual_bytes + w'.fdht.bytes_read := by
  unfold compute_hash at h
  obtain ⟨k, h1, h2, h3⟩ := compute_hash_loop_account env _ _ _ _ _ h
  have e1 : fedLength (compute_hash_enter w).log = fedLength w.log := by
    simp [compute_hash_enter, fedLength_append, fedLength]
  have e2 : (compute_hash_enter w).fdht.bytes_read = 0 := rfl
  have e3 : (compute_hash_enter w).fdht.actual_bytes = w.fdht.actual_bytes := rfl
  rw [e1] at h1; rw [e2] at h2; rw [e3] at h3
  constructor <;> omega


theorem buffer_length (m : Nat) (w : World) : (compute_hash_buffer m w).length = m := by
  have := fread_length_le w.fdht.handle w.errno m
  simp only [compute_hash_buffer, List.length_append, List.length_replicate]
  omega

/-- C7 at `faultWorld`: a pass with a recoverable error and a short last read. -/
theorem C7_byte_accounting_witness :
    fedLength ((compute_hash sampleEnv 10 faultWorld).worldOr faultWorld).log
        = fedLength faultWorld.log
          + ((compute_hash sampleEnv 10 faultWorld).worldOr faultWorld).fdht.bytes_read
      ∧ ((compute_hash sampleEnv 10 faultWorld).worldOr faultWorld).fdht.actual_bytes
        = faultWorld.fdht.actual_bytes
          + ((compute_hash sampleEnv 10 faultWorld).worldOr faultWorld).fdht.bytes_read :=
  C7_byte_accounting sampleEnv 10 faultWorld _ (by decide)

/-- C5 (zero-fill on a recoverable error), evaluated: the first read of
`faultWorld` asks for 8192 bytes and fails with `EINTR` after 2; the buffer then
holds those 2 bytes followed by zeros up to 8192, but `multihash_update` is given
the length `current_read = 2`, so the accumulator receives `[1, 2]` and none of
the zeros. -/
theorem C5_recoverable_error_feeds_current_read :
    ferror (compute_hash_read 8192 faultWorld).fdht.handle = true
    ∧ file_fatal_error (compute_hash_read 8192 faultWorld).errno = false
    ∧ (compute_hash_buffer 8192 faultWorld).length = 8192
    ∧ (compute_hash_buffer 8192 faultWorld).take 4 = [1, 2, 0, 0]
    ∧ (compute_hash_iter sampleEnv8192 8192 8192 faultWorld).world.map (fun w => accLog w.log)
        = some [Event.update [1, 2]] := by
  refine ⟨by decide, by decide, buffer_length 8192 faultWorld, by decide, by decide⟩

/-- C6 (forced resynchronisation), evaluated: the first read of `faultWorld`
(`this_start = 0`, `mysize = 8192`) fails with `EINTR` after 2 bytes.  The call
`fseeko(handle, SEEK_SET, this_start + mysize)` has offset `SEEK_SET = 0` and
`whence = 8192`, which no seek accepts: it fails with `EINVAL` and the stream stays
at offset 2 instead of 8192.  With `mysize = 2` the same call has `whence = 2 =
SEEK_END` and moves the stream to the end of the file, offset 10, instead of 2. -/
theorem C6_recoverable_error_seek_misplaced :
    (compute_hash_iter sampleEnv8192 8192 8192 faultWorld).world.map
        (fun w => (w.fdht.handle.pos, w.fdht.handle.err, w.errno)) = some (2, false, EINVAL)
    ∧ (compute_hash_iter sampleEnv8192 2 2
        (sampleWorld [1, 2, 3, 4, 5, 6, 7, 8, 9, 10] [ReadOutcome.fault 0 EINTR] 0 0 10)).world.map
        (fun w => (w.fdht.handle.pos, w.fdht.handle.err)) = some (10, false) := by
  constructor <;> decide

/-! ## Passes over a stream without errors -/

theorem afterChunks_afterChunks (w : World) (cs1 cs2 : List (List Nat)) (b1 b2 : Bool) :
    (w.afterChunks cs1 b1).afterChunks cs2 b2 = w.afterChunks (cs1 ++ cs2) b2 := by
  simp [World.afterChunks, Nat.add_assoc, List.append_assoc, Nat.add_comm cs1.length]

theorem afterChunks_core (w : World) (cs : List (List Nat)) (b : Bool) :
    (w.afterChunks cs b).core = (w.core.afterChunks cs b).core := by
  have hf : ∀ l : List (List Nat),
      (l.map Event.update).filter (fun e => !e.isStderr) = l.map Event.update := by
    intro l
    induction l with
    | nil => rfl
    | cons c l ih => exact congrArg (List.cons _) ih
  simp [World.afterChunks, World.core, hf]

theorem afterChunks_core_congr {w1 w2 : World} (h : w1.core = w2.core) (cs : List (List Nat))
    (b : Bool) : (w1.afterChunks cs b).core = (w2.afterChunks cs b).core := by
  rw [afterChunks_core w1, afterChunks_core w2, h]

theorem core_frame {w w' : World} (h : w'.core = w.core) :
    w'.fdht.handle = w.fdht.handle ∧ w'.s.mode = w.s.mode
      ∧ w'.fdht.stat_megs = w.fdht.stat_megs := by
  exact ⟨congrArg (fun x => x.fdht.handle) h, congrArg (fun x => x.s.mode) h,
         congrArg (fun x => x.fdht.stat_megs) h⟩

theorem core_mayTrap {w w' : World} (h : w'.core = w.core) (ht : w'.mayTrap) : w.mayTrap := by
  obtain ⟨_, h2, h3⟩ := core_frame h
  unfold World.mayTrap at ht ⊢
  rw [h2, h3] at ht
  exact ht

/-- On a clean stream a turn feeds the next `m` bytes (or what is left). -/
theorem fed_clean (m : Nat) (w : World) (hc : w.fdht.handle.clean)
    (he : w.fdht.handle.eof = false) (hm : 1 ≤ m) :
    compute_hash_fed m w
      = w.afterChunks [(w.fdht.handle.data.drop w.fdht.handle.pos).take m]
          (decide (((w.fdht.handle.data.drop w.fdht.handle.pos).take m).length < m)) := by
  have hr := fread_clean w.fdht.handle w.errno m hc hm
  have herr : ferror (compute_hash_read m w).fdht.handle = false := by
    simp only [compute_hash_read, hr, ferror]
    exact hc.1
  unfold compute_hash_fed
  rw [herr]
  simp only [Bool.false_eq_true, if_false]
  rw [multihash_update, buffer_take]
  simp only [compute_hash_read, hr, he, World.afterChunks]
  simp

theorem iter_clean (env : Env) (m r : Nat) (w : World) (hc : w.fdht.handle.clean)
    (hm : 1 ≤ m) :
    compute_hash_iter env m r w
      = compute_hash_tail env m r
          ((w.fdht.handle.data.drop w.fdht.handle.pos).take m).length (compute_hash_fed m w) := by
  have hr := fread_clean w.fdht.handle w.errno m hc hm
  have herr : ¬ (ferror (compute_hash_read m w).fdht.handle = true
            ∧ file_fatal_error (compute_hash_read m w).errno = true) := by
    simp only [compute_hash_read, hr, ferror]
    rw [hc.1]
    simp
  rw [compute_hash_iter_eq_tail env m r w herr, hr]

theorem afterChunks_frame (w : World) (cs : List (List Nat)) (b : Bool) :
    (w.afterChunks cs b).s = w.s ∧ (w.afterChunks cs b).fdht.stat_megs = w.fdht.stat_megs
      ∧ (w.afterChunks cs b).fdht.handle.data = w.fdht.handle.data
      ∧ (w.afterChunks cs b).fdht.handle.eof = b
      ∧ (w.afterChunks cs b).fdht.handle.pos = w.fdht.handle.pos + cs.flatten.length := by
  simp [World.afterChunks]

theorem afterChunks_clean (w : World) (cs : List (List Nat)) (b : Bool)
    (hc : w.fdht.handle.clean) : (w.afterChunks cs b).fdht.handle.clean := by
  refine ⟨hc.1, ?_⟩
  intro o ho
  exact hc.2 o (List.mem_of_mem_drop ho)

/-- The loop of a whole-file pass over a clean stream: it reads to the end of
the stream and returns `TRUE`, unless the estimate divides by zero. -/
theorem whole_loop (env : Env) :
    ∀ (fuel m r : Nat) (w : World),
      w.fdht.handle.clean → w.fdht.handle.eof = false →
      flag w.s.mode mode_piecewise = false → 1 ≤ m →
      w.fdht.handle.data.length - w.fdht.handle.pos < fuel →
      (compute_hash_loop env fuel m r w = Run.divzero ∧ w.mayTrap) ∨
      ∃ w' cs, compute_hash_loop env fuel m r w = Run.done (true, w')
        ∧ cs.flatten = w.fdht.handle.data.drop w.fdht.handle.pos
        ∧ w'.core = (w.afterChunks cs true).core := by
  intro fuel
  induction fuel with
  | zero => intro m r w _ _ _ _ h; omega
  | succ fuel ih =>
    intro m r w hc he hp hm hfuel
    have hfed := fed_clean m w hc he hm
    have hit := iter_clean env m r w hc hm
    obtain ⟨hFs, hFmeg, hFdata, hFeof, hFpos⟩ := afterChunks_frame w
      [(w.fdht.handle.data.drop w.fdht.handle.pos).take m]
      (decide (((w.fdht.handle.data.drop w.fdht.handle.pos).take m).length < m))
    have hlen : ((w.fdht.handle.data.drop w.fdht.handle.pos).take m).length
        = min m (w.fdht.handle.data.length - w.fdht.handle.pos) := by simp
    unfold compute_hash_loop
    rw [hit]
    rcases compute_hash_tail_cases env m r
        ((w.fdht.handle.data.drop w.fdht.handle.pos).take m).length (compute_hash_fed m w)
      with ⟨hf, w1, h1, hc1⟩ | ⟨_, hpw, _, _⟩ | ⟨hf, _, h1⟩
    · -- the short read: end of stream
      right
      rw [h1]
      rw [hfed] at hf hc1
      simp only [feof, hFeof, decide_eq_true_eq] at hf
      refine ⟨w1, [(w.fdht.handle.data.drop w.fdht.handle.pos).take m], rfl, ?_, ?_⟩
      · simp only [List.flatten_cons, List.flatten_nil, List.append_nil]
        apply List.take_of_length_le
        simp only [List.length_drop]
        omega
      · rw [hc1]
        have : decide (((w.fdht.handle.data.drop w.fdht.handle.pos).take m).length < m) = true := by
          simpa using hf
        rw [this]
    · rw [hfed, hFs, hp] at hpw
      cases hpw
    · rw [hfed] at hf
      simp only [feof, hFeof, decide_eq_false_iff_not] at hf
      have hfull : ((w.fdht.handle.data.drop w.fdht.handle.pos).take m).length = m := by
        have := fread_length_le w.fdht.handle w.errno m
        rw [fread_clean w.fdht.handle w.errno m hc hm] at this
        simp only at this
        omega
      have hdec : decide (((w.fdht.handle.data.drop w.fdht.handle.pos).take m).length < m)
          = false := by simpa using hf
      rcases h1 with ⟨h1, ht⟩ | ⟨w1, h1, hc1⟩
      · left
        rw [h1]
        refine ⟨rfl, ?_⟩
        rw [hfed] at ht
        unfold World.mayTrap at ht ⊢
        rw [hFs, hFmeg] at ht
        exact ht
      · rw [h1]
        simp only []
        rw [hfed, hdec] at hc1
        obtain ⟨h1h, h1m, h1g⟩ := core_frame hc1
        obtain ⟨gFs, gFmeg, gFdata, gFeof, gFpos⟩ := afterChunks_frame w
          [(w.fdht.handle.data.drop w.fdht.handle.pos).take m] false
        have hnm : next_mysize env (compute_hash_fed m w) m r
            ((w.fdht.handle.data.drop w.fdht.handle.pos).take m).length = m := by
          unfold next_mysize
          rw [hfed, hFs, hp]
          simp
        rw [hnm]
        have hflat : ([(w.fdht.handle.data.drop w.fdht.handle.pos).take m] : List (List Nat)).flatten.length
            = m := by simpa using hfull
        have hc1' : w1.fdht.handle.clean := by
          rw [h1h]; exact afterChunks_clean w _ _ hc
        have he1 : w1.fdht.handle.eof = false := by rw [h1h, gFeof]
        have hp1 : flag w1.s.mode mode_piecewise = false := by rw [h1m, gFs, hp]
        have hpos1 : w1.fdht.handle.pos = w.fdht.handle.pos + m := by
          rw [h1h, gFpos, hflat]
        have hdata1 : w1.fdht.handle.data = w.fdht.handle.data := by rw [h1h, gFdata]
        have hfuel1 : w1.fdht.handle.data.length - w1.fdht.handle.pos < fuel := by
          rw [hpos1, hdata1]
          rw [hlen] at hfull
          omega
        rcases ih m _ w1 hc1' he1 hp1 hm hfuel1 with ⟨h2, ht⟩ | ⟨w', cs, h2, hcs, hc2⟩
        · left
          refine ⟨h2, ?_⟩
          have := core_mayTrap hc1 ht
          unfold World.mayTrap at this ⊢
          rw [gFs, gFmeg] at this
          exact this
        · right
          refine ⟨w', (w.fdht.handle.data.drop w.fdht.handle.pos).take m :: cs, h2, ?_, ?_⟩
          · rw [List.flatten_cons, hcs, hpos1, hdata1, ← List.drop_drop]
            exact List.take_append_drop _ _
          · rw [hc2, afterChunks_core_congr hc1, afterChunks_afterChunks]
            rfl

theorem sub64_eq (a b : Nat) (ha : a < 2 ^ 64) (hb : b ≤ a) : sub64 a b = a - b := by
  unfold sub64
  have h : (2 : Nat) ^ 64 = 18446744073709551616 := by norm_num
  rw [h] at ha ⊢
  omega

/-- The loop of a piecewise pass over a clean stream: it reads the next
`r` bytes, or what is left of the stream, and returns `TRUE`, unless the
estimate divides by zero.  The end-of-file indicator is set exactly when fewer
than `r` bytes were left. -/
theorem piece_loop (env : Env) (hideal : 1 ≤ env.MD5DEEP_IDEAL_BLOCK_SIZE) :
    ∀ (fuel m r : Nat) (w : World),
      w.fdht.handle.clean → w.fdht.handle.eof = false →
      flag w.s.mode mode_piecewise = true → 1 ≤ r → r < 2 ^ 64 →
      m = min r env.MD5DEEP_IDEAL_BLOCK_SIZE →
      min r (w.fdht.handle.data.length - w.fdht.handle.pos) < fuel →
      (compute_hash_loop env fuel m r w = Run.divzero ∧ w.mayTrap) ∨
      ∃ w' cs, compute_hash_loop env fuel m r w = Run.done (true, w')
        ∧ cs.flatten = (w.fdht.handle.data.drop w.fdht.handle.pos).take r
        ∧ w'.core = (w.afterChunks cs
            (decide (w.fdht.handle.data.length - w.fdht.handle.pos < r))).core := by
  intro fuel
  induction fuel with
  | zero => intro m r w _ _ _ _ _ _ h; omega
  | succ fuel ih =>
    intro m r w hc he hp hr hr64 hmr hfuel
    have hm : 1 ≤ m := by omega
    have hfed := fed_clean m w hc he hm
    have hit := iter_clean env m r w hc hm
    obtain ⟨hFs, hFmeg, hFdata, hFeof, hFpos⟩ := afterChunks_frame w
      [(w.fdht.handle.data.drop w.fdht.handle.pos).take m]
      (decide (((w.fdht.handle.data.drop w.fdht.handle.pos).take m).length < m))
    have hlen : ((w.fdht.handle.data.drop w.fdht.handle.pos).take m).length
        = min m (w.fdht.handle.data.length - w.fdht.handle.pos) := by simp
    have hnr : next_remaining (compute_hash_fed m w) r
        ((w.fdht.handle.data.drop w.fdht.handle.pos).take m).length
        = r - ((w.fdht.handle.data.drop w.fdht.handle.pos).take m).length := by
      unfold next_remaining
      rw [hfed, hFs, hp, if_pos rfl]
      apply sub64_eq _ _ hr64
      rw [hlen]; omega
    unfold compute_hash_loop
    rw [hit]
    rcases compute_hash_tail_cases env m r
        ((w.fdht.handle.data.drop w.fdht.handle.pos).take m).length (compute_hash_fed m w)
      with ⟨hf, w1, h1, hc1⟩ | ⟨hf, _, hz, h1⟩ | ⟨hf, hnz, h1⟩
    · -- the short read: end of stream
      right
      rw [h1]
      rw [hfed] at hf hc1
      simp only [feof, hFeof, decide_eq_true_eq] at hf
      have hdec : decide (((w.fdht.handle.data.drop w.fdht.handle.pos).take m).length < m)
          = true := by simpa using hf
      have hdec2 : decide (w.fdht.handle.data.length - w.fdht.handle.pos < r) = true := by
        rw [hlen] at hf
        simp only [decide_eq_true_eq]; omega
      refine ⟨w1, [(w.fdht.handle.data.drop w.fdht.handle.pos).take m], rfl, ?_, ?_⟩
      · simp only [List.flatten_cons, List.flatten_nil, List.append_nil]
        rw [hlen] at hf
        rw [List.take_of_length_le, List.take_of_length_le]
        · simp only [List.length_drop]; omega
        · simp only [List.length_drop]; omega
      · rw [hc1, hdec, hdec2]
    · -- the piece is complete
      right
      rw [h1]
      rw [hfed] at hf
      simp only [feof, hFeof, decide_eq_false_iff_not] at hf
      rw [hnr] at hz
      have hdec : decide (((w.fdht.handle.data.drop w.fdht.handle.pos).take m).length < m)
          = false := by simpa using hf
      rw [hlen] at hf hz
      have hrm : r = m := by omega
      have hdec2 : decide (w.fdht.handle.data.length - w.fdht.handle.pos < r) = false := by
        simp only [decide_eq_false_iff_not]; omega
      refine ⟨_, [(w.fdht.handle.data.drop w.fdht.handle.pos).take m], rfl, ?_, ?_⟩
      · simp only [List.flatten_cons, List.flatten_nil, List.append_nil]
        rw [hrm]
      · rw [hfed, hdec, hdec2]
    · rw [hfed] at hf
      simp only [feof, hFeof, decide_eq_false_iff_not] at hf
      have hdec : decide (((w.fdht.handle.data.drop w.fdht.handle.pos).take m).length < m)
          = false := by simpa using hf
      have hfull : ((w.fdht.handle.data.drop w.fdht.handle.pos).take m).length = m := by
        rw [hlen] at hf ⊢; omega
      have hpF : flag (compute_hash_fed m w).s.mode mode_piecewise = true := by
        rw [hfed, hFs, hp]
      rw [hnr, hfull] at hnz
      have hrm : m < r := by
        have : ¬ (r - m = 0) := fun h => hnz ⟨hpF, h⟩
        omega
      rcases h1 with ⟨h1, ht⟩ | ⟨w1, h1, hc1⟩
      · left
        rw [h1]
        refine ⟨rfl, ?_⟩
        rw [hfed] at ht
        unfold World.mayTrap at ht ⊢
        rw [hFs, hFmeg] at ht
        exact ht
      · rw [h1]
        simp only []
        rw [hfed, hdec] at hc1
        obtain ⟨h1h, h1m, h1g⟩ := core_frame hc1
        obtain ⟨gFs, gFmeg, gFdata, gFeof, gFpos⟩ := afterChunks_frame w
          [(w.fdht.handle.data.drop w.fdht.handle.pos).take m] false
        have hnm : next_mysize env (compute_hash_fed m w) m r
            ((w.fdht.handle.data.drop w.fdht.handle.pos).take m).length
            = min (r - m) env.MD5DEEP_IDEAL_BLOCK_SIZE := by
          unfold next_mysize
          rw [hnr, hfull, hpF]
          by_cases hlt : r - m < env.MD5DEEP_IDEAL_BLOCK_SIZE
          · simp only [hlt, decide_True, Bool.and_self, if_true]; omega
          · simp only [hlt, decide_False, Bool.and_false, Bool.false_eq_true, if_false]; omega
        rw [hnm, hnr, hfull]
        have hflat : ([(w.fdht.handle.data.drop w.fdht.handle.pos).take m]
            : List (List Nat)).flatten.length = m := by simpa using hfull
        have hc1' : w1.fdht.handle.clean := by
          rw [h1h]; exact afterChunks_clean w _ _ hc
        have he1 : w1.fdht.handle.eof = false := by rw [h1h, gFeof]
        have hp1 : flag w1.s.mode mode_piecewise = true := by rw [h1m, gFs, hp]
        have hpos1 : w1.fdht.handle.pos = w.fdht.handle.pos + m := by
          rw [h1h, gFpos, hflat]
        have hdata1 : w1.fdht.handle.data = w.fdht.handle.data := by rw [h1h, gFdata]
        have hfuel1 : min (r - m) (w1.fdht.handle.data.length - w1.fdht.handle.pos) < fuel := by
          rw [hpos1, hdata1]
          rw [hlen] at hfull
          omega
        rcases ih _ (r - m) w1 hc1' he1 hp1 (by omega) (by omega) rfl hfuel1
          with ⟨h2, ht⟩ | ⟨w', cs, h2, hcs, hc2⟩
        · left
          refine ⟨h2, ?_⟩
          have := core_mayTrap hc1 ht
          unfold World.mayTrap at this ⊢
          rw [gFs, gFmeg] at this
          exact this
        · right
          refine ⟨w', (w.fdht.handle.data.drop w.fdht.handle.pos).take m :: cs, h2, ?_, ?_⟩
          · rw [List.flatten_cons, hcs, hpos1, hdata1, ← List.drop_drop, ← List.take_add]
            congr 1
            omega
          · rw [hc2, afterChunks_core_congr hc1, afterChunks_afterChunks, hpos1, hdata1]
            have : decide (w.fdht.handle.data.length - (w.fdht.handle.pos + m) < r - m)
                = decide (w.fdht.handle.data.length - w.fdht.handle.pos < r) := by
              rw [hlen] at hfull
              apply decide_eq_decide.2
              omega
            rw [this]
            rfl

/-! ## One turn of the loop of `hash` -/

theorem accLog_updates (cs : List (List Nat)) :
    accLog (cs.map Event.update) = cs.map Event.update := by
  induction cs with
  | nil => rfl
  | cons c cs ih => exact congrArg (List.cons _) ih

theorem dispatches_updates (cs : List (List Nat)) : dispatches (cs.map Event.update) = [] := by
  induction cs with
  | nil => rfl
  | cons c cs ih => exact ih

theorem passes_updates (cs : List (List Nat)) : passes (cs.map Event.update) = 0 := by
  induction cs with
  | nil => rfl
  | cons c cs ih => exact ih

theorem core_dispatches {w w' : World} (h : w'.core = w.core) :
    dispatches w'.log = dispatches w.log := by
  rw [← dispatches_core w', ← dispatches_core w, h]

theorem core_passes {w w' : World} (h : w'.core = w.core) : passes w'.log = passes w.log := by
  rw [← passes_core w', ← passes_core w, h]

theorem pass_facts (w w' : World) (cs : List (List Nat)) (b : Bool)
    (h : w'.core = ((compute_hash_enter (hash_pass_enter w)).afterChunks cs b).core) :
    PassFacts w w' cs b := by
  have hrs : w'.fdht.read_start
      = if w.fdht.is_stdin then w.fdht.actual_bytes else w.fdht.handle.pos := by
    have := congrArg (fun x => x.fdht.read_start) h
    simpa [World.core, World.afterChunks, compute_hash_enter, hash_pass_enter,
      multihash_initialize, ftello] using this
  refine
    { frame :=
        { mode := congrArg (fun x => x.s.mode) h
          piecewise_size := congrArg (fun x => x.s.piecewise_size) h
          stat_bytes := congrArg (fun x => x.fdht.stat_bytes) h
          stat_megs := congrArg (fun x => x.fdht.stat_megs) h
          block_size := congrArg (fun x => x.fdht.block_size) h
          is_stdin := congrArg (fun x => x.fdht.is_stdin) h
          data := congrArg (fun x => x.fdht.handle.data) h }
      handle := congrArg (fun x => x.fdht.handle) h
      actual_bytes := congrArg (fun x => x.fdht.actual_bytes) h
      bytes_read := ?_
      read_start := hrs
      read_end := ?_
      hash_context := ?_
      accLog := ?_
      dispatches := ?_
      passes := ?_ }
  · have := congrArg (fun x => x.fdht.bytes_read) h
    simpa [World.core, World.afterChunks, compute_hash_enter, hash_pass_enter,
      multihash_initialize] using this
  · have := congrArg (fun x => x.fdht.read_end) h
    rw [hrs]
    simpa [World.core, World.afterChunks, compute_hash_enter, hash_pass_enter,
      multihash_initialize, ftello] using this
  · have := congrArg (fun x => x.fdht.hash_context) h
    simpa [World.core, World.afterChunks, compute_hash_enter, hash_pass_enter,
      multihash_initialize] using this
  · rw [core_accLog h]
    simp only [World.afterChunks, compute_hash_enter, hash_pass_enter, multihash_initialize,
      accLog_append, accLog_updates]
    simp [accLog]
  · rw [core_dispatches h]
    simp only [World.afterChunks, compute_hash_enter, hash_pass_enter, multihash_initialize,
      dispatches_append, dispatches_updates]
    simp [dispatches]
  · rw [core_passes h]
    simp only [World.afterChunks, compute_hash_enter, hash_pass_enter, multihash_initialize,
      passes_append, passes_updates]
    simp [passes]

theorem enter_mayTrap (w : World) (h : (compute_hash_enter (hash_pass_enter w)).mayTrap) :
    w.mayTrap := h

/-- A whole-file pass over a clean stream. -/
theorem whole_pass (env : Env) (fuel : Nat) (w : World)
    (hideal : 1 ≤ env.MD5DEEP_IDEAL_BLOCK_SIZE) (hblock : 1 ≤ w.fdht.block_size)
    (hc : w.fdht.handle.clean) (he : w.fdht.handle.eof = false)
    (hp : flag w.s.mode mode_piecewise = false)
    (hfuel : w.fdht.handle.data.length - w.fdht.handle.pos < fuel) :
    (compute_hash env fuel (hash_pass_enter w) = Run.divzero ∧ w.mayTrap) ∨
    ∃ w' cs, compute_hash env fuel (hash_pass_enter w) = Run.done (true, w')
      ∧ cs.flatten = w.fdht.handle.data.drop w.fdht.handle.pos
      ∧ PassFacts w w' cs true := by
  unfold compute_hash
  have hm : 1 ≤ compute_hash_mysize env (hash_pass_enter w) := by
    unfold compute_hash_mysize
    split
    · exact hblock
    · exact hideal
  rcases whole_loop env fuel (compute_hash_mysize env (hash_pass_enter w))
      (hash_pass_enter w).fdht.block_size (compute_hash_enter (hash_pass_enter w))
      hc he hp hm hfuel with ⟨h1, ht⟩ | ⟨w', cs, h1, hcs, hcore⟩
  · exact Or.inl ⟨h1, ht⟩
  · exact Or.inr ⟨w', cs, h1, hcs, pass_facts w w' cs true hcore⟩

/-- A piecewise pass over a clean stream. -/
theorem piece_pass (env : Env) (fuel : Nat) (w : World)
    (hideal : 1 ≤ env.MD5DEEP_IDEAL_BLOCK_SIZE) (hblock : 1 ≤ w.fdht.block_size)
    (hblock64 : w.fdht.block_size < 2 ^ 64)
    (hc : w.fdht.handle.clean) (he : w.fdht.handle.eof = false)
    (hp : flag w.s.mode mode_piecewise = true)
    (hfuel : min w.fdht.block_size (w.fdht.handle.data.length - w.fdht.handle.pos) < fuel) :
    (compute_hash env fuel (hash_pass_enter w) = Run.divzero ∧ w.mayTrap) ∨
    ∃ w' cs, compute_hash env fuel (hash_pass_enter w) = Run.done (true, w')
      ∧ cs.flatten = (w.fdht.handle.data.drop w.fdht.handle.pos).take w.fdht.block_size
      ∧ PassFacts w w' cs
          (decide (w.fdht.handle.data.length - w.fdht.handle.pos < w.fdht.block_size)) := by
  unfold compute_hash
  have hm : compute_hash_mysize env (hash_pass_enter w)
      = min w.fdht.block_size env.MD5DEEP_IDEAL_BLOCK_SIZE := by
    unfold compute_hash_mysize
    show (if w.fdht.block_size < env.MD5DEEP_IDEAL_BLOCK_SIZE then w.fdht.block_size
          else env.MD5DEEP_IDEAL_BLOCK_SIZE) = _
    split <;> omega
  rcases piece_loop env hideal fuel (compute_hash_mysize env (hash_pass_enter w))
      w.fdht.block_size (compute_hash_enter (hash_pass_enter w))
      hc he hp hblock hblock64 hm hfuel with ⟨h1, ht⟩ | ⟨w', cs, h1, hcs, hcore⟩
  · exact Or.inl ⟨h1, ht⟩
  · exact Or.inr ⟨w', cs, h1, hcs, pass_facts w w' cs _ hcore⟩

/-! ## The dispatch of a result -/

theorem hash_dispatch_skip (env : Env) (st : Int) (w : World)
    (h1 : w.fdht.bytes_read = 0) (h2 : w.fdht.stat_bytes ≠ 0) :
    hash_dispatch env st w = (st, w) := by
  unfold hash_dispatch
  simp [h1, h2]

/-- The world after a result is dispatched through collaborator `c`. -/
theorem hash_dispatch_emit (env : Env) (st : Int) (w : World)
    (h : w.fdht.bytes_read ≠ 0 ∨ w.fdht.stat_bytes = 0) :
    ∃ c st', hash_dispatch env st w
      = (st', (multihash_finalize env (hash_annotate w)).emit
                (Event.dispatch c (multihash_finalize env (hash_annotate w)).result)) := by
  unfold hash_dispatch
  have hc : (w.fdht.bytes_read != 0 || w.fdht.stat_bytes == 0) = true := by
    rcases h with h | h
    · simp [h]
    · simp [h]
  rw [if_pos hc]
  simp only []
  split
  · split
    · exact ⟨_, _, rfl⟩
    · exact ⟨_, _, rfl⟩
  · exact ⟨_, _, rfl⟩

theorem hash_annotate_eq (w : World) :
    hash_annotate w
      = { w with fdht := { w.fdht with
            file_name_annotation := (hash_annotate w).fdht.file_name_annotation } } := by
  unfold hash_annotate
  split <;> rfl

/-- What the dispatch of a result leaves of the world. -/
theorem dispatched_facts (env : Env) (w : World) (c : Collaborator) :
    let w2 := (multihash_finalize env (hash_annotate w)).emit
                (Event.dispatch c (multihash_finalize env (hash_annotate w)).result)
    w2.s = w.s ∧ w2.fdht.handle = w.fdht.handle ∧ w2.fdht.actual_bytes = w.fdht.actual_bytes
      ∧ w2.fdht.stat_bytes = w.fdht.stat_bytes ∧ w2.fdht.stat_megs = w.fdht.stat_megs
      ∧ w2.fdht.block_size = w.fdht.block_size ∧ w2.fdht.is_stdin = w.fdht.is_stdin
      ∧ w2.log = w.log ++ [Event.finalize,
          Event.dispatch c (multihash_finalize env (hash_annotate w)).result]
      ∧ (multihash_finalize env (hash_annotate w)).result.read_start = w.fdht.read_start
      ∧ (multihash_finalize env (hash_annotate w)).result.read_end = w.fdht.read_end := by
  intro w2
  have h := hash_annotate_eq w
  refine ⟨?_, ?_, ?_, ?_, ?_, ?_, ?_, ?_, ?_, ?_⟩ <;>
    (try simp only [w2]) <;> (rw [h]; simp [multihash_finalize, World.emit, World.result])

theorem hash_dispatch_frame (env : Env) (st : Int) (w : World) :
    (hash_dispatch env st w).2.s = w.s
      ∧ (hash_dispatch env st w).2.fdht.handle = w.fdht.handle
      ∧ (hash_dispatch env st w).2.fdht.actual_bytes = w.fdht.actual_bytes
      ∧ Frame w (hash_dispatch env st w).2 := by
  by_cases h : w.fdht.bytes_read ≠ 0 ∨ w.fdht.stat_bytes = 0
  · obtain ⟨c, st', hd⟩ := hash_dispatch_emit env st w h
    obtain ⟨h1, h2, h3, h4, h5, h6, h7, _⟩ := dispatched_facts env w c
    rw [hd]
    exact ⟨h1, h2, h3, ⟨by rw [h1], by rw [h1], h4, h5, h6, h7, by rw [h2]⟩⟩
  · simp only [not_or, not_not] at h
    rw [hash_dispatch_skip env st w h.1 h.2]
    exact ⟨rfl, rfl, rfl, ⟨rfl, rfl, rfl, rfl, rfl, rfl, rfl⟩⟩

theorem hash_begin_facts (w : World) :
    (hash_begin w).s.mode = w.s.mode
      ∧ (hash_begin w).s.piecewise_size = w.s.piecewise_size
      ∧ (hash_begin w).fdht = { w.fdht with actual_bytes := 0 }
      ∧ (hash_begin w).log = w.log
      ∧ (hash_begin w).s.dfxml = w.s.dfxml := by
  unfold hash_begin
  simp only []
  split
  · unfold time
    split <;> simp
  · simp

/-! ## Whole-file mode -/

/-- The single turn of the loop of `hash` in whole-file mode. -/
theorem whole_hash_loop (env : Env) (fuel n : Nat) (st : Int) (w : World)
    (hideal : 1 ≤ env.MD5DEEP_IDEAL_BLOCK_SIZE) (hblock : 1 ≤ w.fdht.block_size)
    (hc : w.fdht.handle.clean) (he : w.fdht.handle.eof = false)
    (hp : flag w.s.mode mode_piecewise = false)
    (hfuel : w.fdht.handle.data.length - w.fdht.handle.pos < fuel) :
    (hash_loop env fuel (n + 1) st w = Run.divzero ∧ w.mayTrap) ∨
    ∃ w1 cs, cs.flatten = w.fdht.handle.data.drop w.fdht.handle.pos
      ∧ PassFacts w w1 cs true
      ∧ hash_loop env fuel (n + 1) st w
          = Run.done (some (hash_dispatch env st w1).1, (hash_dispatch env st w1).2) := by
  unfold hash_loop
  rcases whole_pass env fuel w hideal hblock hc he hp hfuel with ⟨h1, ht⟩ | ⟨w1, cs, h1, hcs, hf⟩
  · left
    rw [h1]
    exact ⟨rfl, ht⟩
  · right
    refine ⟨w1, cs, hcs, hf, ?_⟩
    rw [h1]
    simp only []
    have hm : flag (hash_dispatch env st w1).2.s.mode mode_piecewise = false := by
      rw [(hash_dispatch_frame env st w1).1, hf.frame.mode, hp]
    rw [hm]
    simp

theorem accLog_dfxml (w : World) :
    accLog (if w.s.dfxml then w.emit (Event.dfxml w.fdht.file_name) else w).log = accLog w.log
    ∧ dispatches (if w.s.dfxml then w.emit (Event.dfxml w.fdht.file_name) else w).log
        = dispatches w.log
    ∧ passes (if w.s.dfxml then w.emit (Event.dfxml w.fdht.file_name) else w).log
        = passes w.log := by
  split
  · simp [World.emit, accLog_append, dispatches_append, passes_append, accLog, dispatches, passes]
  · simp

/-- The projections of the log after the dispatch step. -/
theorem hash_dispatch_log (env : Env) (st : Int) (w : World) :
    (w.fdht.bytes_read = 0 ∧ w.fdht.stat_bytes ≠ 0
      ∧ (hash_dispatch env st w).1 = st ∧ (hash_dispatch env st w).2 = w) ∨
    ((w.fdht.bytes_read ≠ 0 ∨ w.fdht.stat_bytes = 0)
      ∧ accLog (hash_dispatch env st w).2.log = accLog w.log ++ [Event.finalize]
      ∧ passes (hash_dispatch env st w).2.log = passes w.log
      ∧ ∃ r, dispatches (hash_dispatch env st w).2.log = dispatches w.log ++ [r]
          ∧ r.read_start = w.fdht.read_start ∧ r.read_end = w.fdht.read_end
          ∧ r.file_name_annotation = (hash_annotate w).fdht.file_name_annotation) := by
  by_cases h : w.fdht.bytes_read ≠ 0 ∨ w.fdht.stat_bytes = 0
  · right
    obtain ⟨c, st', hd⟩ := hash_dispatch_emit env st w h
    obtain ⟨_, _, _, _, _, _, _, hlog, hrs, hre⟩ := dispatched_facts env w c
    rw [hd]
    simp only []
    refine ⟨h, ?_, ?_, _, ?_, hrs, hre, ?_⟩
    · rw [hlog, accLog_append]; rfl
    · rw [hlog, passes_append]; rfl
    · rw [hlog, dispatches_append]; rfl
    · simp [multihash_finalize, World.result]
  · left
    simp only [not_or, not_not] at h
    rw [hash_dispatch_skip env st w h.1 h.2]
    exact ⟨h.1, h.2, rfl, rfl⟩

/-- C1 (whole-file mode), as the code has it: on a finite stream at offset 0 whose
reads never report an error, with `mode_piecewise` and `mode_triage` clear and
`block_size ≥ 1`,
`hash` returns after exactly one `compute_hash` pass; the accumulator sees
`multihash_initialize`, then updates whose byte ranges concatenate to the whole
stream content, then `multihash_finalize`; and exactly one result is dispatched
when the stream has at least one byte (for an empty stream, one result exactly
when `stat_bytes = 0`).  The only other outcome is a division by zero in the
progress estimate, which needs `mode_estimate` set and `stat_megs ≠ 0`. -/
theorem C1_whole_file (env : Env) (fuel : Nat) (w : World)
    (hideal : 1 ≤ env.MD5DEEP_IDEAL_BLOCK_SIZE) (hblock : 1 ≤ w.fdht.block_size)
    (hpw : flag w.s.mode mode_piecewise = false) (htr : flag w.s.mode mode_triage = false)
    (hclean : w.fdht.handle.clean) (hpos : w.fdht.handle.pos = 0)
    (heof : w.fdht.handle.eof = false) (hfuel : w.fdht.handle.data.length < fuel) :
    (hash env fuel w = Run.divzero ∧ w.mayTrap) ∨
    ∃ (status : Int) (w' : World) (cs : List (List Nat)), hash env fuel w = Run.done (status, w')
      ∧ passes w'.log = passes w.log + 1
      ∧ cs.flatten = w.fdht.handle.data
      ∧ accLog w'.log = accLog w.log ++ (Event.init :: cs.map Event.update)
          ++ (if w.fdht.handle.data.length = 0 ∧ w.fdht.stat_bytes ≠ 0 then []
              else [Event.finalize])
      ∧ (dispatches w'.log).length = (dispatches w.log).length
          + (if w.fdht.handle.data.length = 0 ∧ w.fdht.stat_bytes ≠ 0 then 0 else 1) := by
  obtain ⟨hbm, hbp, hbf, hbl, hbd⟩ := hash_begin_facts w
  obtain ⟨n, rfl⟩ : ∃ n, fuel = n + 1 := ⟨fuel - 1, by omega⟩
  have hmain : hash env (n + 1) w
      = match hash_loop env (n + 1) (n + 1) FALSE (hash_begin w) with
        | Run.done (none, w2) => Run.done (TRUE, w2)
        | Run.done (some status, w2) =>
          Run.done (status, if w2.s.dfxml then w2.emit (Event.dfxml w2.fdht.file_name) else w2)
        | Run.divzero => Run.divzero
        | Run.nofuel => Run.nofuel := by
    unfold hash
    simp only []
    rw [hbm, htr]
    simp only [Bool.false_eq_true, if_false]
    unfold hash_main hash_block_size
    rw [hbm, hpw]
    simp only [Bool.false_eq_true, if_false]
  rw [hmain]
  have hc' : (hash_begin w).fdht.handle.clean := by rw [hbf]; exact hclean
  have hfuel' : (hash_begin w).fdht.handle.data.length - (hash_begin w).fdht.handle.pos
      < n + 1 := by rw [hbf]; simp only []; omega
  rcases whole_hash_loop env (n + 1) n FALSE (hash_begin w) hideal (by rw [hbf]; exact hblock)
      hc' (by rw [hbf]; exact heof) (by rw [hbm]; exact hpw) hfuel'
    with ⟨h1, ht⟩ | ⟨w1, cs, hcs, hf, h1⟩
  · left
    rw [h1]
    refine ⟨rfl, ?_⟩
    unfold World.mayTrap at ht ⊢
    rw [hbm, hbf] at ht
    exact ht
  · right
    rw [h1]
    simp only []
    rw [hbf] at hcs
    simp only [hpos, List.drop_zero] at hcs
    have hbr : w1.fdht.bytes_read = w.fdht.handle.data.length := by
      rw [hf.bytes_read, hcs]
    have hsb : w1.fdht.stat_bytes = w.fdht.stat_bytes := by
      rw [hf.frame.stat_bytes, hbf]
    obtain ⟨ha, hd, hp⟩ := accLog_dfxml (hash_dispatch env FALSE w1).2
    refine ⟨_, _, cs, rfl, ?_, hcs, ?_, ?_⟩
    · rw [hp]
      rcases hash_dispatch_log env FALSE w1 with ⟨_, _, _, h2⟩ | ⟨_, _, h2, _⟩
      · rw [h2, hf.passes, hbl]
      · rw [h2, hf.passes, hbl]
    · rw [ha]
      rcases hash_dispatch_log env FALSE w1 with ⟨hz, hnz, _, h2⟩ | ⟨hcond, h2, _⟩
      · rw [h2, hf.accLog, hbl]
        rw [hbr] at hz; rw [hsb] at hnz
        simp [hz, hnz]
      · rw [h2, hf.accLog, hbl]
        rw [hbr, hsb] at hcond
        have : ¬ (w.fdht.handle.data.length = 0 ∧ w.fdht.stat_bytes ≠ 0) := by
          rintro ⟨h3, h4⟩
          rcases hcond with h | h
          · exact h h3
          · exact h4 h
        rw [if_neg this]
    · rw [hd]
      rcases hash_dispatch_log env FALSE w1 with ⟨hz, hnz, _, h2⟩ | ⟨hcond, _, _, r, h2, _⟩
      · rw [h2, hf.dispatches, hbl]
        rw [hbr] at hz; rw [hsb] at hnz
        simp [hz, hnz]
      · rw [h2, hf.dispatches, hbl]
        rw [hbr, hsb] at hcond
        have : ¬ (w.fdht.handle.data.length = 0 ∧ w.fdht.stat_bytes ≠ 0) := by
          rintro ⟨h3, h4⟩
          rcases hcond with h | h
          · exact h h3
          · exact h4 h
        rw [if_neg this]
        simp

/-- C1 at the three bytes `"abc"`: one pass, the updates are exactly the bytes
97, 98, 99 between `multihash_initialize` and `multihash_finalize`, one result. -/
theorem C1_whole_file_witness :
    ∃ (status : Int) (w' : World) (cs : List (List Nat)),
      hash sampleEnv 4 abcWorld = Run.done (status, w')
      ∧ passes w'.log = 1 ∧ cs.flatten = [97, 98, 99]
      ∧ accLog w'.log = (Event.init :: cs.map Event.update) ++ [Event.finalize]
      ∧ (dispatches w'.log).length = 1 := by
  rcases C1_whole_file sampleEnv 4 abcWorld (by decide) (by decide) (by decide) (by decide)
      ⟨rfl, by decide⟩ rfl rfl (by decide) with ⟨_, ht⟩ | ⟨st, w', cs, h⟩
  · exact absurd ht.1 (by decide)
  · exact ⟨st, w', cs, h⟩

/-! ## The inputs of the digests -/

theorem digestInputsFrom_accLog (l : List Event) :
    ∀ cur, digestInputsFrom cur (accLog l) = digestInputsFrom cur l := by
  induction l with
  | nil => intro cur; rfl
  | cons e l ih =>
    intro cur
    cases e <;> first | exact ih _ | exact congrArg (List.cons _) (ih _)

theorem digestInputs_eq (l : List Event) : digestInputs l = digestInputsFrom [] (accLog l) :=
  (digestInputsFrom_accLog l []).symm

theorem digestInputsFrom_init (l rest : List Event) :
    ∀ cur, digestInputsFrom cur (l ++ Event.init :: rest)
      = digestInputsFrom cur l ++ digestInputsFrom [] rest := by
  induction l with
  | nil => intro cur; rfl
  | cons e l ih =>
    intro cur
    cases e <;> first | exact ih _ | exact congrArg (List.cons _) (ih _)

theorem digestInputsFrom_updates (cs : List (List Nat)) (rest : List Event) :
    ∀ cur, digestInputsFrom cur (cs.map Event.update ++ rest)
      = digestInputsFrom (cur ++ cs.flatten) rest := by
  induction cs with
  | nil => intro cur; simp
  | cons c cs ih =>
    intro cur
    show digestInputsFrom (cur ++ c) (cs.map Event.update ++ rest) = _
    rw [ih]
    simp

/-! ## Zero-length input -/

/-- A pass that finds nothing left on a clean stream: one read, zero bytes,
end of file. -/
theorem empty_loop (env : Env) (fuel m r : Nat) (w : World)
    (hc : w.fdht.handle.clean) (he : w.fdht.handle.eof = false) (hm : 1 ≤ m)
    (hd : w.fdht.handle.data.length ≤ w.fdht.handle.pos) :
    ∃ w', compute_hash_loop env (fuel + 1) m r w = Run.done (true, w')
      ∧ w'.core = (w.afterChunks [[]] true).core := by
  have hnil : (w.fdht.handle.data.drop w.fdht.handle.pos).take m = [] := by
    rw [List.drop_of_length_le hd]; exact List.take_nil
  have hfed := fed_clean m w hc he hm
  have hit := iter_clean env m r w hc hm
  rw [hnil] at hfed hit
  have hdec : decide (([] : List Nat).length < m) = true := by
    simp only [List.length_nil, decide_eq_true_eq]; omega
  rw [hdec] at hfed
  unfold compute_hash_loop
  rw [hit]
  rcases compute_hash_tail_cases env m r ([] : List Nat).length (compute_hash_fed m w)
    with ⟨_, w1, h1, hc1⟩ | ⟨hf, _⟩ | ⟨hf, _⟩
  · rw [h1]
    rw [hfed] at hc1
    exact ⟨w1, rfl, hc1⟩
  · rw [hfed] at hf
    simp [feof, World.afterChunks] at hf
  · rw [hfed] at hf
    simp [feof, World.afterChunks] at hf

/-- A run of `hash` on an empty clean stream whose task has `stat_bytes = 0`. -/
theorem zero_length_hash (env : Env) (fuel : Nat) (w : World)
    (hideal : 1 ≤ env.MD5DEEP_IDEAL_BLOCK_SIZE)
    (hblock : 1 ≤ (if flag w.s.mode mode_piecewise then w.s.piecewise_size
                   else w.fdht.block_size))
    (htr : flag w.s.mode mode_triage = false)
    (hclean : w.fdht.handle.clean) (hdata : w.fdht.handle.data = [])
    (heof : w.fdht.handle.eof = false) (hstat : w.fdht.stat_bytes = 0) (hfuel : 1 ≤ fuel) :
    ∃ (status : Int) (w' : World), hash env fuel w = Run.done (status, w')
      ∧ accLog w'.log = accLog w.log ++ [Event.init, Event.update [], Event.finalize]
      ∧ digestInputs w'.log = digestInputs w.log ++ [[]]
      ∧ ∃ r, dispatches w'.log = dispatches w.log ++ [r] := by
  obtain ⟨hbm, hbp, hbf, hbl, hbd⟩ := hash_begin_facts w
  obtain ⟨n, rfl⟩ : ∃ n, fuel = n + 1 := ⟨fuel - 1, by omega⟩
  -- the world at the head of the loop
  obtain ⟨w0, hw0, h0h, h0m, h0b, h0l, h0s⟩ : ∃ w0 : World,
      hash env (n + 1) w
        = (match hash_loop env (n + 1) (n + 1) FALSE w0 with
          | Run.done (none, w2) => Run.done (TRUE, w2)
          | Run.done (some status, w2) =>
            Run.done (status,
              if w2.s.dfxml then w2.emit (Event.dfxml w2.fdht.file_name) else w2)
          | Run.divzero => Run.divzero
          | Run.nofuel => Run.nofuel)
      ∧ w0.fdht.handle = w.fdht.handle ∧ w0.s.mode = w.s.mode
      ∧ 1 ≤ w0.fdht.block_size ∧ w0.log = w.log ∧ w0.fdht.stat_bytes = 0 := by
    by_cases hp : flag w.s.mode mode_piecewise = true
    · refine ⟨{ hash_begin w with
                fdht := { (hash_begin w).fdht with
                          block_size := (hash_begin w).s.piecewise_size } }, ?_, ?_, hbm, ?_, hbl, ?_⟩
      · unfold hash
        simp only []
        rw [hbm, htr]
        simp only [Bool.false_eq_true, if_false]
        unfold hash_main hash_block_size
        rw [hbm, hp]
        simp only [if_true]
      · simp only [hbf]
      · simp only [hbp]
        rw [if_pos hp] at hblock
        exact hblock
      · simp only [hbf]
        exact hstat
    · have hp' : flag w.s.mode mode_piecewise = false := by simpa using hp
      refine ⟨hash_begin w, ?_, by rw [hbf], hbm, ?_, hbl, by rw [hbf]; exact hstat⟩
      · unfold hash
        simp only []
        rw [hbm, htr]
        simp only [Bool.false_eq_true, if_false]
        unfold hash_main hash_block_size
        rw [hbm, hp']
        simp only [Bool.false_eq_true, if_false]
      · rw [hbf]
        rw [hp'] at hblock
        simpa using hblock
  rw [hw0]
  have hm : 1 ≤ compute_hash_mysize env (hash_pass_enter w0) := by
    unfold compute_hash_mysize
    split
    · exact h0b
    · exact hideal
  obtain ⟨w1, h1, hcore⟩ := empty_loop env n (compute_hash_mysize env (hash_pass_enter w0))
    (hash_pass_enter w0).fdht.block_size (compute_hash_enter (hash_pass_enter w0))
    (by show w0.fdht.handle.clean; rw [h0h]; exact hclean)
    (by show w0.fdht.handle.eof = false; rw [h0h]; exact heof) hm
    (by show w0.fdht.handle.data.length ≤ _; rw [h0h, hdata]; exact Nat.zero_le _)
  have hf := pass_facts w0 w1 [[]] true hcore
  have hloop : hash_loop env (n + 1) (n + 1) FALSE w0
      = Run.done (some (hash_dispatch env FALSE w1).1, (hash_dispatch env FALSE w1).2) := by
    unfold hash_loop
    unfold compute_hash
    rw [h1]
    simp only []
    have hfe : feof (hash_dispatch env FALSE w1).2.fdht.handle = true := by
      rw [(hash_dispatch_frame env FALSE w1).2.1, hf.handle]
      rfl
    rw [hfe]
    simp
  rw [hloop]
  simp only []
  obtain ⟨ha, hd, _⟩ := accLog_dfxml (hash_dispatch env FALSE w1).2
  have hsb : w1.fdht.stat_bytes = 0 := by rw [hf.frame.stat_bytes, h0s]
  rcases hash_dispatch_log env FALSE w1 with ⟨_, hnz, _⟩ | ⟨_, h2, _, r, h3, _⟩
  · exact absurd hsb hnz
  · have hacc : accLog ((if (hash_dispatch env FALSE w1).2.s.dfxml then
          (hash_dispatch env FALSE w1).2.emit
            (Event.dfxml (hash_dispatch env FALSE w1).2.fdht.file_name)
        else (hash_dispatch env FALSE w1).2)).log
        = accLog w.log ++ [Event.init, Event.update [], Event.finalize] := by
      rw [ha, h2, hf.accLog, h0l]
      simp
    refine ⟨_, _, rfl, hacc, ?_, r, ?_⟩
    · rw [digestInputs_eq, hacc, digestInputsFrom_init, ← digestInputs_eq]
      rfl
    · rw [hd, h3, hf.dispatches, h0l]

/-- C9 as stated fails: the stream of `staleSizeWorld` is empty (its first read
returns 0 bytes at end of stream) but the task has `stat_bytes = 5`, and `hash`
returns without dispatching a result and without `multihash_finalize`. -/
theorem C9_counterexample :
    staleSizeWorld.fdht.handle.data = []
    ∧ ¬ ∃ (status : Int) (w' : World), hash sampleEnv 4 staleSizeWorld = Run.done (status, w')
        ∧ (dispatches w'.log).length = 1 := by
  refine ⟨rfl, ?_⟩
  rintro ⟨st, w', h, hd⟩
  have h0 : hash sampleEnv 4 staleSizeWorld
      = Run.done (0, (hash sampleEnv 4 staleSizeWorld).worldOr staleSizeWorld) := by decide
  rw [h0] at h
  simp only [Run.done.injEq, Prod.mk.injEq] at h
  rw [← h.2] at hd
  revert hd
  decide

/-! ## Aborted passes -/

theorem dispatches_report (w : World) :
    dispatches (compute_hash_report w).log = dispatches w.log := by
  unfold compute_hash_report
  split
  · rfl
  · simp [World.emit, dispatches]

theorem dispatches_fed (m : Nat) (w : World) :
    dispatches (compute_hash_fed m w).log = dispatches w.log := by
  obtain ⟨pre, hlog, hpre⟩ := fed_log m w
  have hz : dispatches pre = [] := by
    clear hlog
    induction pre with
    | nil => rfl
    | cons e l ih =>
      have he := hpre e (by simp)
      have hl := ih (fun x hx => hpre x (by simp [hx]))
      cases e <;> first | exact hl | simp [Event.isStderr] at he
  rw [hlog, dispatches_append, dispatches_append, hz]
  simp [dispatches]

/-- No turn of the loop of `compute_hash` dispatches a result; a loop that
returns `FALSE` leaves the error indicator set and a fatal `errno`. -/
theorem compute_hash_loop_dispatches (env : Env) :
    ∀ (fuel m r : Nat) (w w' : World) (b : Bool),
      compute_hash_loop env fuel m r w = Run.done (b, w') →
      dispatches w'.log = dispatches w.log
      ∧ (b = false → ferror w'.fdht.handle = true ∧ file_fatal_error w'.errno = true) := by
  intro fuel
  induction fuel with
  | zero => intro m r w w' b h; simp [compute_hash_loop] at h
  | succ fuel ih =>
    intro m r w w' b h
    unfold compute_hash_loop at h
    have step : ∀ w1, (compute_hash_iter env m r w).world = some w1 →
        dispatches w1.log = dispatches w.log := by
      intro w1 hw
      by_cases hfalse : compute_hash_iter env m r w = Step.ret false w1
      · rw [((compute_hash_iter_false_iff env m r w w1).1 hfalse).2.2, dispatches_report]
        rfl
      · rw [core_dispatches (compute_hash_iter_world env m r w w1 hw hfalse), dispatches_fed]
    cases hs : compute_hash_iter env m r w with
    | ret b1 w1 =>
      rw [hs] at h
      simp only [Run.done.injEq, Prod.mk.injEq] at h
      obtain ⟨hb, hw⟩ := h
      subst hb; subst hw
      refine ⟨step w1 (by rw [hs]; rfl), ?_⟩
      intro hb
      subst hb
      obtain ⟨h1, h2, h3⟩ := (compute_hash_iter_false_iff env m r w w1).1 hs
      rw [h3, report_fdht, report_errno]
      exact ⟨h1, h2⟩
    | next m1 r1 w1 =>
      rw [hs] at h
      simp only [] at h
      obtain ⟨h1, h2⟩ := ih m1 r1 w1 w' b h
      exact ⟨by rw [h1, step w1 (by rw [hs]; rfl)], h2⟩
    | divzero =>
      rw [hs] at h
      simp at h

/-- C8 (fatal abort), as the code has it: when a pass of the loop of `hash` is
aborted (`compute_hash` returns `FALSE`, which it does exactly on a read error
that `file_fatal_error` lists), the loop stops there, `hash` returns `TRUE` with
the world as the aborted pass left it, and nothing is dispatched for that pass
or after it.  When the aborted pass is the first one (whole-file mode, or the
first piece) and there is no triage, no result at all is dispatched for the
file.  Results of pieces completed before the aborted pass stay dispatched. -/
theorem C8_fatal_abort (env : Env) (fuel n : Nat) (st : Int) (w w1 : World)
    (hfail : compute_hash env fuel (hash_pass_enter w) = Run.done (false, w1)) :
    (ferror w1.fdht.handle = true ∧ file_fatal_error w1.errno = true)
    ∧ hash_loop env fuel (n + 1) st w = Run.done (none, w1)
    ∧ dispatches w1.log = dispatches w.log
    ∧ (∀ w0 : World, flag w0.s.mode mode_triage = false →
        w = hash_block_size (hash_begin w0) →
        hash env fuel w0 = Run.done (TRUE, w1) ∧ dispatches w1.log = dispatches w0.log) := by
  have hd : dispatches w1.log = dispatches w.log
      ∧ (false = false → ferror w1.fdht.handle = true ∧ file_fatal_error w1.errno = true) := by
    unfold compute_hash at hfail
    obtain ⟨h1, h2⟩ := compute_hash_loop_dispatches env _ _ _ _ _ _ hfail
    refine ⟨?_, h2⟩
    rw [h1]
    simp [compute_hash_enter, hash_pass_enter, multihash_initialize, dispatches_append,
      dispatches]
  have hloop : ∀ k st', hash_loop env fuel (k + 1) st' w = Run.done (none, w1) := by
    intro k st'
    unfold hash_loop
    rw [hfail]
  refine ⟨hd.2 rfl, hloop n st, hd.1, ?_⟩
  intro w0 htr hw
  obtain ⟨hbm, _, _, hbl, _⟩ := hash_begin_facts w0
  have hfuel : ∃ k, fuel = k + 1 := by
    cases fuel with
    | zero => simp [compute_hash, compute_hash_loop] at hfail
    | succ k => exact ⟨k, rfl⟩
  obtain ⟨k, hk⟩ := hfuel
  constructor
  · unfold hash
    simp only []
    rw [hbm, htr]
    simp only [Bool.false_eq_true, if_false]
    unfold hash_main
    rw [← hw]
    have := hloop k FALSE
    rw [← hk] at this
    rw [this]
  · rw [hd.1, hw]
    unfold hash_block_size
    split
    · exact hbl ▸ rfl
    · exact hbl ▸ rfl

/-- C8 at `fatalWorld`: the first read of a whole-file pass fails with `EIO`;
`hash` returns `TRUE` and the log holds no result. -/
theorem C8_fatal_abort_witness :
    hash sampleEnv 4 fatalWorld
        = Run.done (TRUE, (hash sampleEnv 4 fatalWorld).worldOr fatalWorld)
    ∧ dispatches ((hash sampleEnv 4 fatalWorld).worldOr fatalWorld).log = [] :=
  (C8_fatal_abort sampleEnv 4 0 FALSE (hash_block_size (hash_begin fatalWorld))
    ((hash sampleEnv 4 fatalWorld).worldOr fatalWorld) (by decide)).2.2.2 fatalWorld
    (by decide) rfl

/-- C8 as stated fails in piecewise mode: in `pieceFatalWorld` (piece size 4)
the first piece is hashed and dispatched, the read of the second piece fails
with the fatal `EIO`, and `hash` returns `TRUE` with one result dispatched. -/
theorem C8_counterexample :
    file_fatal_error EIO = true
    ∧ ¬ ∃ w' : World, hash sampleEnv 4 pieceFatalWorld = Run.done (TRUE, w')
        ∧ dispatches w'.log = [] := by
  refine ⟨by decide, ?_⟩
  rintro ⟨w', h, hd⟩
  have h0 : hash sampleEnv 4 pieceFatalWorld
      = Run.done (TRUE, (hash sampleEnv 4 pieceFatalWorld).worldOr pieceFatalWorld) := by
    decide
  rw [h0] at h
  simp only [Run.done.injEq, Prod.mk.injEq, true_and] at h
  rw [← h] at hd
  revert hd
  decide

/-! ## Piecewise mode -/

theorem pieceCount_exact (P S j : Nat) (hP : 1 ≤ P) (h : j * P = S) :
    pieceCount P S = j ∧ S / P = j := by
  unfold pieceCount
  constructor
  · apply Nat.div_eq_of_lt_le
    · omega
    · rw [Nat.succ_mul]; omega
  · apply Nat.div_eq_of_lt_le
    · omega
    · rw [Nat.succ_mul]; omega

theorem pieceCount_last (P S j : Nat) (hP : 1 ≤ P) (h1 : j * P < S) (h2 : S - j * P < P) :
    pieceCount P S = j + 1 ∧ S / P = j := by
  unfold pieceCount
  constructor
  · apply Nat.div_eq_of_lt_le
    · rw [Nat.succ_mul]; omega
    · rw [Nat.succ_mul, Nat.succ_mul]; omega
  · apply Nat.div_eq_of_lt_le
    · omega
    · rw [Nat.succ_mul]; omega

theorem pieceCount_more (P S j : Nat) (hP : 1 ≤ P) (h : (j + 1) * P ≤ S) :
    j + 1 ≤ pieceCount P S ∧ j + 1 ≤ S / P := by
  unfold pieceCount
  constructor
  · rw [Nat.le_div_iff_mul_le (by omega)]; omega
  · rw [Nat.le_div_iff_mul_le (by omega)]; omega

/-- The annotation of a piece is the one `pieceKey` gives. -/
theorem annotate_piece (w : World) (hp : flag w.s.mode mode_piecewise = true)
    (h1 : 1 ≤ w.fdht.read_end) (h64 : w.fdht.read_end < 2 ^ 64) :
    (hash_annotate w).fdht.file_name_annotation
      = " offset " ++ itos w.fdht.read_start ++ "-" ++ itos (w.fdht.read_end - 1) := by
  unfold hash_annotate
  rw [if_pos hp]
  have hne : (w.fdht.read_end != 0) = true := by
    simp only [bne_iff_ne, ne_eq]; omega
  simp only [hne, if_true]
  rw [sub64_eq _ _ h64 h1]


theorem digest_pass (cs : List (List Nat)) (rest : List Event) (cur : List Nat) :
    digestInputsFrom cur ((Event.init :: cs.map Event.update) ++ Event.finalize :: rest)
      = cs.flatten :: digestInputsFrom cs.flatten rest := by
  show digestInputsFrom [] (cs.map Event.update ++ Event.finalize :: rest) = _
  rw [digestInputsFrom_updates]
  simp [digestInputsFrom]

theorem digest_pass_open (cs : List (List Nat)) (cur : List Nat) :
    digestInputsFrom cur (Event.init :: cs.map Event.update) = [] := by
  show digestInputsFrom [] (cs.map Event.update) = _
  have := digestInputsFrom_updates cs [] []
  rw [List.append_nil] at this
  rw [this]
  rfl

/-- What one piecewise turn of the loop of `hash` does at piece `j` of a clean
stream: the pass, then the dispatch step. -/
theorem piecewise_turn (env : Env) (hideal : 1 ≤ env.MD5DEEP_IDEAL_BLOCK_SIZE) (fuel : Nat)
    (data : List Nat) (P : Nat) (hP : 1 ≤ P) (hP64 : P < 2 ^ 64)
    (hS : 1 ≤ data.length) (hS64 : data.length < 2 ^ 64) (hfuel : data.length < fuel)
    (j : Nat) (st : Int) (w : World)
    (hc : w.fdht.handle.clean) (he : w.fdht.handle.eof = false)
    (hdata : w.fdht.handle.data = data) (hpos : w.fdht.handle.pos = j * P)
    (hab : w.fdht.actual_bytes = j * P) (hle : j * P ≤ data.length)
    (hp : flag w.s.mode mode_piecewise = true) (hb : w.fdht.block_size = P)
    (hsb : w.fdht.stat_bytes = data.length) :
    (compute_hash env fuel (hash_pass_enter w) = Run.divzero ∧ w.mayTrap) ∨
    ∃ w1 : World, compute_hash env fuel (hash_pass_enter w) = Run.done (true, w1)
      ∧ passes (hash_dispatch env st w1).2.log = passes w.log + 1
      ∧ (hash_dispatch env st w1).2.fdht.handle.clean
      ∧ (hash_dispatch env st w1).2.fdht.handle.data = data
      ∧ (hash_dispatch env st w1).2.fdht.handle.eof = decide (data.length - j * P < P)
      ∧ (hash_dispatch env st w1).2.fdht.handle.pos = j * P + min P (data.length - j * P)
      ∧ (hash_dispatch env st w1).2.fdht.actual_bytes = j * P + min P (data.length - j * P)
      ∧ Frame w (hash_dispatch env st w1).2
      ∧ ((j * P = data.length
            ∧ dispatches (hash_dispatch env st w1).2.log = dispatches w.log
            ∧ ∃ tail, accLog (hash_dispatch env st w1).2.log = accLog w.log ++ tail
                ∧ ∀ cur, digestInputsFrom cur tail = [])
          ∨ (j * P < data.length
            ∧ (∃ r, dispatches (hash_dispatch env st w1).2.log = dispatches w.log ++ [r]
                ∧ r.key = pieceKey P data.length j)
            ∧ ∃ cs : List (List Nat), cs.flatten = pieceBytes P data j
                ∧ accLog (hash_dispatch env st w1).2.log
                    = accLog w.log ++ ((Event.init :: cs.map Event.update) ++ [Event.finalize]))) := by
  rcases piece_pass env fuel w hideal (by rw [hb]; exact hP) (by rw [hb]; exact hP64) hc he hp
      (by rw [hb, hdata]; omega) with ⟨h1, ht⟩ | ⟨w1, cs, h1, hcs, hf⟩
  · exact Or.inl ⟨h1, ht⟩
  right
  refine ⟨w1, h1, ?_⟩
  rw [hb, hdata, hpos] at hcs
  have hlen : cs.flatten.length = min P (data.length - j * P) := by
    rw [hcs]; simp
  obtain ⟨hDs, hDh, hDab, hDf⟩ := hash_dispatch_frame env st w1
  have hw1h := hf.handle
  have hhandle : (hash_dispatch env st w1).2.fdht.handle
      = { w.fdht.handle with pos := j * P + min P (data.length - j * P),
                             eof := decide (data.length - j * P < P),
                             script := w.fdht.handle.script.drop cs.length } := by
    rw [hDh, hw1h, hlen, hpos, hb, hdata]
  have hrs : w1.fdht.read_start = j * P := by
    rw [hf.read_start, hab, hpos]; simp
  have hre : w1.fdht.read_end = j * P + min P (data.length - j * P) := by
    rw [hf.read_end, hrs, hlen]
  have hfr : Frame w (hash_dispatch env st w1).2 :=
    ⟨hDf.mode.trans hf.frame.mode, hDf.piecewise_size.trans hf.frame.piecewise_size,
     hDf.stat_bytes.trans hf.frame.stat_bytes, hDf.stat_megs.trans hf.frame.stat_megs,
     hDf.block_size.trans hf.frame.block_size, hDf.is_stdin.trans hf.frame.is_stdin,
     hDf.data.trans hf.frame.data⟩
  have hpass : passes (hash_dispatch env st w1).2.log = passes w.log + 1 := by
    rcases hash_dispatch_log env st w1 with ⟨_, _, _, h2⟩ | ⟨_, _, h2, _⟩
    · rw [h2, hf.passes]
    · rw [h2, hf.passes]
  refine ⟨hpass, ?_, ?_, ?_, ?_, ?_, hfr, ?_⟩
  · rw [hhandle]
    exact ⟨hc.1, fun o ho => hc.2 o (List.mem_of_mem_drop ho)⟩
  · rw [hhandle]; exact hdata
  · rw [hhandle]
  · rw [hhandle]
  · rw [hDab, hf.actual_bytes, hab, hlen]
  · rcases hash_dispatch_log env st w1 with ⟨hz, _, _, h2⟩ | ⟨hcond, h2, _, r, h3, hr1, hr2, hr3⟩
    · left
      rw [hf.bytes_read, hlen] at hz
      refine ⟨by omega, by rw [h2, hf.dispatches], _, by rw [h2, hf.accLog], ?_⟩
      intro cur
      exact digest_pass_open cs cur
    · right
      have hnz : w1.fdht.bytes_read ≠ 0 := by
        rcases hcond with h | h
        · exact h
        · rw [hf.frame.stat_bytes, hsb] at h
          omega
      rw [hf.bytes_read, hlen] at hnz
      have hlt : j * P < data.length := by omega
      refine ⟨hlt, ⟨r, by rw [h3, hf.dispatches], ?_⟩, cs, hcs, ?_⟩
      · have hann := annotate_piece w1 (by rw [hf.frame.mode]; exact hp)
          (by rw [hre]; omega) (by rw [hre]; omega)
        unfold Result.key pieceKey
        rw [hr1, hr2, hr3, hann, hrs, hre, Nat.succ_mul]
        have : j * P + min P (data.length - j * P) = min (j * P + P) data.length := by omega
        rw [this]
      · rw [h2, hf.accLog, List.append_assoc]


/-- The loop of `hash` in piecewise mode from piece `j` on, over a clean stream
of at least one byte: the results and digest inputs are those of the pieces
`j, j + 1, ...`, and the loop makes `S / P + 1 - j` passes. -/
theorem piecewise_hash_loop (env : Env) (hideal : 1 ≤ env.MD5DEEP_IDEAL_BLOCK_SIZE)
    (fuel : Nat) (data : List Nat) (P : Nat) (hP : 1 ≤ P) (hP64 : P < 2 ^ 64)
    (hS : 1 ≤ data.length) (hS64 : data.length < 2 ^ 64) (hfuel : data.length < fuel) :
    ∀ (n j : Nat) (st : Int) (w : World),
      w.fdht.handle.clean → w.fdht.handle.eof = false → w.fdht.handle.data = data →
      w.fdht.handle.pos = j * P → w.fdht.actual_bytes = j * P → j * P ≤ data.length →
      flag w.s.mode mode_piecewise = true → w.fdht.block_size = P →
      w.fdht.stat_bytes = data.length → data.length - j * P < n →
      (hash_loop env fuel n st w = Run.divzero ∧ w.mayTrap) ∨
      ∃ (st' : Int) (w' : World) (tail : List Event),
        hash_loop env fuel n st w = Run.done (some st', w')
        ∧ (dispatches w'.log).map Result.key
            = (dispatches w.log).map Result.key
              ++ (List.range' j (pieceCount P data.length - j)).map (pieceKey P data.length)
        ∧ accLog w'.log = accLog w.log ++ tail
        ∧ (∀ cur, digestInputsFrom cur tail
            = (List.range' j (pieceCount P data.length - j)).map (pieceBytes P data))
        ∧ passes w'.log = passes w.log + (data.length / P + 1 - j) := by
  intro n
  induction n with
  | zero => intro j st w _ _ _ _ _ _ _ _ _ h; omega
  | succ n ih =>
    intro j st w hc he hdata hpos hab hle hp hb hsb hn
    unfold hash_loop
    rcases piecewise_turn env hideal fuel data P hP hP64 hS hS64 hfuel j st w hc he hdata hpos
        hab hle hp hb hsb with ⟨h1, ht⟩ | ⟨w1, h1, hpass, hDc, hDd, hDe, hDp, hDa, hDf, hcase⟩
    · left
      rw [h1]
      exact ⟨rfl, ht⟩
    rw [h1]
    simp only []
    have hmode : flag (hash_dispatch env st w1).2.s.mode mode_piecewise = true := by
      rw [hDf.mode]; exact hp
    rw [hmode]
    simp only [if_true, feof, hDe, decide_eq_true_eq]
    by_cases hlast : data.length - j * P < P
    · -- end of stream seen in this pass
      right
      rw [if_pos hlast]
      rcases hcase with ⟨hjs, hd, tail, ha, hdig⟩ | ⟨hjs, ⟨r, hd, hr⟩, cs, hcs, ha⟩
      · obtain ⟨hc1, hc2⟩ := pieceCount_exact P data.length j hP hjs
        refine ⟨_, _, tail, rfl, ?_, ha, ?_, ?_⟩
        · rw [hd, hc1]; simp
        · intro cur; rw [hdig, hc1]; simp
        · rw [hpass, hc2]; omega
      · obtain ⟨hc1, hc2⟩ := pieceCount_last P data.length j hP hjs hlast
        refine ⟨_, _, _, rfl, ?_, ha, ?_, ?_⟩
        · rw [hd, hc1]
          simp [hr]
        · intro cur
          rw [hc1]
          have := digest_pass cs [] cur
          rw [this, hcs]
          simp [digestInputsFrom]
        · rw [hpass, hc2]; omega
    · rw [if_neg hlast]
      rcases hcase with ⟨hjs, _⟩ | ⟨hjs, ⟨r, hd, hr⟩, cs, hcs, ha⟩
      · omega
      have hmin : min P (data.length - j * P) = P := by omega
      rw [hmin] at hDp hDa
      have hsucc : (j + 1) * P = j * P + P := Nat.succ_mul j P
      have hle' : (j + 1) * P ≤ data.length := by rw [hsucc]; omega
      obtain ⟨hc1, hc2⟩ := pieceCount_more P data.length j hP hle'
      have hde : (hash_dispatch env st w1).2.fdht.handle.eof = false := by
        rw [hDe]; simpa using hlast
      rcases ih (j + 1) (hash_dispatch env st w1).1 (hash_dispatch env st w1).2 hDc hde hDd
          (by rw [hDp, hsucc]) (by rw [hDa, hsucc]) hle' hmode (by rw [hDf.block_size]; exact hb)
          (by rw [hDf.stat_bytes]; exact hsb) (by rw [hsucc]; omega)
        with ⟨h2, ht⟩ | ⟨st', w', tail, h2, hdk, hacc, hdig, hps⟩
      · left
        refine ⟨h2, ?_⟩
        unfold World.mayTrap at ht ⊢
        rw [hDf.mode, hDf.stat_megs] at ht
        exact ht
      · right
        have hrange : List.range' j (pieceCount P data.length - j)
            = j :: List.range' (j + 1) (pieceCount P data.length - (j + 1)) := by
          have : pieceCount P data.length - j = (pieceCount P data.length - (j + 1)) + 1 := by
            omega
          rw [this, List.range'_succ]
        refine ⟨st', w', ((Event.init :: cs.map Event.update) ++ [Event.finalize]) ++ tail,
          h2, ?_, ?_, ?_, ?_⟩
        · rw [hdk, hd, hrange]
          simp [hr]
        · rw [hacc, ha, List.append_assoc]
        · intro cur
          rw [hrange, List.append_assoc]
          have := digest_pass cs tail cur
          simp only [List.singleton_append]
          rw [this, hdig, hcs]
          rfl
        · rw [hps, hpass]; omega

theorem digestInputsFrom_tail (tail : List Event) (X : List (List Nat))
    (h : ∀ cur, digestInputsFrom cur tail = X) (l : List Event) :
    ∀ cur, digestInputsFrom cur (l ++ tail) = digestInputsFrom cur l ++ X := by
  induction l with
  | nil => intro cur; exact h cur
  | cons e l ih =>
    intro cur
    cases e <;> first | exact ih _ | exact congrArg (List.cons _) (ih _)

/-- A run of `hash` in piecewise mode over a clean stream of at least one byte. -/
theorem piecewise_hash (env : Env) (fuel : Nat) (w : World)
    (hideal : 1 ≤ env.MD5DEEP_IDEAL_BLOCK_SIZE)
    (hpw : flag w.s.mode mode_piecewise = true) (htr : flag w.s.mode mode_triage = false)
    (hP : 1 ≤ w.s.piecewise_size) (hP64 : w.s.piecewise_size < 2 ^ 64)
    (hclean : w.fdht.handle.clean) (hpos : w.fdht.handle.pos = 0)
    (heof : w.fdht.handle.eof = false)
    (hS : 1 ≤ w.fdht.handle.data.length) (hS64 : w.fdht.handle.data.length < 2 ^ 64)
    (hsb : w.fdht.stat_bytes = w.fdht.handle.data.length)
    (hfuel : w.fdht.handle.data.length < fuel) :
    (hash env fuel w = Run.divzero ∧ w.mayTrap) ∨
    ∃ (status : Int) (w' : World), hash env fuel w = Run.done (status, w')
      ∧ (dispatches w'.log).map Result.key
          = (dispatches w.log).map Result.key
            ++ (List.range (pieceCount w.s.piecewise_size w.fdht.handle.data.length)).map
                (pieceKey w.s.piecewise_size w.fdht.handle.data.length)
      ∧ digestInputs w'.log
          = digestInputs w.log
            ++ (List.range (pieceCount w.s.piecewise_size w.fdht.handle.data.length)).map
                (pieceBytes w.s.piecewise_size w.fdht.handle.data)
      ∧ passes w'.log
          = passes w.log + (w.fdht.handle.data.length / w.s.piecewise_size + 1) := by
  obtain ⟨hbm, hbp, hbf, hbl, hbd⟩ := hash_begin_facts w
  have hmain : hash env fuel w
      = match hash_loop env fuel fuel FALSE
          { hash_begin w with
            fdht := { (hash_begin w).fdht with block_size := (hash_begin w).s.piecewise_size } }
        with
        | Run.done (none, w2) => Run.done (TRUE, w2)
        | Run.done (some status, w2) =>
          Run.done (status, if w2.s.dfxml then w2.emit (Event.dfxml w2.fdht.file_name) else w2)
        | Run.divzero => Run.divzero
        | Run.nofuel => Run.nofuel := by
    unfold hash
    simp only []
    rw [hbm, htr]
    simp only [Bool.false_eq_true, if_false]
    unfold hash_main hash_block_size
    rw [hbm, hpw]
    simp only [if_true]
  rw [hmain]
  rcases piecewise_hash_loop env hideal fuel w.fdht.handle.data w.s.piecewise_size hP hP64 hS
      hS64 hfuel fuel 0 FALSE
      { hash_begin w with
        fdht := { (hash_begin w).fdht with block_size := (hash_begin w).s.piecewise_size } }
      (by simp only [hbf]; exact hclean) (by simp only [hbf]; exact heof) (by simp only [hbf])
      (by simp only [hbf]; rw [hpos]; simp) (by simp only [hbf]; simp) (by simp)
      (by simp only [hbm]; exact hpw) (by simp only [hbp]) (by simp only [hbf]; exact hsb)
      (by simpa using hfuel)
    with ⟨h1, ht⟩ | ⟨st', w', tail, h1, hdk, hacc, hdig, hps⟩
  · left
    rw [h1]
    refine ⟨rfl, ?_⟩
    unfold World.mayTrap at ht ⊢
    simp only [hbm, hbf] at ht
    exact ht
  · right
    rw [h1]
    simp only []
    obtain ⟨ha, hd, hp⟩ := accLog_dfxml w'
    simp only [hbl, Nat.sub_zero] at hdk hacc hps hdig
    refine ⟨_, _, rfl, ?_, ?_, ?_⟩
    · rw [hd, hdk, List.range_eq_range']
    · rw [digestInputs_eq, ha, hacc, digestInputsFrom_tail tail _ hdig, ← digestInputs_eq,
        List.range_eq_range']
    · rw [hp, hps]

/-- The ranges of a piecewise run without triage: for an error-free file of `S ≥ 1`
bytes at offset 0 hashed by `hash` in piecewise mode (`mode_triage` clear) with piece
size `P ≥ 1`, the
`k`-th dispatched result (`k = 0, 1, ...`, `k < ⌈S / P⌉`) has `read_start = k * P`,
`read_end = min ((k + 1) * P) S` and the annotation
`" offset {read_start}-{read_end - 1}"`, and the bytes fed between the
`multihash_initialize` and the `multihash_finalize` of its pass are the bytes
`[k * P, min ((k + 1) * P) S)` of the file; every piece but the last ends where
the next one starts and is `P` bytes long.  The only other outcome is a division
by zero in the progress estimate (`mode_estimate` set and `stat_megs ≠ 0`). -/
theorem piecewise_ranges (env : Env) (fuel : Nat) (w : World)
    (hideal : 1 ≤ env.MD5DEEP_IDEAL_BLOCK_SIZE)
    (hpw : flag w.s.mode mode_piecewise = true) (htr : flag w.s.mode mode_triage = false)
    (hP : 1 ≤ w.s.piecewise_size) (hP64 : w.s.piecewise_size < 2 ^ 64)
    (hclean : w.fdht.handle.clean) (hpos : w.fdht.handle.pos = 0)
    (heof : w.fdht.handle.eof = false)
    (hS : 1 ≤ w.fdht.handle.data.length) (hS64 : w.fdht.handle.data.length < 2 ^ 64)
    (hsb : w.fdht.stat_bytes = w.fdht.handle.data.length)
    (hfuel : w.fdht.handle.data.length < fuel) :
    (hash env fuel w = Run.divzero ∧ w.mayTrap) ∨
    ∃ (status : Int) (w' : World), hash env fuel w = Run.done (status, w')
      ∧ (dispatches w'.log).map Result.key
          = (dispatches w.log).map Result.key
            ++ (List.range (pieceCount w.s.piecewise_size w.fdht.handle.data.length)).map
                (fun k => (k * w.s.piecewise_size,
                  min ((k + 1) * w.s.piecewise_size) w.fdht.handle.data.length,
                  " offset " ++ itos (k * w.s.piecewise_size) ++ "-"
                    ++ itos (min ((k + 1) * w.s.piecewise_size) w.fdht.handle.data.length - 1)))
      ∧ digestInputs w'.log
          = digestInputs w.log
            ++ (List.range (pieceCount w.s.piecewise_size w.fdht.handle.data.length)).map
                (fun k => (w.fdht.handle.data.drop (k * w.s.piecewise_size)).take
                  w.s.piecewise_size)
      ∧ ∀ k, k + 1 < pieceCount w.s.piecewise_size w.fdht.handle.data.length →
          min ((k + 1) * w.s.piecewise_size) w.fdht.handle.data.length
            = (k + 1) * w.s.piecewise_size := by
  rcases piecewise_hash env fuel w hideal hpw htr hP hP64 hclean hpos heof hS hS64 hsb hfuel
    with h | ⟨st, w', h, hk, hd, _⟩
  · exact Or.inl h
  · right
    refine ⟨st, w', h, hk, hd, ?_⟩
    intro k hk
    unfold pieceCount at hk
    have : (k + 1 + 1) ≤ (w.fdht.handle.data.length + w.s.piecewise_size - 1)
        / w.s.piecewise_size := hk
    rw [Nat.le_div_iff_mul_le (by omega)] at this
    have h2 : (k + 1 + 1) * w.s.piecewise_size
        = (k + 1) * w.s.piecewise_size + w.s.piecewise_size := Nat.succ_mul _ _
    omega

/-- Five bytes cut into pieces of two: the ranges are 0-2, 2-4 and 4-5 and
the pieces fed are `[1, 2]`, `[3, 4]` and `[5]`. -/
theorem piecewise_ranges_sample :
    ∃ (status : Int) (w' : World), hash sampleEnv 6 fivePiecewiseWorld = Run.done (status, w')
      ∧ (dispatches w'.log).map (fun r => (r.read_start, r.read_end)) = [(0, 2), (2, 4), (4, 5)]
      ∧ digestInputs w'.log = [[1, 2], [3, 4], [5]] := by
  rcases piecewise_ranges sampleEnv 6 fivePiecewiseWorld (by decide) (by decide) (by decide)
      (by decide) (by decide) ⟨rfl, by decide⟩ rfl rfl (by decide) (by decide) rfl (by decide)
    with ⟨_, ht⟩ | ⟨st, w', h, hk, hd, _⟩
  · exact absurd ht.1 (by decide)
  · refine ⟨st, w', h, ?_, ?_⟩
    · have := congrArg (List.map (fun x : Nat × Nat × String => (x.1, x.2.1))) hk
      simp only [List.map_map] at this
      exact this.trans (by decide)
    · exact hd.trans (by decide)


/-- C2 (piecewise count), as the code has it: for an error-free file of `S`
bytes at offset 0 (`stat_bytes = S`) hashed by `hash` in piecewise mode, `mode_triage`
clear, with piece size `P ≥ 1`, the number of results dispatched is `⌈S / P⌉` when
`S ≥ 1`, and the last dispatched range then has length `S - P * (⌈S / P⌉ - 1)`; when
`S = 0` exactly one result is dispatched.  The only other outcome is a division by
zero in the progress estimate (`mode_estimate` set and `stat_megs ≠ 0`). -/
theorem C2_piecewise_count (env : Env) (fuel : Nat) (w : World)
    (hideal : 1 ≤ env.MD5DEEP_IDEAL_BLOCK_SIZE)
    (hpw : flag w.s.mode mode_piecewise = true) (htr : flag w.s.mode mode_triage = false)
    (hP : 1 ≤ w.s.piecewise_size) (hP64 : w.s.piecewise_size < 2 ^ 64)
    (hclean : w.fdht.handle.clean) (hpos : w.fdht.handle.pos = 0)
    (heof : w.fdht.handle.eof = false) (hS64 : w.fdht.handle.data.length < 2 ^ 64)
    (hsb : w.fdht.stat_bytes = w.fdht.handle.data.length)
    (hfuel : w.fdht.handle.data.length < fuel) :
    (hash env fuel w = Run.divzero ∧ w.mayTrap) ∨
    ∃ (status : Int) (w' : World), hash env fuel w = Run.done (status, w')
      ∧ (dispatches w'.log).length = (dispatches w.log).length
          + (if w.fdht.handle.data.length = 0 then 1
             else pieceCount w.s.piecewise_size w.fdht.handle.data.length)
      ∧ (1 ≤ w.fdht.handle.data.length →
          ∃ r, (dispatches w'.log).getLast? = some r
            ∧ r.read_end - r.read_start
                = w.fdht.handle.data.length
                  - w.s.piecewise_size
                    * (pieceCount w.s.piecewise_size w.fdht.handle.data.length - 1)) := by
  by_cases hS : w.fdht.handle.data.length = 0
  · right
    obtain ⟨st, w', h, _, _, r, hr⟩ := zero_length_hash env fuel w hideal
      (by rw [hpw]; exact hP) htr hclean (List.length_eq_zero.1 hS) heof (by rw [hsb, hS])
      (by omega)
    refine ⟨st, w', h, ?_, ?_⟩
    · rw [hr, if_pos hS]; simp
    · intro h1; omega
  · have hS1 : 1 ≤ w.fdht.handle.data.length := by omega
    rcases piecewise_hash env fuel w hideal hpw htr hP hP64 hclean hpos heof hS1 hS64 hsb hfuel
      with h | ⟨st, w', h, hk, _, _⟩
    · exact Or.inl h
    · right
      refine ⟨st, w', h, ?_, ?_⟩
      · have := congrArg List.length hk
        simp only [List.length_map, List.length_append, List.length_range] at this
        rw [this, if_neg hS]
      · intro _
        -- the number of pieces is at least one and they cover the file
        have hdm := Nat.div_add_mod (w.fdht.handle.data.length + w.s.piecewise_size - 1)
          w.s.piecewise_size
        have hml := Nat.mod_lt (w.fdht.handle.data.length + w.s.piecewise_size - 1)
          (show 0 < w.s.piecewise_size by omega)
        have hc1 : 1 ≤ pieceCount w.s.piecewise_size w.fdht.handle.data.length := by
          unfold pieceCount
          rw [Nat.le_div_iff_mul_le (by omega)]
          omega
        obtain ⟨c, hc⟩ : ∃ c, pieceCount w.s.piecewise_size w.fdht.handle.data.length = c + 1 :=
          ⟨_, (Nat.sub_add_cancel hc1).symm⟩
        have hcov : w.fdht.handle.data.length ≤ (c + 1) * w.s.piecewise_size := by
          have : (w.fdht.handle.data.length + w.s.piecewise_size - 1) / w.s.piecewise_size
              = c + 1 := hc
          rw [this] at hdm
          rw [Nat.mul_comm]
          omega
        have hlast := congrArg List.getLast? hk
        rw [hc, List.range_succ] at hlast
        simp only [List.map_append, List.map_cons, List.map_nil, ← List.append_assoc,
          List.getLast?_concat, List.getLast?_map] at hlast
        cases hr : (dispatches w'.log).getLast? with
        | none => rw [hr] at hlast; simp at hlast
        | some r =>
          rw [hr] at hlast
          simp only [Option.map_some', Option.some.injEq] at hlast
          refine ⟨r, rfl, ?_⟩
          unfold Result.key pieceKey at hlast
          simp only [Prod.mk.injEq] at hlast
          rw [hlast.1, hlast.2.1, hc, Nat.add_sub_cancel, Nat.min_eq_right hcov, Nat.mul_comm]

/-- C2 at five bytes cut into pieces of two: three results, the last of one byte. -/
theorem C2_piecewise_count_witness :
    ∃ (status : Int) (w' : World), hash sampleEnv 6 fivePiecewiseWorld = Run.done (status, w')
      ∧ (dispatches w'.log).length = 3
      ∧ ∃ r, (dispatches w'.log).getLast? = some r ∧ r.read_end - r.read_start = 1 := by
  rcases C2_piecewise_count sampleEnv 6 fivePiecewiseWorld (by decide) (by decide) (by decide)
      (by decide) (by decide) ⟨rfl, by decide⟩ rfl rfl (by decide) rfl (by decide)
    with ⟨_, ht⟩ | ⟨st, w', h, hn, hl⟩
  · exact absurd ht.1 (by decide)
  · obtain ⟨r, hr, hlen⟩ := hl (by decide)
    exact ⟨st, w', h, hn.trans (by decide), r, hr, hlen.trans (by decide)⟩

/-- C2 as stated fails at `S = 0`: for the empty file of `emptyPiecewiseWorld`
(piece size 2, `stat_bytes = 0`) one result is dispatched while `⌈0 / 2⌉ = 0`. -/
theorem C2_counterexample :
    pieceCount 2 0 = 0
    ∧ emptyPiecewiseWorld.fdht.stat_bytes = emptyPiecewiseWorld.fdht.handle.data.length
    ∧ ¬ ∃ (status : Int) (w' : World),
        hash sampleEnv 4 emptyPiecewiseWorld = Run.done (status, w')
        ∧ (dispatches w'.log).length = pieceCount 2 0 := by
  refine ⟨by decide, rfl, ?_⟩
  rintro ⟨st, w', h, hd⟩
  have h0 : hash sampleEnv 4 emptyPiecewiseWorld
      = Run.done (0, (hash sampleEnv 4 emptyPiecewiseWorld).worldOr emptyPiecewiseWorld) := by
    decide
  rw [h0] at h
  simp only [Run.done.injEq, Prod.mk.injEq] at h
  rw [← h.2] at hd
  revert hd
  decide

theorem flag_or_piecewise (m : Nat) : flag (m ||| mode_piecewise) mode_piecewise = true := by
  unfold flag
  have h : (m ||| mode_piecewise) &&& mode_piecewise = mode_piecewise := by
    apply Nat.eq_of_testBit_eq
    intro i
    simp only [Nat.testBit_and, Nat.testBit_or]
    cases Nat.testBit m i <;> cases Nat.testBit mode_piecewise i <;> rfl
  rw [h]
  decide

theorem flag_or_piecewise_estimate (m : Nat) :
    flag (m ||| mode_piecewise) mode_estimate = flag m mode_estimate := by
  unfold flag
  have h : (m ||| mode_piecewise) &&& mode_estimate = m &&& mode_estimate := by
    apply Nat.eq_of_testBit_eq
    intro i
    simp only [Nat.testBit_and, Nat.testBit_or, mode_piecewise, mode_estimate,
      Nat.testBit_two_pow]
    by_cases h1 : 1 = i
    · subst h1; simp
    · simp [h1]
  rw [h]


/-! ## Triage -/

theorem triage_report_log (env : Env) (m : Nat) (w : World) :
    (triage_report env m w).log
      = (w.log ++ [Event.finalize]) ++ [Event.printf (triage_line (triage_report env m w))] :=
  rfl

theorem triage_report_fields (env : Env) (m : Nat) (w : World) :
    (triage_report env m w).fdht.stat_bytes = w.fdht.stat_bytes
    ∧ (triage_report env m w).s.md5deep_mode_algorithm = w.s.md5deep_mode_algorithm
    ∧ (triage_report env m w).fdht.handle = w.fdht.handle
    ∧ (triage_report env m w).fdht.hash_hex
        = (List.range env.hashes.length).map (fun i =>
            match env.hashes.get? i with
            | some a => if a.inuse then a.digest w.fdht.hash_context
                        else w.fdht.hash_hex.getD i ""
            | none => "") :=
  ⟨rfl, rfl, rfl, rfl⟩

theorem triage_finish_log (env : Env) (w : World) :
    (triage_finish env w).log
      = (w.log ++ [Event.finalize]) ++ [Event.printf (triage_line (triage_finish env w))] :=
  triage_report_log env _ w

theorem triage_finish_fields (env : Env) (w : World) :
    (triage_finish env w).fdht.stat_bytes = w.fdht.stat_bytes
    ∧ (triage_finish env w).s.md5deep_mode_algorithm = w.s.md5deep_mode_algorithm
    ∧ (triage_finish env w).fdht.handle = w.fdht.handle
    ∧ (triage_finish env w).fdht.hash_hex
        = (List.range env.hashes.length).map (fun i =>
            match env.hashes.get? i with
            | some a => if a.inuse then a.digest w.fdht.hash_context
                        else w.fdht.hash_hex.getD i ""
            | none => "") :=
  triage_report_fields env _ w

/-- The triage pass of `hash` on an error-free file at offset 0, for any buffer size:
`md5deep_hash_triage` succeeds after one pass; the bytes fed between its
`multihash_initialize` and `multihash_finalize` are the first `min 512 S` bytes of the
file; the stream has then advanced by `min 512 S` bytes; the last thing it does is to
print `triage_line`; and `hash_main` runs only afterwards, on the world the triage left,
rewound.  The only other outcome is that the progress estimate of the triage pass
divides by zero (`mode_estimate` set and `stat_megs ≠ 0`). -/
theorem triage_prefix (env : Env) (fuel : Nat) (w : World)
    (hideal : 1 ≤ env.MD5DEEP_IDEAL_BLOCK_SIZE)
    (htr : flag w.s.mode mode_triage = true)
    (hclean : w.fdht.handle.clean) (hpos : w.fdht.handle.pos = 0)
    (heof : w.fdht.handle.eof = false)
    (hfuel : min 512 w.fdht.handle.data.length < fuel) :
    (md5deep_hash_triage env fuel (hash_begin w) = Run.divzero ∧ w.mayTrap) ∨
    ∃ (w1 : World) (pre : List Event),
      md5deep_hash_triage env fuel (hash_begin w) = Run.done (FALSE, w1)
      ∧ hash env fuel w = hash_main env fuel (hash_rewind w1)
      ∧ passes w1.log = passes w.log + 1
      ∧ digestInputs w1.log = digestInputs w.log ++ [w.fdht.handle.data.take 512]
      ∧ w1.fdht.handle.pos = min 512 w.fdht.handle.data.length
      ∧ w1.log = pre ++ [Event.printf (triage_line w1)]
      ∧ w1.fdht.stat_bytes = w.fdht.stat_bytes
      ∧ w1.s.md5deep_mode_algorithm = w.s.md5deep_mode_algorithm
      ∧ (∀ a, env.hashes.get? w.s.md5deep_mode_algorithm = some a → a.inuse = true →
          w1.fdht.hash_hex.getD w.s.md5deep_mode_algorithm ""
            = a.digest (w.fdht.handle.data.take 512)) := by
  obtain ⟨hbm, hbp, hbf, hbl, hbd⟩ := hash_begin_facts w
  have hbs : (hash_begin w).s.md5deep_mode_algorithm = w.s.md5deep_mode_algorithm := by
    unfold hash_begin
    simp only []
    split
    · unfold time
      split <;> rfl
    · rfl
  -- the loop of the triage pass
  have hloop := piece_loop env hideal fuel
    (compute_hash_mysize env ( multihash_initialize (triage_setup (hash_begin w)))) 512
    (compute_hash_enter ( multihash_initialize (triage_setup (hash_begin w))))
    (by simp only [compute_hash_enter, multihash_initialize, triage_setup, hbf]; exact hclean)
    (by simp only [compute_hash_enter, multihash_initialize, triage_setup, hbf]; exact heof)
    (by simp only [compute_hash_enter, multihash_initialize, triage_setup, triage_setup]
        exact flag_or_piecewise _)
    (by norm_num) (by norm_num)
    (by
      unfold compute_hash_mysize
      simp only [ multihash_initialize, triage_setup]
      split <;> omega)
    (by simp only [compute_hash_enter, multihash_initialize, triage_setup, hbf, hpos]
        simpa using hfuel)
  have htri : hash env fuel w
      = match md5deep_hash_triage env fuel (hash_begin w) with
        | Run.done (_, w2) => hash_main env fuel (hash_rewind w2)
        | Run.divzero => Run.divzero
        | Run.nofuel => Run.nofuel := by
    unfold hash
    simp only []
    rw [hbm, htr]
    rfl
  have hb512 : ( multihash_initialize (triage_setup (hash_begin w))).fdht.block_size = 512 := rfl
  rcases hloop with ⟨h1, ht⟩ | ⟨w3, cs, h1, hcs, hcore⟩
  · left
    have hT : md5deep_hash_triage env fuel (hash_begin w) = Run.divzero := by
      unfold md5deep_hash_triage compute_hash
      rw [hb512, h1]
    refine ⟨hT, ?_⟩
    unfold World.mayTrap at ht ⊢
    simp only [compute_hash_enter, multihash_initialize, triage_setup, hbf, hbm,
      flag_or_piecewise_estimate] at ht
    exact ht
  · right
    have hT : md5deep_hash_triage env fuel (hash_begin w)
        = Run.done (FALSE, triage_finish env w3) := by
      unfold md5deep_hash_triage compute_hash
      rw [hb512, h1]
    rw [htri, hT]
    simp only [compute_hash_enter, multihash_initialize, triage_setup, hbf, hpos,
      List.drop_zero] at hcs
    have hctx : w3.fdht.hash_context = w.fdht.handle.data.take 512 := by
      have := congrArg (fun x => x.fdht.hash_context) hcore
      simp only [World.core, World.afterChunks, compute_hash_enter, multihash_initialize, triage_setup,
        List.nil_append] at this
      rw [this, hcs]
    have hsb : w3.fdht.stat_bytes = w.fdht.stat_bytes := by
      have := congrArg (fun x => x.fdht.stat_bytes) hcore
      simpa [World.core, World.afterChunks, compute_hash_enter, multihash_initialize, triage_setup, hbf]
        using this
    have halg : w3.s.md5deep_mode_algorithm = w.s.md5deep_mode_algorithm := by
      have := congrArg (fun x => x.s.md5deep_mode_algorithm) hcore
      simpa [World.core, World.afterChunks, compute_hash_enter, multihash_initialize, triage_setup, hbs]
        using this
    have hp3 : w3.fdht.handle.pos = min 512 w.fdht.handle.data.length := by
      have := congrArg (fun x => x.fdht.handle.pos) hcore
      simp only [World.core, World.afterChunks, compute_hash_enter, multihash_initialize, triage_setup,
        hbf, hpos, hcs, Nat.zero_add, List.length_take] at this
      exact this
    have hacc : accLog w3.log = accLog w.log ++ (Event.init :: cs.map Event.update) := by
      rw [core_accLog hcore]
      simp only [World.afterChunks, compute_hash_enter, multihash_initialize, triage_setup, hbl,
        accLog_append, accLog_updates]
      simp [accLog]
    have hpas : passes w3.log = passes w.log + 1 := by
      rw [core_passes hcore]
      simp only [World.afterChunks, compute_hash_enter, multihash_initialize, triage_setup, hbl,
        passes_append, passes_updates]
      simp [passes]
    have hlog := triage_finish_log env w3
    obtain ⟨hf1, hf2, hf3, hf4⟩ := triage_finish_fields env w3
    refine ⟨triage_finish env w3, w3.log ++ [Event.finalize], rfl, rfl, ?_, ?_, ?_, hlog,
      hf1.trans hsb, hf2.trans halg, ?_⟩
    · rw [hlog, passes_append, passes_append, hpas]
      rfl
    · rw [digestInputs_eq, hlog, accLog_append, accLog_append, hacc]
      have h3 : ∀ l, accLog [Event.finalize] ++ accLog [Event.printf l] = [Event.finalize] :=
        fun _ => rfl
      rw [List.append_assoc, h3, List.append_assoc, List.cons_append, digestInputsFrom_init,
        ← digestInputs_eq, digestInputsFrom_updates cs [Event.finalize] [], hcs]
      simp [digestInputsFrom]
    · rw [hf3]; exact hp3
    · intro a ha hin
      have hlt : w.s.md5deep_mode_algorithm < env.hashes.length := by
        rw [List.get?_eq_some] at ha
        exact ha.1
      rw [hf4, List.getD_eq_getElem?_getD, List.getElem?_map, List.getElem?_range hlt]
      simp only [Option.map_some', Option.getD_some, ha, hin, if_true, hctx]

/-! ## `hash_file` -/

theorem hash_file_opened_frame (env : Env) (fn : String) (h : FILE) (w : World) :
    (hash_file_opened env fn h w).s = w.s ∧ (hash_file_opened env fn h w).fdht.handle = h
      ∧ (hash_file_opened env fn h w).log = w.log
      ∧ (hash_file_opened env fn h w).fdht.hash_hex = w.fdht.hash_hex := by
  unfold hash_file_opened
  simp only []
  split <;> exact ⟨rfl, rfl, rfl, rfl⟩

/-- The two ways `hash_file` goes on once the file is open. -/
theorem hash_file_some (env : Env) (fuel : Nat) (fn : String) (h : FILE) (w : World) :
    hash_file env fuel fn (some h) w
      = if flag (hash_file_opened env fn h w).s.mode mode_size
            && decide ((hash_file_opened env fn h w).fdht.stat_bytes
                > (hash_file_opened env fn h w).s.size_threshold) then
          Run.done (STATUS_OK,
            (if flag (hash_file_opened env fn h w).s.mode mode_size_all then
              ({ hash_file_opened env fn h w with
                  fdht := { (hash_file_opened env fn h w).fdht with
                            hash_hex := skipped_hash_hex env
                              (hash_file_opened env fn h w).fdht.hash_hex } } : World).emit
                (Event.dispatch Collaborator.display_hash
                  ({ hash_file_opened env fn h w with
                      fdht := { (hash_file_opened env fn h w).fdht with
                                hash_hex := skipped_hash_hex env
                                  (hash_file_opened env fn h w).fdht.hash_hex } } : World).result)
             else hash_file_opened env fn h w).emit Event.close)
        else
          match hash env fuel (hash_file_megs (hash_file_opened env fn h w)) with
          | Run.done (status, w5) => Run.done (status, w5.emit Event.close)
          | Run.divzero => Run.divzero
          | Run.nofuel => Run.nofuel := by
  rfl

theorem skipped_hash_hex_inuse (env : Env) (old : List String) (i : Nat) (a : algorithm_t)
    (ha : env.hashes.get? i = some a) (hu : a.inuse = true) :
    (skipped_hash_hex env old).get? i
      = some (String.mk (List.replicate (a.bit_length / 4) '*')) := by
  have hi : i < env.hashes.length := by
    by_contra hc
    rw [List.get?_eq_none.mpr (Nat.le_of_not_lt hc)] at ha
    cases ha
  unfold skipped_hash_hex
  rw [List.get?_eq_getElem?, List.getElem?_map, List.getElem?_range hi]
  simp only [Option.map_some', ha, hu, if_true]

/-- Claim C11 (size-threshold skip).  When `hash_file` has opened the file, `mode_size`
is set and the size of the task (looked up when it was unknown) exceeds
`size_threshold`, the call returns `STATUS_OK` with the handle exactly as it was opened
(nothing was read), the log only grows by what the skip emits, so that no
`compute_hash` pass and no accumulator call happen, and the handle is closed last.
With `mode_size_all` every algorithm in use has `hash_hex[i]` equal to `'*'` repeated
`bit_length / 4` times and the log grows by exactly one `display_hash` dispatch of that
result followed by the close; otherwise it grows by the close alone and the digests
are untouched. -/
theorem C11_size_threshold_skip (env : Env) (fuel : Nat) (fn : String) (h : FILE) (w : World)
    (hsize : flag w.s.mode mode_size = true)
    (hbig : (hash_file_opened env fn h w).fdht.stat_bytes > w.s.size_threshold) :
    ∃ w' : World, hash_file env fuel fn (some h) w = Run.done (STATUS_OK, w')
      ∧ w'.fdht.handle = h
      ∧ w'.s = w.s
      ∧ passes w'.log = passes w.log
      ∧ accLog w'.log = accLog w.log
      ∧ w'.log.getLast? = some Event.close
      ∧ (flag w.s.mode mode_size_all = true →
          (∀ (i : Nat) (a : algorithm_t), env.hashes.get? i = some a → a.inuse = true →
              w'.fdht.hash_hex.get? i
                = some (String.mk (List.replicate (a.bit_length / 4) '*')))
          ∧ w'.log = w.log ++ [Event.dispatch Collaborator.display_hash w'.result, Event.close]
          ∧ (dispatches w'.log).length = (dispatches w.log).length + 1)
      ∧ (flag w.s.mode mode_size_all = false →
          w'.log = w.log ++ [Event.close] ∧ dispatches w'.log = dispatches w.log
          ∧ w'.fdht.hash_hex = w.fdht.hash_hex) := by
  obtain ⟨hs, hh, hl, hx⟩ := hash_file_opened_frame env fn h w
  have hcond : (flag (hash_file_opened env fn h w).s.mode mode_size
            && decide ((hash_file_opened env fn h w).fdht.stat_bytes
                > (hash_file_opened env fn h w).s.size_threshold)) = true := by
    rw [hs, hsize, Bool.true_and]
    exact decide_eq_true hbig
  rw [hash_file_some, if_pos hcond, hs]
  by_cases hall : flag w.s.mode mode_size_all = true
  · rw [if_pos hall]
    refine ⟨_, rfl, hh, hs, ?_, ?_, ?_, ?_, ?_⟩
    · show passes (((hash_file_opened env fn h w).log ++ [_]) ++ [_]) = _
      rw [hl, passes_append, passes_append]
      rfl
    · show accLog (((hash_file_opened env fn h w).log ++ [_]) ++ [_]) = _
      rw [hl, accLog_append, accLog_append]
      simp [accLog]
    · show List.getLast? (((hash_file_opened env fn h w).log ++ [_]) ++ [_]) = _
      simp
    · intro _
      refine ⟨fun i a ha hu => skipped_hash_hex_inuse env _ i a ha hu, ?_, ?_⟩
      · show ((hash_file_opened env fn h w).log ++ [_]) ++ [_] = _
        rw [hl, List.append_assoc]
        rfl
      · show (dispatches (((hash_file_opened env fn h w).log ++ [_]) ++ [_])).length = _
        rw [hl, dispatches_append, dispatches_append]
        simp [dispatches]
    · intro hc
      rw [hall] at hc
      cases hc
  · rw [if_neg hall]
    refine ⟨_, rfl, hh, hs, ?_, ?_, ?_, ?_, ?_⟩
    · show passes ((hash_file_opened env fn h w).log ++ [_]) = _
      rw [hl, passes_append]
      rfl
    · show accLog ((hash_file_opened env fn h w).log ++ [_]) = _
      rw [hl, accLog_append]
      simp [accLog]
    · show List.getLast? ((hash_file_opened env fn h w).log ++ [_]) = _
      simp
    · intro hc
      exact absurd hc hall
    · intro _
      refine ⟨?_, ?_, hx⟩
      · show (hash_file_opened env fn h w).log ++ [_] = _
        rw [hl]
      · show dispatches ((hash_file_opened env fn h w).log ++ [_]) = _
        rw [hl, dispatches_append]
        simp [dispatches]

/-- Witness of C11: threshold 1000, size 2000 and one 128-bit algorithm give 32
`'*'`, dispatched once, with the stream untouched. -/
theorem C11_size_threshold_skip_witness :
    flag skippedWorld.s.mode mode_size = true
      ∧ (hash_file_opened sampleEnv "f" (sampleFile [1, 2, 3] []) skippedWorld).fdht.stat_bytes
          > skippedWorld.s.size_threshold
      ∧ ∃ w' : World,
          hash_file sampleEnv 0 "f" (some (sampleFile [1, 2, 3] [])) skippedWorld
            = Run.done (STATUS_OK, w')
          ∧ w'.fdht.handle = sampleFile [1, 2, 3] []
          ∧ w'.fdht.hash_hex.get? 0 = some "********************************"
          ∧ w'.log = [Event.dispatch Collaborator.display_hash w'.result, Event.close] :=
  ⟨by decide, by decide,
   (C11_size_threshold_skip sampleEnv 0 "f" (sampleFile [1, 2, 3] []) skippedWorld
      (by decide) (by decide)).elim
     (fun w' hw => ⟨w', hw.1, hw.2.1,
        (hw.2.2.2.2.2.2.1 (by decide)).1 0
          { inuse := true, bit_length := 128, digest := fun bs => toString bs } rfl rfl,
        (hw.2.2.2.2.2.2.1 (by decide)).2.1⟩)⟩

theorem hash_eq_entry (env : Env) (fuel : Nat) (w we : World)
    (he : hash_entry env fuel w = Run.done we) :
    hash env fuel w
      = match hash_loop env fuel fuel FALSE we with
        | Run.done (none, w2) => Run.done (TRUE, w2)
        | Run.done (some status, w2) =>
          Run.done (status, if w2.s.dfxml then w2.emit (Event.dfxml w2.fdht.file_name) else w2)
        | Run.divzero => Run.divzero
        | Run.nofuel => Run.nofuel := by
  unfold hash_entry at he
  unfold hash
  simp only []
  by_cases ht : flag (hash_begin w).s.mode mode_triage = true
  · rw [if_pos ht] at he
    rw [if_pos ht]
    cases hm : md5deep_hash_triage env fuel (hash_begin w) with
    | done p =>
      obtain ⟨b, w2⟩ := p
      rw [hm] at he
      simp only [Run.done.injEq] at he
      subst he
      rfl
    | divzero => rw [hm] at he; cases he
    | nofuel => rw [hm] at he; cases he
  · rw [if_neg ht] at he
    rw [if_neg ht]
    simp only [Run.done.injEq] at he
    subst he
    rfl

/-- A loop of `hash` that ends on an aborted pass leaves the error indicator set
and a fatal `errno`. -/
theorem hash_loop_none (env : Env) (fuel : Nat) :
    ∀ (n : Nat) (st : Int) (w w2 : World),
      hash_loop env fuel n st w = Run.done (none, w2) →
      ferror w2.fdht.handle = true ∧ file_fatal_error w2.errno = true := by
  intro n
  induction n with
  | zero => intro st w w2 h; simp [hash_loop] at h
  | succ n ih =>
    intro st w w2 h
    unfold hash_loop at h
    cases hc : compute_hash env fuel (hash_pass_enter w) with
    | done p =>
      obtain ⟨b, w1⟩ := p
      rw [hc] at h
      cases b with
      | false =>
        simp only [Run.done.injEq, Prod.mk.injEq, true_and] at h
        subst h
        unfold compute_hash at hc
        exact (compute_hash_loop_dispatches env _ _ _ _ _ _ hc).2 rfl
      | true =>
        simp only [] at h
        by_cases hdone : (if flag (hash_dispatch env st w1).2.s.mode mode_piecewise
            then feof (hash_dispatch env st w1).2.fdht.handle else true) = true
        · rw [if_pos hdone] at h
          simp at h
        · rw [if_neg hdone] at h
          exact ih _ _ _ h
    | divzero => rw [hc] at h; simp at h
    | nofuel => rw [hc] at h; simp at h

/-- Claim C13 (per-file failure signal), as the code has it.  When the file cannot be
opened, `hash_file` prints the error and returns `STATUS_OK`, not a failure value.
When the file is opened and not skipped, and a pass of the main loop of `hash` is
aborted (line 280, which happens on a read error that `file_fatal_error` lists),
`hash_file` closes the handle and returns `TRUE`, which differs from `STATUS_OK`.  In
both cases the call returns to its caller. -/
theorem C13_failure_signal (env : Env) (fuel : Nat) (fn : String) (w : World) :
    hash_file env fuel fn none w
        = Run.done (STATUS_OK,
            ({ w with fdht := { w.fdht with is_stdin := false, file_name := fn } } : World).emit
              (Event.print_error fn 0 w.errno))
    ∧ ∀ (h : FILE) (we w2 : World),
        (flag w.s.mode mode_size
          && decide ((hash_file_opened env fn h w).fdht.stat_bytes > w.s.size_threshold)) = false →
        hash_entry env fuel (hash_file_megs (hash_file_opened env fn h w)) = Run.done we →
        hash_loop env fuel fuel FALSE we = Run.done (none, w2) →
        hash_file env fuel fn (some h) w = Run.done (TRUE, w2.emit Event.close)
          ∧ TRUE ≠ STATUS_OK
          ∧ ferror w2.fdht.handle = true ∧ file_fatal_error w2.errno = true := by
  refine ⟨rfl, ?_⟩
  intro h we w2 hskip he hl
  obtain ⟨hs, _, _, _⟩ := hash_file_opened_frame env fn h w
  refine ⟨?_, by decide, hash_loop_none env fuel fuel FALSE we w2 hl⟩
  rw [hash_file_some, hs, hskip, hash_eq_entry env fuel _ we he, hl]
  rfl

/-- Witness of C13: the first read of ten bytes fails with `EIO`; `hash_file` returns
`TRUE` after closing the handle. -/
theorem C13_failure_signal_witness :
    hash_file sampleEnv 4 "f" (some (sampleFile [1, 2, 3, 4, 5, 6, 7, 8, 9, 10]
        [ReadOutcome.fault 2 EIO])) unopenedWorld
      = Run.done (TRUE,
          ((hash_loop sampleEnv 4 4 FALSE
            (hash_block_size (hash_begin (hash_file_megs (hash_file_opened sampleEnv "f"
              (sampleFile [1, 2, 3, 4, 5, 6, 7, 8, 9, 10] [ReadOutcome.fault 2 EIO])
              unopenedWorld))))).worldOr unopenedWorld).emit Event.close) :=
  ((C13_failure_signal sampleEnv 4 "f" unopenedWorld).2
    (sampleFile [1, 2, 3, 4, 5, 6, 7, 8, 9, 10] [ReadOutcome.fault 2 EIO])
    (hash_block_size (hash_begin (hash_file_megs (hash_file_opened sampleEnv "f"
      (sampleFile [1, 2, 3, 4, 5, 6, 7, 8, 9, 10] [ReadOutcome.fault 2 EIO]) unopenedWorld))))
    _ (by decide) (by decide) (by decide)).1

/-- C13 as stated fails: on an open failure `hash_file` returns `STATUS_OK`. -/
theorem C13_counterexample :
    ¬ ∃ (status : Int) (w' : World),
        hash_file sampleEnv 4 "f" none unopenedWorld = Run.done (status, w')
          ∧ status ≠ STATUS_OK := by
  rintro ⟨status, w', h, hne⟩
  have h0 : hash_file sampleEnv 4 "f" none unopenedWorld
      = Run.done (STATUS_OK,
          (hash_file sampleEnv 4 "f" none unopenedWorld).worldOr unopenedWorld) := rfl
  rw [h0] at h
  simp only [Run.done.injEq, Prod.mk.injEq] at h
  exact hne h.1.symm

/-! ## The mode flags across `hash` -/

/-- Claim C12 (configuration immutability) fails in the code.  In `triageFatalWorld`
the triage pass is aborted by the fatal `EIO` and `md5deep_hash_triage` returns at
line 229, before `s->mode -= mode_piecewise`: `hash` returns with `mode_piecewise`
set although it was clear on entry.  In `triagePiecewiseWorld`, where
`mode_piecewise` is set on entry, the subtraction at line 232 clears it: `hash`
returns with the flag clear, having dispatched one whole-file result instead of the
pieces. -/
theorem C12_mode_not_restored :
    (triageFatalWorld.s.mode = mode_triage
      ∧ hash sampleEnv 8 triageFatalWorld
          = Run.done (TRUE, (hash sampleEnv 8 triageFatalWorld).worldOr triageFatalWorld)
      ∧ ((hash sampleEnv 8 triageFatalWorld).worldOr triageFatalWorld).s.mode
          = mode_triage ||| mode_piecewise
      ∧ ((hash sampleEnv 8 triageFatalWorld).worldOr triageFatalWorld).s.mode
          ≠ triageFatalWorld.s.mode)
    ∧ (triagePiecewiseWorld.s.mode = mode_triage ||| mode_piecewise
      ∧ hash sampleEnv 8 triagePiecewiseWorld
          = Run.done (0, (hash sampleEnv 8 triagePiecewiseWorld).worldOr triagePiecewiseWorld)
      ∧ ((hash sampleEnv 8 triagePiecewiseWorld).worldOr triagePiecewiseWorld).s.mode
          = mode_triage
      ∧ ((hash sampleEnv 8 triagePiecewiseWorld).worldOr triagePiecewiseWorld).s.mode
          ≠ triagePiecewiseWorld.s.mode
      ∧ (dispatches
          ((hash sampleEnv 8 triagePiecewiseWorld).worldOr triagePiecewiseWorld).log).map
            Result.key = [(0, 5, "")]) := by
  refine ⟨⟨rfl, ?_, ?_, ?_⟩, ⟨rfl, ?_, ?_, ?_, ?_⟩⟩ <;> decide

/-! ## `update_display` -/

/-- The function `update_display` in terms of its parts. -/
theorem update_display_eq (env : Env) (w : World) (elapsed : Int) :
    update_display env w elapsed
      = if w.fdht.stat_megs = 0 then
          some (update_display_show w
            (snprintf 63 (unable_text (update_display_mb_read w.fdht) ++ env.BLANK_LINE)))
        else if toUInt64 elapsed = 0 then none
        else if w.fdht.actual_bytes / toUInt64 elapsed = 0 then none
        else
          some (update_display_show w
            (snprintf 63
              (progress_text (update_display_mb_read w.fdht) w.fdht.stat_megs
                (update_display_hms (update_display_seconds w.fdht elapsed)).1
                (update_display_hms (update_display_seconds w.fdht elapsed)).2.1
                (update_display_hms (update_display_seconds w.fdht elapsed)).2.2
                ++ env.BLANK_LINE))) := by
  rfl

/-- Claim C14 (megabyte counter) fails in the code: line 35 tests `bytes_read`, the
count of the current pass, where the claim tests `actual_bytes`.  In `mbWorld`, 4
bytes into a piece that starts at offset 5 MB, `actual_bytes` is not below one
megabyte and `actual_bytes / ONE_MEGABYTE` is 5, yet `update_display` renders 1. -/
theorem C14_mb_read_tests_bytes_read :
    mbWorld.fdht.bytes_read = 4
    ∧ mbWorld.fdht.actual_bytes = 5 * ONE_MEGABYTE + 4
    ∧ ¬ mbWorld.fdht.actual_bytes < ONE_MEGABYTE
    ∧ mbWorld.fdht.actual_bytes / ONE_MEGABYTE = 5
    ∧ update_display_mb_read mbWorld.fdht = 1
    ∧ (update_display sampleEnv mbWorld 2).map (fun w => w.fdht.file_name_annotation)
        = some "1MB of 10MB done, 00:00:01 left    " := by
  refine ⟨rfl, ?_, ?_, ?_, ?_, ?_⟩ <;> decide

theorem toUInt64_eq (t : Int) (h0 : 0 ≤ t) (h64 : t < 2 ^ 64) : toUInt64 t = t.toNat := by
  unfold toUInt64
  rw [Int.emod_eq_of_lt h0 h64]

/-- Claim C15 (remaining time), as the code has it: line 55 subtracts in `uint64_t`
and nothing clamps the difference.  For `1 ≤ elapsed < 2 ^ 63`, `actual_bytes ≥ elapsed`
and `stat_bytes < 2 ^ 64`, with `q = stat_bytes / (actual_bytes / elapsed)`: the
remaining seconds are `q - elapsed` when `q ≥ elapsed`, which is the case whenever
`actual_bytes ≤ stat_bytes`, and the wrapped value `2 ^ 64 - (elapsed - q)` when
`q < elapsed`. -/
theorem C15_remaining_seconds (fdht : file_data_hasher_t) (elapsed : Int)
    (h1 : 1 ≤ elapsed) (h63 : elapsed < 2 ^ 63)
    (hrate : elapsed ≤ (fdht.actual_bytes : Int)) (hs64 : fdht.stat_bytes < 2 ^ 64) :
    fdht.actual_bytes / elapsed.toNat ≠ 0
    ∧ (elapsed.toNat ≤ fdht.stat_bytes / (fdht.actual_bytes / elapsed.toNat) →
        update_display_seconds fdht elapsed
          = fdht.stat_bytes / (fdht.actual_bytes / elapsed.toNat) - elapsed.toNat)
    ∧ (fdht.stat_bytes / (fdht.actual_bytes / elapsed.toNat) < elapsed.toNat →
        update_display_seconds fdht elapsed
          = 2 ^ 64 - (elapsed.toNat - fdht.stat_bytes / (fdht.actual_bytes / elapsed.toNat)))
    ∧ (fdht.actual_bytes ≤ fdht.stat_bytes →
        elapsed.toNat ≤ fdht.stat_bytes / (fdht.actual_bytes / elapsed.toNat)) := by
  have hu : toUInt64 elapsed = elapsed.toNat :=
    toUInt64_eq elapsed (by omega) (by
      have : (2 : Int) ^ 63 < 2 ^ 64 := by norm_num
      omega)
  have he1 : 1 ≤ elapsed.toNat := by omega
  have he63 : elapsed.toNat < 2 ^ 63 := by
    have : (2 : Int) ^ 63 = 9223372036854775808 := by norm_num
    have h2 : (2 : Nat) ^ 63 = 9223372036854775808 := by norm_num
    omega
  have hle : elapsed.toNat ≤ fdht.actual_bytes := by omega
  have hr : 1 ≤ fdht.actual_bytes / elapsed.toNat :=
    (Nat.le_div_iff_mul_le (by omega)).2 (by omega)
  have hq : fdht.stat_bytes / (fdht.actual_bytes / elapsed.toNat) < 2 ^ 64 :=
    lt_of_le_of_lt (Nat.div_le_self _ _) hs64
  have p63 : (2 : Nat) ^ 63 = 9223372036854775808 := by norm_num
  have p64 : (2 : Nat) ^ 64 = 18446744073709551616 := by norm_num
  refine ⟨by omega, ?_, ?_, ?_⟩
  · intro h
    unfold update_display_seconds
    rw [hu]
    exact sub64_eq _ _ hq h
  · intro h
    unfold update_display_seconds
    rw [hu]
    unfold sub64
    generalize fdht.stat_bytes / (fdht.actual_bytes / elapsed.toNat) = q at h hq ⊢
    rw [p64] at hq ⊢
    rw [p63] at he63
    omega
  · intro h
    refine (Nat.le_div_iff_mul_le (by omega)).2 ?_
    calc elapsed.toNat * (fdht.actual_bytes / elapsed.toNat)
        ≤ fdht.actual_bytes := Nat.mul_div_le _ _
      _ ≤ fdht.stat_bytes := h

/-- Witness of C15 at `progressWorld` after 7 seconds: 123 seconds remain. -/
theorem C15_remaining_seconds_witness :
    update_display_seconds progressWorld.fdht 7 = 123 :=
  ((C15_remaining_seconds progressWorld.fdht 7 (by decide) (by decide) (by decide)
    (by decide)).2.1 (by decide)).trans (by decide)

/-- C15 as stated fails: in `grownWorld` after 2 seconds the rate is 2 MB a second,
the quotient is 0, and the remaining seconds are `2 ^ 64 - 2`, not `max(0, 0 - 2) = 0`;
the text shows them as 5124095576030431 hours. -/
theorem C15_counterexample :
    (1 : Int) ≤ 2 ∧ (2 : Int) ≤ (grownWorld.fdht.actual_bytes : Int)
    ∧ grownWorld.fdht.stat_megs ≠ 0
    ∧ grownWorld.fdht.stat_bytes / (grownWorld.fdht.actual_bytes / 2) = 0
    ∧ update_display_seconds grownWorld.fdht 2 = 2 ^ 64 - 2
    ∧ (update_display_seconds grownWorld.fdht 2 : Int)
        ≠ max 0 ((grownWorld.fdht.stat_bytes / (grownWorld.fdht.actual_bytes / 2) : Nat) - 2)
    ∧ (update_display sampleEnv grownWorld 2).map (fun w => w.fdht.file_name_annotation)
        = some "4MB of 1MB done, 5124095576030431:00:14 left    " := by
  refine ⟨by decide, by decide, by decide, by decide, by decide, by decide, ?_⟩
  decide

theorem sub64_lt (a b : Nat) : sub64 a b < 2 ^ 64 :=
  Nat.mod_lt _ (by norm_num)

theorem update_display_seconds_lt (fdht : file_data_hasher_t) (elapsed : Int) :
    update_display_seconds fdht elapsed < 2 ^ 64 :=
  sub64_lt _ _

/-- Lines 61-65 decompose a 64-bit count of seconds without wrapping. -/
theorem update_display_hms_eq (n : Nat) (hn : n < 2 ^ 64) :
    update_display_hms n = (n / 3600, n % 3600 / 60, n % 60) := by
  have h1 : sub64 n (n / 3600 * 3600) = n % 3600 := by
    rw [sub64_eq n _ hn (Nat.div_mul_le_self n 3600)]
    omega
  have h2 : sub64 (n % 3600) (n % 3600 / 60 * 60) = n % 60 := by
    rw [sub64_eq _ _ (lt_of_le_of_lt (Nat.mod_le n 3600) hn) (Nat.div_mul_le_self _ 60)]
    omega
  unfold update_display_hms
  rw [h1, h2]

/-- What `snprintf` keeps of a short text followed by the blank line: the whole text
and the start of the blank line. -/
theorem snprintf_append (text blank : String) (h : text.length ≤ 62) :
    snprintf 63 (text ++ blank) = text ++ String.mk (blank.data.take (62 - text.length)) := by
  unfold snprintf
  apply String.ext
  rw [String.data_append, String.data_append]
  show List.take 62 (text.data ++ blank.data) = _
  rw [List.take_append_eq_append_take, List.take_of_length_le h]
  rfl

/-- Claim C16 (progress text), as the code has it.  The annotation is the text of the
claim followed by `BLANK_LINE`, the whole cut to the 62 characters that
`snprintf(msg, sizeof(msg)-1, ...)` stores; a text of at most 62 characters is kept in
full and followed by the start of `BLANK_LINE`.  With `stat_megs = 0` the text is
`"{mb_read}MB done. Unable to estimate remaining time."`; otherwise, when the
estimate is defined, it is `"{mb_read}MB of {stat_megs}MB done, HH:MM:SS left"` with
`hour * 3600 + min * 60 + sec` the remaining seconds, `min < 60`, `sec < 60`, and every
field printed with a leading `0` exactly when it is below 10. -/
theorem C16_progress_text (env : Env) (w : World) (elapsed : Int) :
    (w.fdht.stat_megs = 0 →
      update_display env w elapsed
        = some (update_display_show w
            (snprintf 63 (unable_text (update_display_mb_read w.fdht) ++ env.BLANK_LINE))))
    ∧ (w.fdht.stat_megs ≠ 0 → toUInt64 elapsed ≠ 0 →
        w.fdht.actual_bytes / toUInt64 elapsed ≠ 0 →
        ∃ hour min sec : Nat,
          update_display env w elapsed
            = some (update_display_show w
                (snprintf 63
                  (progress_text (update_display_mb_read w.fdht) w.fdht.stat_megs hour min sec
                    ++ env.BLANK_LINE)))
          ∧ hour * 3600 + min * 60 + sec = update_display_seconds w.fdht elapsed
          ∧ min < 60 ∧ sec < 60)
    ∧ (∀ text : String, text.length ≤ 62 →
        snprintf 63 (text ++ env.BLANK_LINE)
          = text ++ String.mk (env.BLANK_LINE.data.take (62 - text.length)))
    ∧ (∀ n : Nat, (n < 10 → fmt02 n = "0" ++ toString n) ∧ (10 ≤ n → fmt02 n = toString n)) := by
  refine ⟨?_, ?_, fun text h => snprintf_append text env.BLANK_LINE h, ?_⟩
  · intro h0
    rw [update_display_eq, if_pos h0]
  · intro h0 he hr
    refine ⟨(update_display_hms (update_display_seconds w.fdht elapsed)).1,
      (update_display_hms (update_display_seconds w.fdht elapsed)).2.1,
      (update_display_hms (update_display_seconds w.fdht elapsed)).2.2, ?_, ?_, ?_, ?_⟩
    · rw [update_display_eq, if_neg h0, if_neg he, if_neg hr]
    · rw [update_display_hms_eq _ (update_display_seconds_lt _ _)]
      show update_display_seconds w.fdht elapsed / 3600 * 3600
        + update_display_seconds w.fdht elapsed % 3600 / 60 * 60
        + update_display_seconds w.fdht elapsed % 60 = _
      omega
    · rw [update_display_hms_eq _ (update_display_seconds_lt _ _)]
      show update_display_seconds w.fdht elapsed % 3600 / 60 < 60
      omega
    · rw [update_display_hms_eq _ (update_display_seconds_lt _ _)]
      show update_display_seconds w.fdht elapsed % 60 < 60
      omega
  · intro n
    unfold fmt02
    constructor
    · intro h
      rw [if_pos h]
    · intro h
      rw [if_neg (by omega)]

/-- Witness of C16 at `progressWorld` after 7 seconds: 5 MB of 100 MB are read and
123 seconds remain. -/
theorem C16_progress_text_witness :
    (∃ hour min sec : Nat,
      update_display sampleEnv progressWorld 7
        = some (update_display_show progressWorld
            (snprintf 63 (progress_text 5 100 hour min sec ++ "    ")))
      ∧ hour * 3600 + min * 60 + sec = 123 ∧ min < 60 ∧ sec < 60)
    ∧ snprintf 63 (progress_text 5 100 0 2 3 ++ "    ")
        = "5MB of 100MB done, 00:02:03 left    " :=
  ⟨(C16_progress_text sampleEnv progressWorld 7).2.1 (by decide) (by decide) (by decide),
   by decide⟩

/-- C16 as stated fails: the annotation is not exactly the text, it carries the
(cut) `BLANK_LINE` after it. -/
theorem C16_counterexample :
    (update_display sampleEnv progressWorld 7).map (fun w => w.fdht.file_name_annotation)
        = some "5MB of 100MB done, 00:02:03 left    "
    ∧ (update_display sampleEnv progressWorld 7).map (fun w => w.fdht.file_name_annotation)
        ≠ some "5MB of 100MB done, 00:02:03 left" := by
  constructor <;> decide

/-! ## The counters during a pass -/

theorem read_counters (m : Nat) (w : World) :
    (compute_hash_read m w).fdht.actual_bytes
        = w.fdht.actual_bytes + (fread w.fdht.handle w.errno m).bytes.length
    ∧ (compute_hash_read m w).fdht.bytes_read
        = w.fdht.bytes_read + (fread w.fdht.handle w.errno m).bytes.length
    ∧ (compute_hash_read m w).fdht.read_end
        = w.fdht.read_end + (fread w.fdht.handle w.errno m).bytes.length
    ∧ (compute_hash_read m w).fdht.read_start = w.fdht.read_start :=
  ⟨rfl, rfl, rfl, rfl⟩

/-- Whatever way a turn ends, its world has the counters of the read. -/
theorem iter_counters (env : Env) (m r : Nat) (w w1 : World)
    (h : (compute_hash_iter env m r w).world = some w1) :
    w1.fdht.actual_bytes = w.fdht.actual_bytes + (fread w.fdht.handle w.errno m).bytes.length
    ∧ w1.fdht.bytes_read = w.fdht.bytes_read + (fread w.fdht.handle w.errno m).bytes.length
    ∧ w1.fdht.read_end = w.fdht.read_end + (fread w.fdht.handle w.errno m).bytes.length
    ∧ w1.fdht.read_start = w.fdht.read_start := by
  by_cases hf : compute_hash_iter env m r w = Step.ret false w1
  · rw [((compute_hash_iter_false_iff env m r w w1).1 hf).2.2, report_fdht]
    exact read_counters m w
  · obtain ⟨h1, h2, h3, h4⟩ := core_fdht (compute_hash_iter_world env m r w w1 h hf)
    obtain ⟨f1, f2, f3, f4⟩ := fed_counters m w
    exact ⟨h1.trans f1, h2.trans f2, h3.trans f3, h4.trans f4⟩

/-- The invariant of the counters along the points of a pass. -/
theorem points_counters (env : Env) :
    ∀ (fuel m r : Nat) (w : World),
      w.fdht.read_end = w.fdht.read_start + w.fdht.bytes_read →
      (∀ p ∈ compute_hash_points env fuel m r w,
          p.fdht.read_end = p.fdht.read_start + p.fdht.bytes_read
          ∧ w.fdht.actual_bytes ≤ p.fdht.actual_bytes)
      ∧ (compute_hash_points env fuel m r w).Pairwise
          (fun (a b : World) => a.fdht.actual_bytes ≤ b.fdht.actual_bytes) := by
  intro fuel
  induction fuel with
  | zero =>
    intro m r w hw
    simp only [compute_hash_points, List.mem_singleton, forall_eq, List.pairwise_cons,
      List.not_mem_nil, List.Pairwise.nil, and_true]
    exact ⟨⟨hw, le_refl _⟩, fun _ h => h.elim⟩
  | succ fuel ih =>
    intro m r w hw
    obtain ⟨r1, r2, r3, r4⟩ := read_counters m w
    have hread : (compute_hash_read m w).fdht.read_end
        = (compute_hash_read m w).fdht.read_start + (compute_hash_read m w).fdht.bytes_read := by
      rw [r2, r3, r4, hw]; omega
    have hrest : (∀ p ∈ (match compute_hash_iter env m r w with
          | Step.ret _ w1 => [w1]
          | Step.next mysize1 remaining1 w1 => compute_hash_points env fuel mysize1 remaining1 w1
          | Step.divzero => []),
          p.fdht.read_end = p.fdht.read_start + p.fdht.bytes_read
          ∧ (compute_hash_read m w).fdht.actual_bytes ≤ p.fdht.actual_bytes)
        ∧ List.Pairwise (fun (a b : World) => a.fdht.actual_bytes ≤ b.fdht.actual_bytes)
          (match compute_hash_iter env m r w with
          | Step.ret _ w1 => [w1]
          | Step.next mysize1 remaining1 w1 => compute_hash_points env fuel mysize1 remaining1 w1
          | Step.divzero => []) := by
      cases hs : compute_hash_iter env m r w with
      | ret b w1 =>
        obtain ⟨i1, i2, i3, i4⟩ := iter_counters env m r w w1 (by rw [hs]; rfl)
        simp only [List.mem_singleton, forall_eq, List.pairwise_cons, List.not_mem_nil,
          List.Pairwise.nil, and_true]
        refine ⟨⟨?_, ?_⟩, fun _ h => h.elim⟩
        · rw [i2, i3, i4, hw]; omega
        · rw [i1, r1]
      | next m1 rem1 w1 =>
        obtain ⟨i1, i2, i3, i4⟩ := iter_counters env m r w w1 (by rw [hs]; rfl)
        have hw1 : w1.fdht.read_end = w1.fdht.read_start + w1.fdht.bytes_read := by
          rw [i2, i3, i4, hw]; omega
        obtain ⟨ha, hb⟩ := ih m1 rem1 w1 hw1
        refine ⟨fun p hp => ⟨(ha p hp).1, ?_⟩, hb⟩
        have := (ha p hp).2
        rw [r1]; rw [i1] at this; exact this
      | divzero =>
        exact ⟨fun _ h => by simp at h, List.Pairwise.nil⟩
    show (∀ p ∈ w :: compute_hash_read m w :: _, _) ∧ List.Pairwise _ (w :: compute_hash_read m w :: _)
    have hle : w.fdht.actual_bytes ≤ (compute_hash_read m w).fdht.actual_bytes := by
      rw [r1]; omega
    refine ⟨?_, ?_⟩
    · intro p hp
      rcases List.mem_cons.1 hp with h | hp
      · subst h; exact ⟨hw, le_refl _⟩
      rcases List.mem_cons.1 hp with h | hp
      · subst h; exact ⟨hread, hle⟩
      · exact ⟨(hrest.1 p hp).1, le_trans hle (hrest.1 p hp).2⟩
    · refine List.pairwise_cons.2 ⟨?_, List.pairwise_cons.2 ⟨fun p hp => (hrest.1 p hp).2, hrest.2⟩⟩
      intro p hp
      rcases List.mem_cons.1 hp with h | hp
      · subst h; exact hle
      · exact le_trans hle (hrest.1 p hp).2

/-- The world a pass returns is the last of its points. -/
theorem points_result (env : Env) :
    ∀ (fuel m r : Nat) (w w' : World) (b : Bool),
      compute_hash_loop env fuel m r w = Run.done (b, w') →
      (compute_hash_points env fuel m r w).getLast? = some w' := by
  intro fuel
  induction fuel with
  | zero => intro m r w w' b h; simp [compute_hash_loop] at h
  | succ fuel ih =>
    intro m r w w' b h
    unfold compute_hash_loop at h
    unfold compute_hash_points
    cases hs : compute_hash_iter env m r w with
    | ret b1 w1 =>
      rw [hs] at h
      simp only [Run.done.injEq, Prod.mk.injEq] at h
      rw [← h.2]
      rfl
    | next m1 r1 w1 =>
      rw [hs] at h
      simp only [] at h
      have := ih m1 r1 w1 w' b h
      simp only []
      rw [List.getLast?_cons_cons, List.getLast?_cons, this]
      rfl
    | divzero =>
      rw [hs] at h
      simp at h

/-- Claim C17 (pass counter invariant).  At every point of a pass of `compute_hash`
after its counters are initialised, that is at the start of every turn, right after
every read, and on return, whatever the reads deliver: `read_end - read_start`
equals `bytes_read`, also as the `uint64_t` difference; and `actual_bytes` never
decreases from one point to a later one, nor below its value at the call.  The world
a pass returns is the last of these points. -/
theorem C17_pass_counters (env : Env) (fuel : Nat) (w : World) :
    (∀ p ∈ compute_hash_trace env fuel w,
        p.fdht.read_end - p.fdht.read_start = p.fdht.bytes_read
        ∧ p.fdht.read_start ≤ p.fdht.read_end
        ∧ sub64 p.fdht.read_end p.fdht.read_start = p.fdht.bytes_read % 2 ^ 64
        ∧ w.fdht.actual_bytes ≤ p.fdht.actual_bytes)
    ∧ List.Pairwise (fun (a b : World) => a.fdht.actual_bytes ≤ b.fdht.actual_bytes)
        (compute_hash_trace env fuel w)
    ∧ (∀ (b : Bool) (w' : World), compute_hash env fuel w = Run.done (b, w') →
        (compute_hash_trace env fuel w).getLast? = some w') := by
  have h0 : (compute_hash_enter w).fdht.read_end
      = (compute_hash_enter w).fdht.read_start + (compute_hash_enter w).fdht.bytes_read := rfl
  obtain ⟨ha, hb⟩ := points_counters env fuel (compute_hash_mysize env w) w.fdht.block_size
    (compute_hash_enter w) h0
  refine ⟨?_, hb, ?_⟩
  · intro p hp
    obtain ⟨h1, h2⟩ := ha p hp
    have h3 : w.fdht.actual_bytes ≤ p.fdht.actual_bytes := h2
    refine ⟨by omega, by omega, ?_, h3⟩
    rw [h1]
    unfold sub64
    have p64 : (2 : Nat) ^ 64 = 18446744073709551616 := by norm_num
    rw [p64]
    omega
  · intro b w' h
    exact points_result env fuel _ _ _ w' b h

/-- Witness of C17 at `faultWorld`, whose first read fails with a recoverable error
after two bytes: the invariant at the world the pass returns. -/
theorem C17_pass_counters_witness :
    ((compute_hash sampleEnv 10 faultWorld).worldOr faultWorld).fdht.read_end
        - ((compute_hash sampleEnv 10 faultWorld).worldOr faultWorld).fdht.read_start
      = ((compute_hash sampleEnv 10 faultWorld).worldOr faultWorld).fdht.bytes_read
    ∧ (compute_hash_trace sampleEnv 10 faultWorld).map (fun p => p.fdht.actual_bytes)
      = [0, 2, 2, 6, 6, 10, 10, 10, 10] :=
  ⟨((C17_pass_counters sampleEnv 10 faultWorld).1
      ((compute_hash sampleEnv 10 faultWorld).worldOr faultWorld) (by decide)).1,
   by decide⟩

/-! ## The sub-chunk size -/

theorem fed_mode (m : Nat) (w : World) : (compute_hash_fed m w).s.mode = w.s.mode := by
  unfold compute_hash_fed
  split
  · unfold compute_hash_recover compute_hash_report
    split <;> rfl
  · rfl

/-- A turn that goes round again does so with the `mysize` and `remaining` of lines
190-197, and under the same mode flags. -/
theorem iter_next (env : Env) (m r : Nat) (w : World) (m1 r1 : Nat) (w1 : World)
    (h : compute_hash_iter env m r w = Step.next m1 r1 w1) :
    m1 = next_mysize env (compute_hash_fed m w) m r (fread w.fdht.handle w.errno m).bytes.length
    ∧ r1 = next_remaining (compute_hash_fed m w) r (fread w.fdht.handle w.errno m).bytes.length
    ∧ w1.s.mode = w.s.mode := by
  have hc : ¬ (ferror (compute_hash_read m w).fdht.handle = true
            ∧ file_fatal_error (compute_hash_read m w).errno = true) := by
    intro hc
    have := (compute_hash_iter_false_iff env m r w _).2 ⟨hc.1, hc.2, rfl⟩
    rw [this] at h
    cases h
  rw [compute_hash_iter_eq_tail env m r w hc] at h
  rcases compute_hash_tail_cases env m r (fread w.fdht.handle w.errno m).bytes.length
      (compute_hash_fed m w) with ⟨_, w', h1, _⟩ | ⟨_, _, _, h1⟩ | ⟨_, _, h1⟩
  · rw [h1] at h; cases h
  · rw [h1] at h; cases h
  · rcases h1 with ⟨h1, _⟩ | ⟨w', h1, hcore⟩
    · rw [h1] at h; cases h
    · rw [h1] at h
      simp only [Step.next.injEq] at h
      obtain ⟨e1, e2, e3⟩ := h
      subst e3
      exact ⟨e1.symm, e2.symm, (core_frame hcore).2.1.trans (fed_mode m w)⟩

/-- One turn keeps the bounds of the sub-chunk size: `mysize` is at most the buffer
size, and in piecewise mode it is the smaller of `remaining` and the buffer size,
with `bytes_read + remaining` equal to the block size `B`. -/
theorem turn_bounds (env : Env) (B : Nat) (hB : B < 2 ^ 64) (m r : Nat) (w : World)
    (hm : m ≤ env.MD5DEEP_IDEAL_BLOCK_SIZE)
    (hp : flag w.s.mode mode_piecewise = true →
      m = min r env.MD5DEEP_IDEAL_BLOCK_SIZE ∧ w.fdht.bytes_read + r = B) :
    (∀ (b : Bool) (w' : World), compute_hash_iter env m r w = Step.ret b w' →
        flag w.s.mode mode_piecewise = true → w'.fdht.bytes_read ≤ B)
    ∧ (∀ (m1 r1 : Nat) (w1 : World), compute_hash_iter env m r w = Step.next m1 r1 w1 →
        w1.s.mode = w.s.mode ∧ m1 ≤ env.MD5DEEP_IDEAL_BLOCK_SIZE
        ∧ (flag w.s.mode mode_piecewise = true →
            m1 = min r1 env.MD5DEEP_IDEAL_BLOCK_SIZE ∧ w1.fdht.bytes_read + r1 = B)) := by
  have hn := fread_length_le w.fdht.handle w.errno m
  constructor
  · intro b w' h hpw
    obtain ⟨_, i2, _, _⟩ := iter_counters env m r w w' (by rw [h]; rfl)
    obtain ⟨h1, h2⟩ := hp hpw
    rw [i2]
    omega
  · intro m1 r1 w1 h
    obtain ⟨_, i2, _, _⟩ := iter_counters env m r w w1 (by rw [h]; rfl)
    obtain ⟨e1, e2, e3⟩ := iter_next env m r w m1 r1 w1 h
    refine ⟨e3, ?_, ?_⟩
    · rw [e1]
      unfold next_mysize
      split
      · rename_i hcond
        simp only [Bool.and_eq_true, decide_eq_true_eq] at hcond
        omega
      · exact hm
    · intro hpw
      obtain ⟨h1, h2⟩ := hp hpw
      have hr : next_remaining (compute_hash_fed m w) r
          (fread w.fdht.handle w.errno m).bytes.length
            = r - (fread w.fdht.handle w.errno m).bytes.length := by
        unfold next_remaining
        rw [fed_mode, hpw, if_pos rfl]
        exact sub64_eq _ _ (by omega) (by omega)
      rw [e1, e2, i2]
      unfold next_mysize
      rw [fed_mode, hpw, hr]
      simp only [Bool.true_and]
      split
      · rename_i hcond
        simp only [decide_eq_true_eq] at hcond
        omega
      · rename_i hcond
        simp only [decide_eq_true_eq] at hcond
        omega

/-- The bounds of `turn_bounds` hold at the start of every turn. -/
theorem heads_bounds (env : Env) (B mode : Nat) (hB : B < 2 ^ 64) :
    ∀ (fuel m r : Nat) (w : World),
      w.s.mode = mode → m ≤ env.MD5DEEP_IDEAL_BLOCK_SIZE →
      (flag mode mode_piecewise = true →
        m = min r env.MD5DEEP_IDEAL_BLOCK_SIZE ∧ w.fdht.bytes_read + r = B) →
      ∀ h ∈ compute_hash_heads env fuel m r w,
        h.1 ≤ env.MD5DEEP_IDEAL_BLOCK_SIZE
        ∧ (flag mode mode_piecewise = true →
            h.1 = min h.2.1 env.MD5DEEP_IDEAL_BLOCK_SIZE ∧ h.2.2.fdht.bytes_read + h.2.1 = B) := by
  intro fuel
  induction fuel with
  | zero => intro m r w _ _ _ h hh; simp [compute_hash_heads] at hh
  | succ fuel ih =>
    intro m r w hmode hm hp h hh
    unfold compute_hash_heads at hh
    rcases List.mem_cons.1 hh with e | hh
    · subst e
      exact ⟨hm, hp⟩
    · cases hs : compute_hash_iter env m r w with
      | ret b w1 => rw [hs] at hh; simp at hh
      | divzero => rw [hs] at hh; simp at hh
      | next m1 r1 w1 =>
        rw [hs] at hh
        obtain ⟨t1, t2, t3⟩ := (turn_bounds env B hB m r w hm (by rw [hmode]; exact hp)).2
          m1 r1 w1 hs
        exact ih m1 r1 w1 (t1.trans hmode) t2 (by rw [← hmode]; exact t3) h hh

/-- A piecewise pass returns with `bytes_read` at most the block size. -/
theorem loop_bytes_read (env : Env) (B : Nat) (hB : B < 2 ^ 64) :
    ∀ (fuel m r : Nat) (w w' : World) (b : Bool),
      flag w.s.mode mode_piecewise = true → m ≤ env.MD5DEEP_IDEAL_BLOCK_SIZE →
      m = min r env.MD5DEEP_IDEAL_BLOCK_SIZE → w.fdht.bytes_read + r = B →
      compute_hash_loop env fuel m r w = Run.done (b, w') →
      w'.fdht.bytes_read ≤ B := by
  intro fuel
  induction fuel with
  | zero => intro m r w w' b _ _ _ _ h; simp [compute_hash_loop] at h
  | succ fuel ih =>
    intro m r w w' b hpw hm h1 h2 h
    unfold compute_hash_loop at h
    obtain ⟨tr, tn⟩ := turn_bounds env B hB m r w hm (fun _ => ⟨h1, h2⟩)
    cases hs : compute_hash_iter env m r w with
    | ret b1 w1 =>
      rw [hs] at h
      simp only [Run.done.injEq, Prod.mk.injEq] at h
      rw [← h.2]
      exact tr b1 w1 hs hpw
    | divzero => rw [hs] at h; simp at h
    | next m1 r1 w1 =>
      rw [hs] at h
      simp only [] at h
      obtain ⟨t1, t2, t3⟩ := tn m1 r1 w1 hs
      exact ih m1 r1 w1 w' b (by rw [t1]; exact hpw) t2 (t3 hpw).1 (t3 hpw).2 h

/-- Claim C18 (bounded sub-chunks).  At the start of every turn of the loop of
`compute_hash`, `mysize` is at most `MD5DEEP_IDEAL_BLOCK_SIZE`, the zeroed buffer
with the bytes read has exactly `mysize` elements, and the read delivers at most
`mysize` bytes.  In piecewise mode moreover `mysize` is the smaller of `remaining` and
`MD5DEEP_IDEAL_BLOCK_SIZE`, the read delivers at most `remaining` bytes, so that
`remaining -= current_read` is the exact difference, `bytes_read + remaining` is the
block size, and the pass returns with `bytes_read` at most the block size. -/
theorem C18_bounded_sub_chunks (env : Env) (fuel : Nat) (w : World)
    (hB : w.fdht.block_size < 2 ^ 64) :
    (∀ h ∈ compute_hash_turns env fuel w,
        h.1 ≤ env.MD5DEEP_IDEAL_BLOCK_SIZE
        ∧ (compute_hash_buffer h.1 h.2.2).length = h.1
        ∧ (fread h.2.2.fdht.handle h.2.2.errno h.1).bytes.length ≤ h.1)
    ∧ (flag w.s.mode mode_piecewise = true →
        (∀ h ∈ compute_hash_turns env fuel w,
          h.1 = min h.2.1 env.MD5DEEP_IDEAL_BLOCK_SIZE
          ∧ (fread h.2.2.fdht.handle h.2.2.errno h.1).bytes.length ≤ h.2.1
          ∧ sub64 h.2.1 (fread h.2.2.fdht.handle h.2.2.errno h.1).bytes.length
              = h.2.1 - (fread h.2.2.fdht.handle h.2.2.errno h.1).bytes.length
          ∧ h.2.2.fdht.bytes_read + h.2.1 = w.fdht.block_size)
        ∧ ∀ (b : Bool) (w' : World), compute_hash env fuel w = Run.done (b, w') →
            w'.fdht.bytes_read ≤ w.fdht.block_size) := by
  have hm0 : compute_hash_mysize env w ≤ env.MD5DEEP_IDEAL_BLOCK_SIZE := by
    unfold compute_hash_mysize
    split <;> omega
  have hmin : compute_hash_mysize env w = min w.fdht.block_size env.MD5DEEP_IDEAL_BLOCK_SIZE := by
    unfold compute_hash_mysize
    split <;> omega
  have hbr : (compute_hash_enter w).fdht.bytes_read + w.fdht.block_size = w.fdht.block_size := by
    show 0 + _ = _
    omega
  have hmode : (compute_hash_enter w).s.mode = w.s.mode := rfl
  have hall := heads_bounds env w.fdht.block_size w.s.mode hB fuel (compute_hash_mysize env w)
    w.fdht.block_size (compute_hash_enter w) hmode hm0 (fun _ => ⟨hmin, hbr⟩)
  refine ⟨?_, ?_⟩
  · intro h hh
    exact ⟨(hall h hh).1, buffer_length _ _, fread_length_le _ _ _⟩
  · intro hpw
    refine ⟨?_, ?_⟩
    · intro h hh
      obtain ⟨h1, h2⟩ := (hall h hh).2 hpw
      have hn := fread_length_le h.2.2.fdht.handle h.2.2.errno h.1
      have hle : (fread h.2.2.fdht.handle h.2.2.errno h.1).bytes.length ≤ h.2.1 := by omega
      exact ⟨h1, hle, sub64_eq _ _ (by omega) hle, h2⟩
    · intro b w' hrun
      unfold compute_hash at hrun
      exact loop_bytes_read env w.fdht.block_size hB fuel _ _ _ w' b
        (by rw [hmode]; exact hpw) hm0 hmin hbr hrun

/-- Witness of C18 at `chunkWorld`: a block of 10 bytes goes through the four-byte
buffer in sub-chunks of 4, 4 and 2 bytes. -/
theorem C18_bounded_sub_chunks_witness :
    ((compute_hash sampleEnv 10 chunkWorld).worldOr chunkWorld).fdht.bytes_read
        ≤ chunkWorld.fdht.block_size
    ∧ (compute_hash_turns sampleEnv 10 chunkWorld).map (fun h => (h.1, h.2.1))
        = [(4, 10), (4, 6), (2, 2)] :=
  ⟨((C18_bounded_sub_chunks sampleEnv 10 chunkWorld (by decide)).2 (by decide)).2 true
      ((compute_hash sampleEnv 10 chunkWorld).worldOr chunkWorld) (by decide),
   by decide⟩

/-! ## Termination -/

/-- The loop of `hash` in piecewise mode over a stream whose reads report no error:
it ends after `(S - pos) / P + 1` passes, the last of which sets the end-of-file
indicator, unless the estimate divides by zero. -/
theorem piecewise_loop_passes (env : Env) (hideal : 1 ≤ env.MD5DEEP_IDEAL_BLOCK_SIZE)
    (fuel : Nat) (data : List Nat) (P : Nat) (hP : 1 ≤ P) (hP64 : P < 2 ^ 64)
    (hfuel : data.length < fuel) :
    ∀ (n : Nat) (st : Int) (w : World),
      w.fdht.handle.clean → w.fdht.handle.eof = false → w.fdht.handle.data = data →
      flag w.s.mode mode_piecewise = true → w.fdht.block_size = P →
      (data.length - w.fdht.handle.pos) / P < n →
      (hash_loop env fuel n st w = Run.divzero ∧ w.mayTrap) ∨
      ∃ (st' : Int) (w' : World),
        hash_loop env fuel n st w = Run.done (some st', w')
        ∧ passes w'.log = passes w.log + ((data.length - w.fdht.handle.pos) / P + 1)
        ∧ w'.fdht.handle.eof = true := by
  intro n
  induction n with
  | zero => intro st w _ _ _ _ _ h; exact absurd h (Nat.not_lt_zero _)
  | succ n ih =>
    intro st w hc he hdata hp hb hn
    unfold hash_loop
    rcases piece_pass env fuel w hideal (by rw [hb]; exact hP) (by rw [hb]; exact hP64) hc he hp
        (by rw [hb, hdata]; omega) with ⟨h1, ht⟩ | ⟨w1, cs, h1, hcs, hf⟩
    · left
      rw [h1]
      exact ⟨rfl, ht⟩
    rw [h1]
    simp only []
    rw [hb, hdata] at hcs
    have hlen : cs.flatten.length = min P (data.length - w.fdht.handle.pos) := by
      rw [hcs]; simp
    obtain ⟨hDs, hDh, hDab, hDf⟩ := hash_dispatch_frame env st w1
    have hhandle : (hash_dispatch env st w1).2.fdht.handle
        = { w.fdht.handle with
            pos := w.fdht.handle.pos + min P (data.length - w.fdht.handle.pos),
            eof := decide (data.length - w.fdht.handle.pos < P),
            script := w.fdht.handle.script.drop cs.length } := by
      rw [hDh, hf.handle, hlen, hb, hdata]
    have hpass : passes (hash_dispatch env st w1).2.log = passes w.log + 1 := by
      rcases hash_dispatch_log env st w1 with ⟨_, _, _, h2⟩ | ⟨_, _, h2, _⟩
      · rw [h2, hf.passes]
      · rw [h2, hf.passes]
    have hmode : flag (hash_dispatch env st w1).2.s.mode mode_piecewise = true := by
      rw [hDf.mode, hf.frame.mode]; exact hp
    have hDe : (hash_dispatch env st w1).2.fdht.handle.eof
        = decide (data.length - w.fdht.handle.pos < P) := by rw [hhandle]
    rw [hmode]
    simp only [if_true, feof, hDe, decide_eq_true_eq]
    by_cases hlast : data.length - w.fdht.handle.pos < P
    · right
      rw [if_pos hlast]
      refine ⟨_, _, rfl, ?_, ?_⟩
      · rw [hpass, Nat.div_eq_of_lt hlast]
      · rw [hDe]; simpa using hlast
    · rw [if_neg hlast]
      have hmin : min P (data.length - w.fdht.handle.pos) = P := by omega
      have hDp : (hash_dispatch env st w1).2.fdht.handle.pos = w.fdht.handle.pos + P := by
        rw [hhandle, hmin]
      have hdiv : (data.length - w.fdht.handle.pos) / P
          = (data.length - (w.fdht.handle.pos + P)) / P + 1 := by
        rw [Nat.div_eq_sub_div (by omega) (by omega)]
        congr 2
        omega
      rcases ih (hash_dispatch env st w1).1 (hash_dispatch env st w1).2
          (by rw [hhandle]; exact ⟨hc.1, fun o ho => hc.2 o (List.mem_of_mem_drop ho)⟩)
          (by rw [hDe]; simpa using hlast)
          (by rw [hhandle]; exact hdata) hmode
          (by rw [hDf.block_size, hf.frame.block_size]; exact hb)
          (by rw [hDp]; omega)
        with ⟨h2, ht⟩ | ⟨st', w', h2, hps, hfe⟩
      · left
        refine ⟨h2, ?_⟩
        unfold World.mayTrap at ht ⊢
        rw [hDf.mode, hDf.stat_megs, hf.frame.mode, hf.frame.stat_megs] at ht
        exact ht
      · right
        refine ⟨st', w', h2, ?_, hfe⟩
        rw [hps, hpass, hDp, hdiv]
        omega

/-- The loop of `hash` over a stream whose reads report no error ends: after one pass
in whole-file mode, after `(S - pos) / block_size + 1` passes in piecewise mode, the
last pass leaving the end-of-file indicator set. -/
theorem hash_loop_passes (env : Env) (hideal : 1 ≤ env.MD5DEEP_IDEAL_BLOCK_SIZE)
    (fuel n : Nat) (st : Int) (w : World)
    (hc : w.fdht.handle.clean) (he : w.fdht.handle.eof = false)
    (hB : 1 ≤ w.fdht.block_size)
    (hB64 : flag w.s.mode mode_piecewise = true → w.fdht.block_size < 2 ^ 64)
    (hfuel : w.fdht.handle.data.length < fuel)
    (hn : (w.fdht.handle.data.length - w.fdht.handle.pos) / w.fdht.block_size < n) :
    (hash_loop env fuel n st w = Run.divzero ∧ w.mayTrap) ∨
    ∃ (st' : Int) (w' : World),
      hash_loop env fuel n st w = Run.done (some st', w')
      ∧ passes w'.log = passes w.log
          + (if flag w.s.mode mode_piecewise
             then (w.fdht.handle.data.length - w.fdht.handle.pos) / w.fdht.block_size + 1
             else 1)
      ∧ w'.fdht.handle.eof = true := by
  by_cases hp : flag w.s.mode mode_piecewise = true
  · rw [if_pos hp]
    exact piecewise_loop_passes env hideal fuel w.fdht.handle.data w.fdht.block_size hB (hB64 hp)
      hfuel n st w hc he rfl hp rfl hn
  · rw [if_neg hp]
    have hn0 : 0 < n := lt_of_le_of_lt (Nat.zero_le _) hn
    obtain ⟨k, rfl⟩ : ∃ k, n = k + 1 := ⟨n - 1, by omega⟩
    rcases whole_hash_loop env fuel k st w hideal hB hc he (by simpa using hp) (by omega)
      with h | ⟨w1, cs, _, hf, h⟩
    · exact Or.inl h
    · right
      obtain ⟨hDs, hDh, hDab, hDf⟩ := hash_dispatch_frame env st w1
      refine ⟨_, _, h, ?_, ?_⟩
      · rcases hash_dispatch_log env st w1 with ⟨_, _, _, h2⟩ | ⟨_, _, h2, _⟩
        · rw [h2, hf.passes]
        · rw [h2, hf.passes]
      · rw [hDh, hf.handle]

/-- The same for `hash_main`, where the block size is first set to the piece size in
piecewise mode. -/
theorem hash_main_passes (env : Env) (hideal : 1 ≤ env.MD5DEEP_IDEAL_BLOCK_SIZE)
    (fuel : Nat) (w : World)
    (hc : w.fdht.handle.clean) (he : w.fdht.handle.eof = false)
    (hB : 1 ≤ (hash_block_size w).fdht.block_size)
    (hB64 : flag w.s.mode mode_piecewise = true → w.s.piecewise_size < 2 ^ 64)
    (hfuel : w.fdht.handle.data.length < fuel) :
    (hash_main env fuel w = Run.divzero ∧ w.mayTrap) ∨
    ∃ (st' : Int) (w' : World),
      hash_main env fuel w = Run.done (st', w')
      ∧ passes w'.log = passes w.log
          + (if flag w.s.mode mode_piecewise
             then (w.fdht.handle.data.length - w.fdht.handle.pos) / w.s.piecewise_size + 1
             else 1)
      ∧ w'.fdht.handle.eof = true := by
  have hbs : (hash_block_size w).s = w.s ∧ (hash_block_size w).fdht.handle = w.fdht.handle
      ∧ (hash_block_size w).log = w.log
      ∧ (hash_block_size w).fdht.stat_megs = w.fdht.stat_megs
      ∧ (flag w.s.mode mode_piecewise = true →
          (hash_block_size w).fdht.block_size = w.s.piecewise_size) := by
    unfold hash_block_size
    split
    · exact ⟨rfl, rfl, rfl, rfl, fun _ => rfl⟩
    · rename_i h
      exact ⟨rfl, rfl, rfl, rfl, fun h' => absurd h' h⟩
  obtain ⟨b1, b2, b3, b4, b5⟩ := hbs
  unfold hash_main
  rcases hash_loop_passes env hideal fuel fuel FALSE (hash_block_size w)
      (by rw [b2]; exact hc) (by rw [b2]; exact he) hB
      (by rw [b1]; intro hp; rw [b5 hp]; exact hB64 hp) (by rw [b2]; exact hfuel)
      (by
        rw [b2]
        exact lt_of_le_of_lt (Nat.div_le_self _ _) (by omega))
    with ⟨h, ht⟩ | ⟨st', w', h, hps, hfe⟩
  · left
    rw [h]
    refine ⟨rfl, ?_⟩
    unfold World.mayTrap at ht ⊢
    rw [b1, b4] at ht
    exact ht
  · right
    rw [h]
    simp only []
    obtain ⟨_, _, hp⟩ := accLog_dfxml w'
    refine ⟨_, _, rfl, ?_, ?_⟩
    · rw [hp, hps, b1, b2, b3]
      by_cases hpw : flag w.s.mode mode_piecewise = true
      · rw [if_pos hpw, if_pos hpw, b5 hpw]
      · rw [if_neg hpw, if_neg hpw]
    · split
      · exact hfe
      · exact hfe

theorem flag_two_pow (m k : Nat) : flag m (2 ^ k) = m.testBit k := by
  have h : m &&& 2 ^ k = if m.testBit k then 2 ^ k else 0 := by
    apply Nat.eq_of_testBit_eq
    intro i
    rw [Nat.testBit_and, Nat.testBit_two_pow]
    by_cases hk : k = i
    · subst hk
      cases hb : m.testBit k
      · simp
      · simp [Nat.testBit_two_pow]
    · cases hb : m.testBit k
      · simp [hk]
      · simp [hk, Nat.testBit_two_pow]
  unfold flag
  rw [h]
  cases hb : m.testBit k
  · simp
  · simp

/-- The subtraction of line 232 clears `mode_piecewise` when the flag is set, and
leaves `mode_estimate` as it is. -/
theorem flag_sub_piecewise (m : Nat) :
    flag (sub64 (m ||| mode_piecewise) mode_piecewise) mode_piecewise = false
    ∧ flag (sub64 (m ||| mode_piecewise) mode_piecewise) mode_estimate
        = flag m mode_estimate := by
  have h15 : (m ||| mode_piecewise).testBit 15 = true := by
    rw [Nat.testBit_or, show mode_piecewise = 2 ^ 15 from rfl, Nat.testBit_two_pow]
    simp
  have h1 : (m ||| mode_piecewise).testBit 1 = m.testBit 1 := by
    rw [Nat.testBit_or, show mode_piecewise = 2 ^ 15 from rfl, Nat.testBit_two_pow]
    simp
  rw [Nat.testBit_to_div_mod] at h15 h1
  simp only [decide_eq_true_eq] at h15
  have e15 : mode_piecewise = 2 ^ 15 := rfl
  have e1 : mode_estimate = 2 ^ 1 := rfl
  constructor
  · rw [e15, flag_two_pow, ← e15, Nat.testBit_to_div_mod]
    generalize m ||| mode_piecewise = a at h15
    unfold sub64
    simp only [decide_eq_false_iff_not]
    norm_num [mode_piecewise] at h15 ⊢
    omega
  · rw [e1, flag_two_pow, flag_two_pow, Nat.testBit_to_div_mod, ← h1]
    generalize m ||| mode_piecewise = a at h15
    unfold sub64
    norm_num [mode_piecewise] at h15 ⊢
    omega


/-- The triage pass over a stream whose reads report no error ends with `FALSE` after
one pass, in piecewise mode with a block of 512 bytes. -/
theorem triage_pass_ends (env : Env) (hideal : 1 ≤ env.MD5DEEP_IDEAL_BLOCK_SIZE)
    (fuel : Nat) (w : World)
    (hc : w.fdht.handle.clean) (he : w.fdht.handle.eof = false)
    (hfuel : w.fdht.handle.data.length < fuel) :
    (md5deep_hash_triage env fuel w = Run.divzero ∧ w.mayTrap) ∨
    ∃ w3 : World, md5deep_hash_triage env fuel w = Run.done (FALSE, triage_finish env w3)
      ∧ w3.fdht.handle.clean ∧ w3.fdht.handle.data = w.fdht.handle.data
      ∧ w3.s.mode = w.s.mode ||| mode_piecewise
      ∧ w3.fdht.stat_megs = w.fdht.stat_megs
      ∧ w3.fdht.block_size = 512
      ∧ passes w3.log = passes w.log + 1 := by
  have hloop := piece_loop env hideal fuel
    (compute_hash_mysize env ( multihash_initialize (triage_setup w))) 512
    (compute_hash_enter ( multihash_initialize (triage_setup w)))
    (by simp only [compute_hash_enter, multihash_initialize, triage_setup]; exact hc)
    (by simp only [compute_hash_enter, multihash_initialize, triage_setup]; exact he)
    (by simp only [compute_hash_enter, multihash_initialize, triage_setup]
        exact flag_or_piecewise _)
    (by norm_num) (by norm_num)
    (by
      unfold compute_hash_mysize
      simp only [ multihash_initialize, triage_setup]
      split <;> omega)
    (by simp only [compute_hash_enter, multihash_initialize, triage_setup]
        omega)
  have hb512 : ( multihash_initialize (triage_setup w)).fdht.block_size = 512 := rfl
  rcases hloop with ⟨h1, ht⟩ | ⟨w3, cs, h1, hcs, hcore⟩
  · left
    refine ⟨?_, ?_⟩
    · unfold md5deep_hash_triage compute_hash
      rw [hb512, h1]
    · unfold World.mayTrap at ht ⊢
      simp only [compute_hash_enter, multihash_initialize, triage_setup,
        flag_or_piecewise_estimate] at ht
      exact ht
  · right
    refine ⟨w3, ?_, ?_, ?_, ?_, ?_, ?_, ?_⟩
    · unfold md5deep_hash_triage compute_hash
      rw [hb512, h1]
    · rw [(core_frame hcore).1]
      exact afterChunks_clean _ _ _ hc
    · rw [(core_frame hcore).1]
      rfl
    · rw [(core_frame hcore).2.1]
      rfl
    · rw [(core_frame hcore).2.2]
      rfl
    · exact congrArg (fun x => x.fdht.block_size) hcore
    · rw [core_passes hcore]
      simp only [World.afterChunks, compute_hash_enter, multihash_initialize, triage_setup,
        passes_append, passes_updates]
      simp [passes]

/-- The world in which the main loop starts after a triage pass that left `w` and set
the mode flags to `m`. -/
theorem rewind_report (env : Env) (m : Nat) (w : World) :
    (hash_rewind (triage_report env m w)).s.mode = m
    ∧ (hash_rewind (triage_report env m w)).fdht.handle
        = { w.fdht.handle with pos := 0, eof := false }
    ∧ (hash_rewind (triage_report env m w)).fdht.block_size = w.fdht.block_size
    ∧ (hash_rewind (triage_report env m w)).fdht.stat_megs = w.fdht.stat_megs
    ∧ passes (hash_rewind (triage_report env m w)).log = passes w.log := by
  refine ⟨rfl, rfl, rfl, rfl, ?_⟩
  show passes (triage_report env m w).log = _
  rw [triage_report_log, passes_append, passes_append]
  rfl

/-- Termination of `hash`.  On a finite stream of `S` bytes at offset 0 whose reads
never report an error, with block size (piece size in piecewise mode) at least 1,
`hash` ends, given `S + 1` turns for each of its loops: it returns with the
end-of-file indicator set by its last pass, or the progress estimate divides by zero
(`mode_estimate` set and `stat_megs ≠ 0`).  With `mode_triage` clear it returns after
one `compute_hash` pass in whole-file mode and after exactly `S / P + 1` passes in
piecewise mode.  With `mode_triage` set it returns after two passes whether or not
`mode_piecewise` is set: the triage pass, and one whole-file pass, because line 232
has cleared `mode_piecewise`. -/
theorem hash_terminates (env : Env) (fuel : Nat) (w : World)
    (hideal : 1 ≤ env.MD5DEEP_IDEAL_BLOCK_SIZE)
    (hblock : 1 ≤ (if flag w.s.mode mode_piecewise then w.s.piecewise_size
                   else w.fdht.block_size))
    (hP64 : w.s.piecewise_size < 2 ^ 64)
    (hclean : w.fdht.handle.clean) (hpos : w.fdht.handle.pos = 0)
    (heof : w.fdht.handle.eof = false) (hfuel : w.fdht.handle.data.length < fuel) :
    (hash env fuel w = Run.divzero ∧ w.mayTrap) ∨
    ∃ (status : Int) (w' : World), hash env fuel w = Run.done (status, w')
      ∧ w'.fdht.handle.eof = true
      ∧ passes w'.log = passes w.log
          + (if flag w.s.mode mode_triage then 2
             else if flag w.s.mode mode_piecewise
               then w.fdht.handle.data.length / w.s.piecewise_size + 1
             else 1) := by
  obtain ⟨hbm, hbp, hbf, hbl, hbd⟩ := hash_begin_facts w
  by_cases htr : flag w.s.mode mode_triage = true
  · rw [if_pos htr]
    have htri : hash env fuel w
        = match md5deep_hash_triage env fuel (hash_begin w) with
          | Run.done (_, w2) => hash_main env fuel (hash_rewind w2)
          | Run.divzero => Run.divzero
          | Run.nofuel => Run.nofuel := by
      unfold hash
      simp only []
      rw [hbm, htr]
      rfl
    rcases triage_pass_ends env hideal fuel (hash_begin w) (by rw [hbf]; exact hclean)
        (by rw [hbf]; exact heof) (by rw [hbf]; exact hfuel)
      with ⟨h1, ht⟩ | ⟨w3, h1, hc3, hd3, hm3, hsm3, hb3, hp3⟩
    · left
      rw [htri, h1]
      refine ⟨rfl, ?_⟩
      unfold World.mayTrap at ht ⊢
      rw [hbm, hbf] at ht
      exact ht
    · rw [htri, h1]
      simp only []
      obtain ⟨r1, r2, r3, r4, r5⟩ := rewind_report env (sub64 w3.s.mode mode_piecewise) w3
      have hfin : triage_finish env w3
          = triage_report env (sub64 w3.s.mode mode_piecewise) w3 := rfl
      rw [hfin]
      generalize hash_rewind (triage_report env (sub64 w3.s.mode mode_piecewise) w3) = w4
        at r1 r2 r3 r4 r5 ⊢
      have hnp : flag w4.s.mode mode_piecewise = false := by
        rw [r1, hm3]; exact (flag_sub_piecewise _).1
      have hbs4 : (hash_block_size w4).fdht.block_size = 512 := by
        unfold hash_block_size
        rw [hnp]
        simp only [Bool.false_eq_true, if_false]
        rw [r3, hb3]
      rcases hash_main_passes env hideal fuel w4
          (by rw [r2]; exact ⟨hc3.1, hc3.2⟩) (by rw [r2])
          (by rw [hbs4]; norm_num)
          (by intro h; rw [hnp] at h; cases h)
          (by
            rw [r2]
            show w3.fdht.handle.data.length < fuel
            rw [hd3, hbf]
            exact hfuel)
        with ⟨h2, ht⟩ | ⟨st', w', h2, hps, hfe⟩
      · left
        refine ⟨h2, ?_⟩
        unfold World.mayTrap at ht ⊢
        rw [r1, hm3, (flag_sub_piecewise _).2, hbm, r4, hsm3, hbf] at ht
        exact ht
      · right
        refine ⟨st', w', h2, hfe, ?_⟩
        rw [hps, hnp, r5, hp3, hbl]
        simp only [Bool.false_eq_true, if_false]
  · rw [if_neg htr]
    have hmain : hash env fuel w = hash_main env fuel (hash_begin w) := by
      unfold hash
      simp only []
      rw [hbm, if_neg htr]
    rw [hmain]
    rcases hash_main_passes env hideal fuel (hash_begin w)
        (by rw [hbf]; exact hclean) (by rw [hbf]; exact heof)
        (by
          unfold hash_block_size
          rw [hbm]
          by_cases hp : flag w.s.mode mode_piecewise = true
          · rw [if_pos hp] at hblock ⊢
            show 1 ≤ (hash_begin w).s.piecewise_size
            rw [hbp]
            exact hblock
          · rw [if_neg hp] at hblock ⊢
            rw [hbf]
            exact hblock)
        (by intro _; rw [hbp]; exact hP64)
        (by rw [hbf]; exact hfuel)
      with ⟨h2, ht⟩ | ⟨st', w', h2, hps, hfe⟩
    · left
      refine ⟨h2, ?_⟩
      unfold World.mayTrap at ht ⊢
      rw [hbm, hbf] at ht
      exact ht
    · right
      refine ⟨st', w', h2, hfe, ?_⟩
      rw [hps, hbm, hbp, hbl, hbf]
      simp only [hpos, Nat.sub_zero]

/-- C19 as stated fails when `mode_triage` is set together with `mode_piecewise`: in
`triagePiecewiseWorld`, five bytes with pieces of 2 bytes, `hash` returns after 2
`compute_hash` passes, not after `5 / 2 + 1 = 3`. -/
theorem C19_counterexample :
    flag triagePiecewiseWorld.s.mode mode_piecewise = true
    ∧ triagePiecewiseWorld.fdht.handle.data.length = 5
    ∧ triagePiecewiseWorld.s.piecewise_size = 2
    ∧ hash sampleEnv 8 triagePiecewiseWorld
        = Run.done (0, (hash sampleEnv 8 triagePiecewiseWorld).worldOr triagePiecewiseWorld)
    ∧ passes ((hash sampleEnv 8 triagePiecewiseWorld).worldOr triagePiecewiseWorld).log = 2
    ∧ passes ((hash sampleEnv 8 triagePiecewiseWorld).worldOr triagePiecewiseWorld).log
        ≠ 5 / 2 + 1 := by
  refine ⟨by decide, rfl, rfl, ?_, ?_, ?_⟩ <;> decide

/-! ## The divisor of the estimate -/

/-- Claim C20 (no division by zero in the estimator) fails in the code.  In
`stalledWorld` the clock does not go back and `stat_megs` is 1; the first read returns
no byte with a recoverable error, `time` then reads 101, and `update_display` is
called with `elapsed = 1` and `actual_bytes = 0`: the rate `actual_bytes / elapsed` is
0 and line 55 divides `stat_bytes` by it.  In `slowWorld` no read fails: the first
read delivers 4 bytes in 5 seconds, and the rate `4 / 5` is 0 as well. -/
theorem C20_estimator_divides_by_zero :
    (stalledWorld.clock = [100, 101] ∧ stalledWorld.fdht.stat_megs ≠ 0
      ∧ file_fatal_error EINTR = false
      ∧ update_display sampleEnv
          { stalledWorld with fdht := { stalledWorld.fdht with actual_bytes := 0 } } 1 = none
      ∧ hash sampleEnv 4 stalledWorld = Run.divzero)
    ∧ (slowWorld.clock = [100, 105] ∧ slowWorld.fdht.stat_megs ≠ 0
      ∧ slowWorld.fdht.handle.script = []
      ∧ hash sampleEnv 4 slowWorld = Run.divzero) := by
  refine ⟨⟨rfl, ?_, ?_, ?_, ?_⟩, ⟨rfl, ?_, rfl, ?_⟩⟩ <;> decide

/-! ## Passes of a single turn -/

/-- A pass over a stream whose reads report no error returns after its first turn when
that turn meets the end of the stream, or when, in piecewise mode, the whole block
fits the buffer: the progress estimate is not reached. -/
theorem first_turn_returns (env : Env) (fuel m r : Nat) (w : World)
    (hc : w.fdht.handle.clean) (he : w.fdht.handle.eof = false) (hm : 1 ≤ m)
    (hend : w.fdht.handle.data.length - w.fdht.handle.pos < m
      ∨ (flag w.s.mode mode_piecewise = true ∧ m = r ∧ r < 2 ^ 64)) :
    ∃ w', compute_hash_loop env (fuel + 1) m r w = Run.done (true, w')
      ∧ w'.core = (w.afterChunks [(w.fdht.handle.data.drop w.fdht.handle.pos).take m]
          (decide (((w.fdht.handle.data.drop w.fdht.handle.pos).take m).length < m))).core := by
  have hfed := fed_clean m w hc he hm
  have hit := iter_clean env m r w hc hm
  unfold compute_hash_loop
  rw [hit]
  rcases compute_hash_tail_cases env m r
      ((w.fdht.handle.data.drop w.fdht.handle.pos).take m).length (compute_hash_fed m w)
    with ⟨_, w1, h1, hc1⟩ | ⟨_, _, _, h1⟩ | ⟨hf, hnot, _⟩
  · rw [h1]
    rw [hfed] at hc1
    exact ⟨w1, rfl, hc1⟩
  · rw [h1]
    exact ⟨_, rfl, by rw [hfed]⟩
  · exfalso
    rw [hfed] at hf
    have hlen : ¬ ((w.fdht.handle.data.drop w.fdht.handle.pos).take m).length < m := by
      simpa [feof, World.afterChunks] using hf
    have hl : ((w.fdht.handle.data.drop w.fdht.handle.pos).take m).length
        = min m (w.fdht.handle.data.length - w.fdht.handle.pos) := by
      simp
    rcases hend with h | ⟨hp, hmr, hr⟩
    · omega
    · apply hnot
      refine ⟨by rw [fed_mode]; exact hp, ?_⟩
      unfold next_remaining
      rw [fed_mode, hp, if_pos rfl, ← hmr]
      have : ((w.fdht.handle.data.drop w.fdht.handle.pos).take m).length = m := by omega
      rw [this]
      exact (sub64_eq m m (by omega) (le_refl m)).trans (Nat.sub_self m)

/-- With a buffer of at least 512 bytes the triage pass over a stream whose reads
report no error returns: its only turn ends the pass. -/
theorem triage_pass_returns (env : Env) (fuel : Nat) (w : World)
    (h512 : 512 ≤ env.MD5DEEP_IDEAL_BLOCK_SIZE)
    (hc : w.fdht.handle.clean) (he : w.fdht.handle.eof = false) (hfuel : 1 ≤ fuel) :
    ∃ (b : Int) (w' : World), md5deep_hash_triage env fuel w = Run.done (b, w') := by
  obtain ⟨k, rfl⟩ : ∃ k, fuel = k + 1 := ⟨fuel - 1, by omega⟩
  have hb512 : ( multihash_initialize (triage_setup w)).fdht.block_size = 512 := rfl
  have hm : compute_hash_mysize env ( multihash_initialize (triage_setup w)) = 512 := by
    unfold compute_hash_mysize
    rw [hb512]
    split <;> omega
  obtain ⟨w', h1, _⟩ := first_turn_returns env k 512 512
    (compute_hash_enter ( multihash_initialize (triage_setup w)))
    (by simp only [compute_hash_enter, multihash_initialize, triage_setup]; exact hc)
    (by simp only [compute_hash_enter, multihash_initialize, triage_setup]; exact he)
    (by norm_num)
    (Or.inr ⟨by simp only [compute_hash_enter, multihash_initialize, triage_setup]
                exact flag_or_piecewise _, rfl, by norm_num⟩)
  unfold md5deep_hash_triage compute_hash
  rw [hb512, hm, h1]
  exact ⟨_, _, rfl⟩

/-- Claim C10 (triage prefix).  For an error-free file of `S` bytes at offset 0 hashed by
`hash` with `mode_triage` set, the buffer holding at least 512 bytes:
`md5deep_hash_triage` returns `FALSE` after one pass; the bytes fed between its
`multihash_initialize` and `multihash_finalize` are exactly the first `min 512 S`
bytes of the file; the pass leaves the stream at offset `min 512 S`, so it consumes
no more than 512 bytes; the last thing the pass does is to print `stat_bytes` in
decimal, a tab and `hash_hex[md5deep_mode_algorithm]`, which for an algorithm in use is
the digest of those first bytes; and the normal hashing (`hash_main`) runs only
afterwards, on the world the triage pass left, rewound. -/
theorem C10_triage_prefix (env : Env) (fuel : Nat) (w : World)
    (h512 : 512 ≤ env.MD5DEEP_IDEAL_BLOCK_SIZE)
    (htr : flag w.s.mode mode_triage = true)
    (hclean : w.fdht.handle.clean) (hpos : w.fdht.handle.pos = 0)
    (heof : w.fdht.handle.eof = false)
    (hfuel : min 512 w.fdht.handle.data.length < fuel) :
    ∃ (w1 : World) (pre : List Event),
      md5deep_hash_triage env fuel (hash_begin w) = Run.done (FALSE, w1)
      ∧ hash env fuel w = hash_main env fuel (hash_rewind w1)
      ∧ passes w1.log = passes w.log + 1
      ∧ digestInputs w1.log = digestInputs w.log ++ [w.fdht.handle.data.take 512]
      ∧ w1.fdht.handle.pos = min 512 w.fdht.handle.data.length
      ∧ w1.fdht.handle.pos ≤ 512
      ∧ w1.log = pre ++ [Event.printf
          (toString w.fdht.stat_bytes ++ "\t"
            ++ w1.fdht.hash_hex.getD w.s.md5deep_mode_algorithm "")]
      ∧ (∀ a, env.hashes.get? w.s.md5deep_mode_algorithm = some a → a.inuse = true →
          w1.log = pre ++ [Event.printf
            (toString w.fdht.stat_bytes ++ "\t" ++ a.digest (w.fdht.handle.data.take 512))]) := by
  obtain ⟨hbm, hbp, hbf, hbl, hbd⟩ := hash_begin_facts w
  rcases triage_prefix env fuel w (by omega) htr hclean hpos heof hfuel
    with ⟨hT, _⟩ | ⟨w1, pre, h1, h2, h3, h4, h5, h6, h7, h8, h9⟩
  · obtain ⟨b, w', hd⟩ := triage_pass_returns env fuel (hash_begin w) h512
      (by rw [hbf]; exact hclean) (by rw [hbf]; exact heof) (by omega)
    rw [hd] at hT
    cases hT
  · have hline : triage_line w1
        = toString w.fdht.stat_bytes ++ "\t"
            ++ w1.fdht.hash_hex.getD w.s.md5deep_mode_algorithm "" := by
      unfold triage_line
      rw [h7, h8]
    refine ⟨w1, pre, h1, h2, h3, h4, h5, by rw [h5]; exact Nat.min_le_left _ _, ?_, ?_⟩
    · rw [h6, hline]
    · intro a ha hin
      rw [h6, hline, h9 a ha hin]

/-- Witness of C10 at 600 bytes with the 8192-byte buffer: the triage pass feeds the
first 512 bytes only and prints the size, a tab and their digest. -/
theorem C10_triage_prefix_witness :
    ∃ (w1 : World) (pre : List Event),
      md5deep_hash_triage sampleEnv8192 513 (hash_begin triageLongWorld) = Run.done (FALSE, w1)
      ∧ hash sampleEnv8192 513 triageLongWorld = hash_main sampleEnv8192 513 (hash_rewind w1)
      ∧ digestInputs w1.log = [List.replicate 512 1]
      ∧ w1.fdht.handle.pos = 512
      ∧ w1.log = pre ++ [Event.printf
          (toString 600 ++ "\t" ++ toString (List.replicate 512 1))] := by
  have hlen : triageLongWorld.fdht.handle.data.length = 600 := List.length_replicate 600 1
  have hmin : min 512 triageLongWorld.fdht.handle.data.length = 512 := by
    rw [hlen]
    decide
  obtain ⟨w1, pre, h1, h2, _, h4, h5, _, _, h8⟩ :=
    C10_triage_prefix sampleEnv8192 513 triageLongWorld (by decide) (by decide)
      ⟨rfl, by decide⟩ rfl rfl (by rw [hmin]; decide)
  have ht : List.take 512 triageLongWorld.fdht.handle.data = List.replicate 512 1 := by
    show List.take 512 (List.replicate 600 1) = _
    rw [List.take_replicate]
    exact congrArg (fun n => List.replicate n 1) (by decide)
  rw [ht] at h4
  rw [hmin] at h5
  have h9 := h8 _ rfl rfl
  rw [ht] at h9
  exact ⟨w1, pre, h1, h2, h4, h5, h9⟩

/-! ## Empty streams -/

/-- The normal hashing of a stream with nothing left to read: one pass, whose result
is dispatched exactly when `stat_bytes` is 0. -/
theorem empty_hash_main (env : Env) (fuel : Nat) (w0 : World)
    (hideal : 1 ≤ env.MD5DEEP_IDEAL_BLOCK_SIZE)
    (hB : 1 ≤ (hash_block_size w0).fdht.block_size)
    (hc : w0.fdht.handle.clean) (he : w0.fdht.handle.eof = false)
    (hd : w0.fdht.handle.data.length ≤ w0.fdht.handle.pos) (hfuel : 1 ≤ fuel) :
    ∃ (status : Int) (w' : World), hash_main env fuel w0 = Run.done (status, w')
      ∧ (w0.fdht.stat_bytes = 0 →
          accLog w'.log = accLog w0.log ++ [Event.init, Event.update [], Event.finalize]
          ∧ ∃ r, dispatches w'.log = dispatches w0.log ++ [r])
      ∧ (w0.fdht.stat_bytes ≠ 0 → dispatches w'.log = dispatches w0.log) := by
  obtain ⟨n, rfl⟩ : ∃ n, fuel = n + 1 := ⟨fuel - 1, by omega⟩
  have hbs : (hash_block_size w0).fdht.handle = w0.fdht.handle
      ∧ (hash_block_size w0).log = w0.log
      ∧ (hash_block_size w0).fdht.stat_bytes = w0.fdht.stat_bytes := by
    unfold hash_block_size
    split <;> exact ⟨rfl, rfl, rfl⟩
  obtain ⟨b1, b2, b3⟩ := hbs
  unfold hash_main
  generalize hash_block_size w0 = wb at hB b1 b2 b3 ⊢
  have hm : 1 ≤ compute_hash_mysize env (hash_pass_enter wb) := by
    unfold compute_hash_mysize
    split
    · exact hB
    · exact hideal
  obtain ⟨w1, h1, hcore⟩ := empty_loop env n (compute_hash_mysize env (hash_pass_enter wb))
    (hash_pass_enter wb).fdht.block_size (compute_hash_enter (hash_pass_enter wb))
    (by show wb.fdht.handle.clean; rw [b1]; exact hc)
    (by show wb.fdht.handle.eof = false; rw [b1]; exact he) hm
    (by show wb.fdht.handle.data.length ≤ wb.fdht.handle.pos; rw [b1]; exact hd)
  have hf := pass_facts wb w1 [[]] true hcore
  have hloop : hash_loop env (n + 1) (n + 1) FALSE wb
      = Run.done (some (hash_dispatch env FALSE w1).1, (hash_dispatch env FALSE w1).2) := by
    unfold hash_loop
    unfold compute_hash
    rw [h1]
    simp only []
    have hfe : feof (hash_dispatch env FALSE w1).2.fdht.handle = true := by
      rw [(hash_dispatch_frame env FALSE w1).2.1, hf.handle]
      rfl
    rw [hfe]
    simp
  rw [hloop]
  simp only []
  obtain ⟨ha, hdd, _⟩ := accLog_dfxml (hash_dispatch env FALSE w1).2
  refine ⟨_, _, rfl, ?_, ?_⟩
  · intro hs
    have hsb : w1.fdht.stat_bytes = 0 := by rw [hf.frame.stat_bytes, b3, hs]
    rcases hash_dispatch_log env FALSE w1 with ⟨_, hnz, _⟩ | ⟨_, h2, _, r, h3, _⟩
    · exact absurd hsb hnz
    · refine ⟨?_, r, ?_⟩
      · rw [ha, h2, hf.accLog, b2]
        simp
      · rw [hdd, h3, hf.dispatches, b2]
  · intro hs
    have hbr : w1.fdht.bytes_read = 0 := by rw [hf.bytes_read]; rfl
    rw [hdd, hash_dispatch_skip env FALSE w1 hbr (by rw [hf.frame.stat_bytes, b3]; exact hs),
      hf.dispatches, b2]

/-- The triage pass over a stream with nothing left to read. -/
theorem empty_triage_pass (env : Env) (fuel : Nat) (w : World)
    (hideal : 1 ≤ env.MD5DEEP_IDEAL_BLOCK_SIZE)
    (hc : w.fdht.handle.clean) (he : w.fdht.handle.eof = false)
    (hd : w.fdht.handle.data.length ≤ w.fdht.handle.pos) (hfuel : 1 ≤ fuel) :
    ∃ w3 : World, md5deep_hash_triage env fuel w = Run.done (FALSE, triage_finish env w3)
      ∧ w3.fdht.handle.clean ∧ w3.fdht.handle.data = w.fdht.handle.data
      ∧ w3.s.mode = w.s.mode ||| mode_piecewise
      ∧ w3.fdht.block_size = 512
      ∧ w3.fdht.stat_bytes = w.fdht.stat_bytes
      ∧ accLog w3.log = accLog w.log ++ [Event.init, Event.update []]
      ∧ dispatches w3.log = dispatches w.log := by
  obtain ⟨n, rfl⟩ : ∃ n, fuel = n + 1 := ⟨fuel - 1, by omega⟩
  have hb512 : ( multihash_initialize (triage_setup w)).fdht.block_size = 512 := rfl
  have hm : 1 ≤ compute_hash_mysize env ( multihash_initialize (triage_setup w)) := by
    unfold compute_hash_mysize
    rw [hb512]
    split <;> omega
  obtain ⟨w3, h1, hcore⟩ := empty_loop env n
    (compute_hash_mysize env ( multihash_initialize (triage_setup w))) 512
    (compute_hash_enter ( multihash_initialize (triage_setup w)))
    (by simp only [compute_hash_enter, multihash_initialize, triage_setup]; exact hc)
    (by simp only [compute_hash_enter, multihash_initialize, triage_setup]; exact he) hm
    (by simp only [compute_hash_enter, multihash_initialize, triage_setup]; exact hd)
  refine ⟨w3, ?_, ?_, ?_, ?_, ?_, ?_, ?_, ?_⟩
  · unfold md5deep_hash_triage compute_hash
    rw [hb512, h1]
  · rw [(core_frame hcore).1]
    exact afterChunks_clean _ _ _ hc
  · rw [(core_frame hcore).1]
    rfl
  · rw [(core_frame hcore).2.1]
    rfl
  · exact congrArg (fun x => x.fdht.block_size) hcore
  · exact congrArg (fun x => x.fdht.stat_bytes) hcore
  · rw [core_accLog hcore]
    simp only [World.afterChunks, compute_hash_enter, multihash_initialize, triage_setup,
      accLog_append]
    simp [accLog]
  · rw [core_dispatches hcore]
    simp only [World.afterChunks, compute_hash_enter, multihash_initialize, triage_setup,
      dispatches_append]
    simp [dispatches]

/-- The accumulator calls and the results in the log when the main loop starts after the
triage pass. -/
theorem rewind_report_log (env : Env) (m : Nat) (w : World) :
    accLog (hash_rewind (triage_report env m w)).log = accLog w.log ++ [Event.finalize]
    ∧ dispatches (hash_rewind (triage_report env m w)).log = dispatches w.log
    ∧ (hash_rewind (triage_report env m w)).fdht.stat_bytes = w.fdht.stat_bytes := by
  refine ⟨?_, ?_, rfl⟩
  · show accLog (triage_report env m w).log = _
    rw [triage_report_log, accLog_append, accLog_append]
    simp [accLog]
  · show dispatches (triage_report env m w).log = _
    rw [triage_report_log, dispatches_append, dispatches_append]
    simp [dispatches]

/-- Claim C9 (zero-length input), as the code has it.  For an empty stream whose reads
report no error, file or stdin, whole-file or piecewise mode (block size, respectively
piece size, at least 1), with or without a triage pass, `hash` returns.  When the
task has `stat_bytes = 0` it dispatches exactly one result, every
`multihash_initialize` ... `multihash_finalize` bracket of the run (one, or two with
`mode_triage`: the triage pass has its own) holds one `multihash_update` of zero bytes,
and so every digest is taken of the empty input.  When `stat_bytes ≠ 0` it dispatches
nothing.  `hash_stdin` is `hash` on the stdin task. -/
theorem C9_zero_length (env : Env) (fuel : Nat) (w : World)
    (hideal : 1 ≤ env.MD5DEEP_IDEAL_BLOCK_SIZE)
    (hblock : 1 ≤ (if flag w.s.mode mode_piecewise then w.s.piecewise_size
                   else w.fdht.block_size))
    (hclean : w.fdht.handle.clean) (hdata : w.fdht.handle.data = [])
    (heof : w.fdht.handle.eof = false) (hfuel : 1 ≤ fuel) :
    (∃ (status : Int) (w' : World), hash env fuel w = Run.done (status, w')
      ∧ (w.fdht.stat_bytes = 0 →
          (∃ r, dispatches w'.log = dispatches w.log ++ [r])
          ∧ accLog w'.log = accLog w.log
              ++ (if flag w.s.mode mode_triage
                  then [Event.init, Event.update [], Event.finalize,
                        Event.init, Event.update [], Event.finalize]
                  else [Event.init, Event.update [], Event.finalize])
          ∧ digestInputs w'.log = digestInputs w.log
              ++ (if flag w.s.mode mode_triage then [[], []] else [[]]))
      ∧ (w.fdht.stat_bytes ≠ 0 → dispatches w'.log = dispatches w.log))
    ∧ hash_stdin env fuel w.fdht.handle w
        = hash env fuel { w with fdht := { w.fdht with file_name := "stdin", is_stdin := true } } := by
  refine ⟨?_, rfl⟩
  obtain ⟨hbm, hbp, hbf, hbl, hbd⟩ := hash_begin_facts w
  by_cases htr : flag w.s.mode mode_triage = true
  · have htri : hash env fuel w
        = match md5deep_hash_triage env fuel (hash_begin w) with
          | Run.done (_, w2) => hash_main env fuel (hash_rewind w2)
          | Run.divzero => Run.divzero
          | Run.nofuel => Run.nofuel := by
      unfold hash
      simp only []
      rw [hbm, htr]
      rfl
    obtain ⟨w3, h1, hc3, hd3, hm3, hb3, hs3, ha3, hx3⟩ := empty_triage_pass env fuel
      (hash_begin w) hideal (by rw [hbf]; exact hclean) (by rw [hbf]; exact heof)
      (by rw [hbf]; show w.fdht.handle.data.length ≤ _; rw [hdata]; exact Nat.zero_le _) hfuel
    rw [htri, h1]
    simp only []
    obtain ⟨r1, r2, r3, _, _⟩ := rewind_report env (sub64 w3.s.mode mode_piecewise) w3
    obtain ⟨l1, l2, l3⟩ := rewind_report_log env (sub64 w3.s.mode mode_piecewise) w3
    have hfin : triage_finish env w3
        = triage_report env (sub64 w3.s.mode mode_piecewise) w3 := rfl
    rw [hfin]
    generalize hash_rewind (triage_report env (sub64 w3.s.mode mode_piecewise) w3) = w4
      at r1 r2 r3 l1 l2 l3 ⊢
    have hnp : flag w4.s.mode mode_piecewise = false := by
      rw [r1, hm3]; exact (flag_sub_piecewise _).1
    have hbs4 : (hash_block_size w4).fdht.block_size = 512 := by
      unfold hash_block_size
      rw [hnp]
      simp only [Bool.false_eq_true, if_false]
      rw [r3, hb3]
    have hdat : w4.fdht.handle.data = [] := by
      rw [r2]
      show w3.fdht.handle.data = []
      rw [hd3, hbf]
      exact hdata
    obtain ⟨st, w', h2, hz, hnz⟩ := empty_hash_main env fuel w4 hideal
      (by rw [hbs4]; norm_num) (by rw [r2]; exact ⟨hc3.1, hc3.2⟩) (by rw [r2])
      (by rw [hdat]; exact Nat.zero_le _) hfuel
    have hsb4 : w4.fdht.stat_bytes = w.fdht.stat_bytes := by rw [l3, hs3, hbf]
    refine ⟨st, w', h2, ?_, ?_⟩
    · intro hs
      obtain ⟨hacc, r, hr⟩ := hz (by rw [hsb4]; exact hs)
      have hacc2 : accLog w'.log = accLog w.log
          ++ [Event.init, Event.update [], Event.finalize,
              Event.init, Event.update [], Event.finalize] := by
        rw [hacc, l1, ha3, hbl]
        simp
      refine ⟨⟨r, by rw [hr, l2, hx3, hbl]⟩, ?_, ?_⟩
      · rw [if_pos htr]
        exact hacc2
      · rw [if_pos htr, digestInputs_eq, hacc2,
          digestInputsFrom_tail
            [Event.init, Event.update [], Event.finalize,
             Event.init, Event.update [], Event.finalize] [[], []] (fun _ => rfl),
          ← digestInputs_eq]
    · intro hs
      rw [hnz (by rw [hsb4]; exact hs), l2, hx3, hbl]
  · have hmain : hash env fuel w = hash_main env fuel (hash_begin w) := by
      unfold hash
      simp only []
      rw [hbm, if_neg htr]
    rw [hmain]
    obtain ⟨st, w', h2, hz, hnz⟩ := empty_hash_main env fuel (hash_begin w) hideal
      (by
        unfold hash_block_size
        rw [hbm]
        by_cases hp : flag w.s.mode mode_piecewise = true
        · rw [if_pos hp] at hblock ⊢
          show 1 ≤ (hash_begin w).s.piecewise_size
          rw [hbp]
          exact hblock
        · rw [if_neg hp] at hblock ⊢
          rw [hbf]
          exact hblock)
      (by rw [hbf]; exact hclean) (by rw [hbf]; exact heof)
      (by rw [hbf]; show w.fdht.handle.data.length ≤ _; rw [hdata]; exact Nat.zero_le _) hfuel
    refine ⟨st, w', h2, ?_, ?_⟩
    · intro hs
      obtain ⟨hacc, r, hr⟩ := hz (by rw [hbf]; exact hs)
      rw [hbl] at hacc hr
      refine ⟨⟨r, hr⟩, ?_, ?_⟩
      · rw [if_neg htr]
        exact hacc
      · rw [if_neg htr, digestInputs_eq, hacc,
          digestInputsFrom_tail [Event.init, Event.update [], Event.finalize] [[]]
            (fun _ => rfl),
          ← digestInputs_eq]
    · intro hs
      rw [hnz (by rw [hbf]; exact hs), hbl]

/-- Witness of C9 at an empty stream of size 0 with a triage pass: one result, two
brackets, each over the empty input. -/
theorem C9_zero_length_witness :
    ∃ (status : Int) (w' : World), hash sampleEnv 1 emptyTriageWorld = Run.done (status, w')
      ∧ (∃ r, dispatches w'.log = [r])
      ∧ digestInputs w'.log = [[], []] := by
  obtain ⟨st, w', h, hz, _⟩ :=
    (C9_zero_length sampleEnv 1 emptyTriageWorld (by decide) (by decide)
      ⟨rfl, by decide⟩ rfl rfl (by decide)).1
  obtain ⟨hr, _, hd⟩ := hz rfl
  exact ⟨st, w', h, hr, hd⟩

/-! ## Runs with a triage pass -/

/-- C1 as stated fails when `mode_triage` is set: `triageWorld` is an error-free stream
of ten bytes at offset 0 with `mode_piecewise` clear and `block_size = 4`, and `hash`
makes two `compute_hash` passes on it, the triage pass and the whole-file pass, not
exactly one. -/
theorem C1_counterexample :
    flag triageWorld.s.mode mode_piecewise = false
    ∧ 1 ≤ triageWorld.fdht.block_size
    ∧ triageWorld.fdht.handle = sampleFile [1, 2, 3, 4, 5, 6, 7, 8, 9, 10] []
    ∧ hash sampleEnv 11 triageWorld
        = Run.done (0, (hash sampleEnv 11 triageWorld).worldOr triageWorld)
    ∧ passes ((hash sampleEnv 11 triageWorld).worldOr triageWorld).log = 2
    ∧ ¬ ∃ (status : Int) (w' : World), hash sampleEnv 11 triageWorld = Run.done (status, w')
        ∧ passes w'.log = passes triageWorld.log + 1 := by
  have h0 : hash sampleEnv 11 triageWorld
      = Run.done (0, (hash sampleEnv 11 triageWorld).worldOr triageWorld) := by decide
  refine ⟨by decide, by decide, rfl, h0, by decide, ?_⟩
  rintro ⟨st, w', h, hp⟩
  rw [h0] at h
  simp only [Run.done.injEq, Prod.mk.injEq] at h
  rw [← h.2] at hp
  revert hp
  decide

/-- Claim C3 (piecewise ranges) fails in the code when `mode_triage` is set together
with `mode_piecewise`.  In `triagePiecewiseWorld`, an error-free file of five bytes
with pieces of 2 bytes, the subtraction at line 232 has cleared `mode_piecewise` when
the main loop starts: `hash` dispatches the single result `[0, 5)` without annotation,
taken of the whole file, where the claim has the three results `[0, 2)`, `[2, 4)`,
`[4, 5)` annotated `" offset 0-1"`, `" offset 2-3"`, `" offset 4-4"`. -/
theorem C3_ranges_after_triage :
    flag triagePiecewiseWorld.s.mode mode_piecewise = true
    ∧ triagePiecewiseWorld.fdht.handle.data = [1, 2, 3, 4, 5]
    ∧ triagePiecewiseWorld.s.piecewise_size = 2
    ∧ triagePiecewiseWorld.fdht.stat_bytes = 5
    ∧ hash sampleEnv 8 triagePiecewiseWorld
        = Run.done (0, (hash sampleEnv 8 triagePiecewiseWorld).worldOr triagePiecewiseWorld)
    ∧ (dispatches
        ((hash sampleEnv 8 triagePiecewiseWorld).worldOr triagePiecewiseWorld).log).map
          Result.key = [(0, 5, "")]
    ∧ digestInputs ((hash sampleEnv 8 triagePiecewiseWorld).worldOr triagePiecewiseWorld).log
        = [[1, 2, 3, 4, 5], [1, 2, 3, 4, 5]] := by
  refine ⟨by decide, rfl, rfl, rfl, ?_, ?_, ?_⟩ <;> decide

/-- Claim C19 (termination), as the code has it.  On a finite stream of `S` bytes at
offset 0 whose reads never report an error, with block size (piece size `P` in
piecewise mode) at least 1, `hash` ends, given `S + 1` turns for each of its loops:
either the progress estimate divides by zero (`mode_estimate` set and `stat_megs ≠ 0`),
or `hash` returns with the end-of-file indicator set by its last pass.  With
`mode_triage` clear it returns after exactly one `compute_hash` pass in whole-file mode
and after exactly `S / P + 1` passes in piecewise mode; with `mode_triage` set and
`mode_piecewise` clear the triage pass is one pass more, two in all. -/
theorem C19_termination (env : Env) (fuel : Nat) (w : World)
    (hideal : 1 ≤ env.MD5DEEP_IDEAL_BLOCK_SIZE)
    (hblock : 1 ≤ (if flag w.s.mode mode_piecewise then w.s.piecewise_size
                   else w.fdht.block_size))
    (hP64 : w.s.piecewise_size < 2 ^ 64)
    (hclean : w.fdht.handle.clean) (hpos : w.fdht.handle.pos = 0)
    (heof : w.fdht.handle.eof = false) (hfuel : w.fdht.handle.data.length < fuel) :
    (hash env fuel w = Run.divzero ∧ w.mayTrap) ∨
    ∃ (status : Int) (w' : World), hash env fuel w = Run.done (status, w')
      ∧ w'.fdht.handle.eof = true
      ∧ (flag w.s.mode mode_triage = false →
          passes w'.log = passes w.log
            + (if flag w.s.mode mode_piecewise
               then w.fdht.handle.data.length / w.s.piecewise_size + 1 else 1))
      ∧ (flag w.s.mode mode_triage = true → flag w.s.mode mode_piecewise = false →
          passes w'.log = passes w.log + 2) := by
  rcases hash_terminates env fuel w hideal hblock hP64 hclean hpos heof hfuel
    with h | ⟨st, w', h, he, hp⟩
  · exact Or.inl h
  · right
    refine ⟨st, w', h, he, ?_, ?_⟩
    · intro htr
      rw [hp, htr]
      simp only [Bool.false_eq_true, if_false]
    · intro htr _
      rw [hp, htr]
      simp only [if_true]

/-- Witness of C19 at five bytes in piecewise mode with pieces of 2 bytes and no
triage: three passes. -/
theorem C19_termination_witness :
    ∃ (status : Int) (w' : World), hash sampleEnv 6 fivePiecewiseWorld = Run.done (status, w')
      ∧ w'.fdht.handle.eof = true
      ∧ passes w'.log = 3 := by
  rcases C19_termination sampleEnv 6 fivePiecewiseWorld (by decide) (by decide) (by decide)
      ⟨rfl, by decide⟩ rfl rfl (by decide) with ⟨_, ht⟩ | ⟨st, w', h, he, hp, _⟩
  · exact absurd ht.1 (by decide)
  · exact ⟨st, w', h, he, hp (by decide)⟩

end Hashdeep
